import Mathlib

/-!
The concurrent crawler of `tour/crawler.go`.

A shallow embedding of `URLCache`, `fakeFetcher` and `Crawl`.

* `URLCache.Add` and `URLCache.Get` are pure functions on the contents of the
  `urls` map (an association list whose first binding of a key is the map value).
  `Lock` / `Unlock` act on the mutex of the receiver and leave the map alone, so they
  have no counterpart in a sequential call.
* `Crawl` runs in many goroutines.  A `Config` holds the shared cache, one `Frame` per
  goroutine created so far (goroutine `0` is `main`) and the log of calls made.  `step`
  executes one atomic action of one goroutine; a run is a list of actions (`run`).
  Every access to shared state (a call to `Fetch`, `Add`, `Get`, a read or write of the
  loop variable `u`, a rendezvous on the unbuffered channel `done`) is an action of its
  own, so every interleaving of these accesses is a run.  `Fetch` is a function of the
  url.
* `Add` and `Get` have value receivers: each call locks and unlocks the mutex of its own
  copy of the `URLCache`, which no other goroutine sees, while all copies refer to the one
  map (`Call`, `Shared` and `stepCall` below spell this out).  So in a run the lookup of
  line 22 and the assignment of line 23 are two accesses to the map, between which other
  goroutines may move, and the lookup of line 32 is one; `Lock` and `Unlock` are steps
  of no effect and are left out of `Crawl`.
* `depth` is an `Int`: a child is spawned only by a call with `depth > 0`, so `depth-1`
  never leaves the range of the machine integer.
* The closure at lines 55-58 calls `Crawl(u, ...)` with the captured loop variable `u`
  and not with its parameter `url`.  Up to Go 1.21 all iterations share one `u`; from
  Go 1.22 each iteration has its own.  `LoopVar` selects the reading.
-/

namespace Crawler

/-! ## Fetcher (lines 8-12, 74-87) -/

/-- The three results `(body, urls, err)` of one call to `Fetch`. -/
structure FetchResult where
  body : String
  urls : List String
  err : Option String
deriving DecidableEq

/-- A `Fetcher` answers every url with a `FetchResult`. -/
abbrev Fetcher := String → FetchResult

/-- The values of a `fakeFetcher` table (lines 77-80). -/
structure fakeResult where
  body : String
  urls : List String
deriving DecidableEq

/-- A table of canned results (line 75). -/
abbrev fakeFetcher := List (String × fakeResult)

/-- Lines 82-87: the stored result, or the error `not found: <url>`. -/
def fakeFetcher.Fetch (f : fakeFetcher) (url : String) : FetchResult :=
  match f.lookup url with
  | some res => ⟨res.body, res.urls, none⟩
  | none => ⟨"", [], some ("not found: " ++ url)⟩

/-- The populated table of lines 92-123. -/
def fetcher : fakeFetcher :=
  [ ("http://golang.org/",
      ⟨"The Go Programming Language",
       ["http://golang.org/pkg/", "http://golang.org/cmd/"]⟩),
    ("http://golang.org/pkg/",
      ⟨"Packages",
       ["http://golang.org/", "http://golang.org/cmd/",
        "http://golang.org/pkg/fmt/", "http://golang.org/pkg/os/"]⟩),
    ("http://golang.org/pkg/fmt/",
      ⟨"Package fmt", ["http://golang.org/", "http://golang.org/pkg/"]⟩),
    ("http://golang.org/pkg/os/",
      ⟨"Package os", ["http://golang.org/", "http://golang.org/pkg/"]⟩) ]

/-! ## URLCache (lines 14-34) -/

/-- The contents of the map `urls` of a `URLCache`. -/
structure URLCache where
  urls : List (String × String)
deriving DecidableEq

/-- The cache of line 89: an empty map. -/
def URLCache.empty : URLCache := ⟨[]⟩

/-- Lines 29-34: `v, ok = cache.urls[url]`; an absent key yields the zero value. -/
def URLCache.Get (cache : URLCache) (url : String) : String × Bool :=
  match cache.urls.lookup url with
  | some v => (v, true)
  | none => ("", false)

/-- Line 22: `_, ok := cache.urls[url]`. -/
def URLCache.has (cache : URLCache) (url : String) : Bool :=
  (cache.urls.lookup url).isSome

/-- Line 23: `cache.urls[url] = body`; a binding of `url` that is there is replaced. -/
def URLCache.put (cache : URLCache) (url body : String) : URLCache :=
  ⟨cache.urls.filter (fun p => !(p.1 == url)) ++ [(url, body)]⟩

/-- Lines 19-27, for a call that runs alone: store `body` under `url` unless the key is
there already. The result is the map after the call and the returned flag. -/
def URLCache.Add (cache : URLCache) (url body : String) : URLCache × Bool :=
  match cache.urls.lookup url with
  | none => (⟨cache.urls ++ [(url, body)]⟩, true)
  | some _ => (cache, false)

/-- One operation of a client of the cache. -/
inductive CacheOp where
  | add (url body : String)
  | get (url : String)
deriving DecidableEq

/-- The map after one operation. -/
def URLCache.apply (cache : URLCache) : CacheOp → URLCache
  | .add url body => (cache.Add url body).1
  | .get _ => cache

/-- The map after a sequence of operations, first to last. -/
def URLCache.applyAll (cache : URLCache) (ops : List CacheOp) : URLCache :=
  ops.foldl URLCache.apply cache

/-! ## Crawl (lines 38-68) -/

/-- Where a goroutine stands in lines 38-68. -/
inductive PC where
  /-- created by `go` (line 55), `Crawl(u, depth-1, fetcher)` not yet called -/
  | spawned
  /-- at line 39 -/
  | entry
  /-- `Fetch` succeeded, at line 48: in `Add`, at the lookup of line 22 -/
  | fetched
  /-- in `Add`, the lookup of line 22 has not found `url`; at line 23 -/
  | store
  /-- at the head of the loop of line 51 -/
  | loop
  /-- `u` holds `urls[i]`, at line 53 -/
  | check
  /-- at the head of the loop of line 63 -/
  | wait
  /-- `Crawl` has returned; a child is at `done <- true` (line 57) -/
  | returned
  /-- the completion signal has been received; the goroutine is gone -/
  | finished
deriving DecidableEq

/-- Which variable the closure of lines 55-58 reads when it evaluates `u`. -/
inductive LoopVar where
  /-- one `u` for the whole loop (Go up to 1.21) -/
  | shared
  /-- a fresh `u` per iteration (Go 1.22 and later) -/
  | perIteration
deriving DecidableEq

/-- One goroutine: the channel it reports to and the locals of its call of `Crawl`. -/
structure Frame where
  /-- the goroutine whose `done` receives the signal of line 57; `none` for `main` -/
  parent : Option Nat
  /-- the index in the parent's `urls` of the link examined when `go` was executed -/
  own : Nat
  pc : PC
  url : String
  depth : Int
  body : String
  urls : List String
  err : Option String
  /-- position of the loop of line 51 -/
  i : Nat
  /-- position of the loop of line 63 -/
  k : Nat
deriving DecidableEq

/-- What the log records. -/
inductive Event where
  /-- `Crawl(url, depth, fetcher)` was entered by goroutine `g` (line 39) -/
  | crawl (g : Nat) (url : String) (depth : Int)
  /-- goroutine `g` invoked `fetcher.Fetch(url)` (line 43) -/
  | fetch (g : Nat) (url : String)
  /-- goroutine `g` called `cache.Add(url, body)` and got `won` (line 48) -/
  | add (g : Nat) (url body : String) (won : Bool)
deriving DecidableEq

/-- The shared cache, the goroutines and the log. -/
structure Config where
  cache : URLCache
  gs : List Frame
  trace : List Event
deriving DecidableEq

/-- A scheduler choice. -/
inductive Action where
  /-- goroutine `g` executes its next statement -/
  | run (g : Nat)
  /-- goroutine `p` at `<-done` (line 65) receives from child `c` at `done <- true` -/
  | recv (p c : Nat)
deriving DecidableEq

/-- A goroutine just created by `go` at iteration `own` of goroutine `p`; it gets its
`url` and `depth` when it calls `Crawl` (line 56). -/
def Frame.child (p own : Nat) : Frame :=
  { parent := some p, own := own, pc := .spawned, url := "", depth := 0, body := "",
    urls := [], err := none, i := 0, k := 0 }

/-- The frame of `main`'s call `Crawl(url, depth, fetcher)`. -/
def Frame.main (url : String) (depth : Int) : Frame :=
  { parent := none, own := 0, pc := .entry, url := url, depth := depth, body := "",
    urls := [], err := none, i := 0, k := 0 }

/-- The start of a run: `main` is about to execute `Crawl(url, depth, fetcher)`. -/
def Config.init (cache : URLCache) (url : String) (depth : Int) : Config :=
  { cache := cache, gs := [Frame.main url depth], trace := [] }

/-- The start of the program: `main` (lines 70-72) with the cache of line 89. -/
def main : Config := Config.init URLCache.empty "http://golang.org/" 4

/-- The index in the parent's `urls` of the value a child finds in `u`: with a shared
variable the link of the iteration the parent `pf` is in (`i` once line 51 has assigned
it, the previous one otherwise), with a variable per iteration its own link. -/
def loopVarIndex (lv : LoopVar) (pf f : Frame) : Nat :=
  match lv with
  | .perIteration => f.own
  | .shared => if pf.pc = .check then pf.i else pf.i - 1

/-- `Crawl` (lines 38-68), one statement at a time: the next statement of goroutine `g`,
whose frame is `f`, with the closure of lines 55-58 around the call. `none`: `g` is blocked. -/
def Crawl (lv : LoopVar) (fetch : Fetcher) (g : Nat) (f : Frame) (c : Config) :
    Option Config :=
  match f.pc with
  | .spawned =>
    -- line 56: evaluate `u` and `depth-1` of the enclosing call, enter `Crawl`
    match f.parent with
    | none => none
    | some p =>
      match c.gs[p]? with
      | none => none
      | some pf =>
        match pf.urls[loopVarIndex lv pf f]? with
        | none => none
        | some u =>
          some { c with gs := c.gs.set g { f with pc := .entry, url := u, depth := pf.depth - 1 } }
  | .entry =>
    -- lines 39-47
    if f.depth ≤ 0 then
      some { c with gs := c.gs.set g { f with pc := .returned },
                    trace := c.trace ++ [.crawl g f.url f.depth] }
    else
      let r := fetch f.url
      let tr := c.trace ++ [.crawl g f.url f.depth, .fetch g f.url]
      let f1 := { f with body := r.body, urls := r.urls, err := r.err }
      match r.err with
      | some _ => some { c with gs := c.gs.set g { f1 with pc := .returned }, trace := tr }
      | none => some { c with gs := c.gs.set g { f1 with pc := .fetched }, trace := tr }
  | .fetched =>
    -- line 48, in `Add`: line 22; when the key is there, line 26 and on to line 51
    if c.cache.has f.url then
      some { c with gs := c.gs.set g { f with pc := .loop },
                    trace := c.trace ++ [.add g f.url f.body false] }
    else some { c with gs := c.gs.set g { f with pc := .store } }
  | .store =>
    -- in `Add`: lines 23-24, then on to line 51
    some { cache := c.cache.put f.url f.body, gs := c.gs.set g { f with pc := .loop },
           trace := c.trace ++ [.add g f.url f.body true] }
  | .loop =>
    -- line 51: next link, or on to line 63
    if f.i < f.urls.length then some { c with gs := c.gs.set g { f with pc := .check } }
    else some { c with gs := c.gs.set g { f with pc := .wait } }
  | .check =>
    -- lines 52-61
    match f.urls[f.i]? with
    | none => none
    | some u =>
      if (c.cache.Get u).2 then
        some { c with gs := c.gs.set g { f with pc := .loop, i := f.i + 1 } }
      else
        some { c with gs := c.gs.set g { f with pc := .loop, i := f.i + 1 }
                              ++ [Frame.child g f.i] }
  | .wait =>
    -- lines 63-67: `<-done` needs a sender (see `stepRecv`); after the loop, return
    if f.k < f.urls.length then none
    else some { c with gs := c.gs.set g { f with pc := .returned } }
  | .returned => none
  | .finished => none

/-- Line 65 meets line 57: `p` receives the signal of its child `ch`. -/
def stepRecv (p ch : Nat) (c : Config) : Option Config :=
  match c.gs[p]?, c.gs[ch]? with
  | some pf, some cf =>
    if pf.pc = .wait ∧ pf.k < pf.urls.length ∧ cf.pc = .returned ∧ cf.parent = some p then
      some { c with gs := (c.gs.set p { pf with k := pf.k + 1 }).set ch
                            { cf with pc := .finished } }
    else none
  | _, _ => none

/-- One atomic action. -/
def step (lv : LoopVar) (fetch : Fetcher) (a : Action) (c : Config) : Option Config :=
  match a with
  | .run g =>
    match c.gs[g]? with
    | none => none
    | some f => Crawl lv fetch g f c
  | .recv p ch => stepRecv p ch c

/-- Execute a schedule; `none` when one of its actions is not enabled. -/
def run (lv : LoopVar) (fetch : Fetcher) : List Action → Config → Option Config
  | [], c => some c
  | a :: as, c =>
    match step lv fetch a c with
    | none => none
    | some c1 => run lv fetch as c1

/-- The urls on which `Fetch` was invoked, in order. -/
def fetched : List Event → List String
  | [] => []
  | .fetch _ u :: es => u :: fetched es
  | _ :: es => fetched es

/-- `Crawl` has returned to `main`. -/
def Config.done (c : Config) : Bool :=
  match c.gs[0]? with
  | some f => f.pc = .returned
  | none => false

/-- Goroutine `g`, whose frame is `f`, cannot move: it has returned or finished, or it waits
at line 65 and none of its children is at line 57. -/
def Config.blocked (c : Config) (g : Nat) (f : Frame) : Bool :=
  match f.pc with
  | .wait =>
    decide (f.k < f.urls.length) &&
      c.gs.all fun cf => !(decide (cf.pc = .returned) && decide (cf.parent = some g))
  | .returned => true
  | .finished => true
  | _ => false

/-! ## Notions used to state properties of runs -/

/-- `Link fetch u v`: `Fetch(u)` succeeds and `v` is in its link list. -/
def Link (fetch : Fetcher) (u v : String) : Prop :=
  (fetch u).err = none ∧ v ∈ (fetch u).urls

/-- `Chain fetch seed n u`: `u` is reached from `seed` by `n` link hops. -/
inductive Chain (fetch : Fetcher) (seed : String) : Nat → String → Prop where
  | zero : Chain fetch seed 0 seed
  | hop {n : Nat} {u v : String} : Chain fetch seed n u → Link fetch u v →
      Chain fetch seed (n + 1) v

/-- `c` is a state of some run of `Crawl(seed, d, fetch)` started with `cache`. -/
def Reachable (lv : LoopVar) (fetch : Fetcher) (cache : URLCache) (seed : String) (d : Int)
    (c : Config) : Prop :=
  ∃ sched : List Action, run lv fetch sched (Config.init cache seed d) = some c

/-- No action is enabled. -/
def Config.stuck (c : Config) : Bool :=
  (List.range c.gs.length).all fun g =>
    match c.gs[g]? with
    | some f => c.blocked g f
    | none => true

/-- How often `Fetch` was invoked on `u`. -/
def fetchCount (u : String) (tr : List Event) : Nat :=
  (fetched tr).count u

/-- The urls for which a call of `Add` returned true, in order. -/
def added : List Event → List String
  | [] => []
  | .add _ u _ true :: es => u :: added es
  | _ :: es => added es

/-! ## The step relation and the invariants of a run -/

/-- The cases of `step`, one constructor per statement executed. -/
inductive Step (lv : LoopVar) (fetch : Fetcher) : Config → Config → Prop where
  | start {c : Config} {g p : Nat} {f pf : Frame} {u : String}
      (hg : c.gs[g]? = some f) (hpc : f.pc = .spawned) (hp : f.parent = some p)
      (hpf : c.gs[p]? = some pf) (hu : pf.urls[loopVarIndex lv pf f]? = some u) :
      Step lv fetch c
        { c with gs := c.gs.set g { f with pc := .entry, url := u, depth := pf.depth - 1 } }
  | exhausted {c : Config} {g : Nat} {f : Frame}
      (hg : c.gs[g]? = some f) (hpc : f.pc = .entry) (hd : f.depth ≤ 0) :
      Step lv fetch c
        { c with gs := c.gs.set g { f with pc := .returned },
                 trace := c.trace ++ [.crawl g f.url f.depth] }
  | fetchErr {c : Config} {g : Nat} {f : Frame} {e : String}
      (hg : c.gs[g]? = some f) (hpc : f.pc = .entry) (hd : 0 < f.depth)
      (he : (fetch f.url).err = some e) :
      Step lv fetch c
        { c with gs := c.gs.set g { f with pc := .returned, body := (fetch f.url).body,
                                           urls := (fetch f.url).urls, err := some e },
                 trace := c.trace ++ [.crawl g f.url f.depth, .fetch g f.url] }
  | fetchOk {c : Config} {g : Nat} {f : Frame}
      (hg : c.gs[g]? = some f) (hpc : f.pc = .entry) (hd : 0 < f.depth)
      (he : (fetch f.url).err = none) :
      Step lv fetch c
        { c with gs := c.gs.set g { f with pc := .fetched, body := (fetch f.url).body,
                                           urls := (fetch f.url).urls, err := none },
                 trace := c.trace ++ [.crawl g f.url f.depth, .fetch g f.url] }
  | hit {c : Config} {g : Nat} {f : Frame}
      (hg : c.gs[g]? = some f) (hpc : f.pc = .fetched) (hc : c.cache.has f.url = true) :
      Step lv fetch c
        { c with gs := c.gs.set g { f with pc := .loop },
                 trace := c.trace ++ [.add g f.url f.body false] }
  | miss {c : Config} {g : Nat} {f : Frame}
      (hg : c.gs[g]? = some f) (hpc : f.pc = .fetched) (hc : c.cache.has f.url = false) :
      Step lv fetch c { c with gs := c.gs.set g { f with pc := .store } }
  | put {c : Config} {g : Nat} {f : Frame}
      (hg : c.gs[g]? = some f) (hpc : f.pc = .store) :
      Step lv fetch c
        { cache := c.cache.put f.url f.body, gs := c.gs.set g { f with pc := .loop },
          trace := c.trace ++ [.add g f.url f.body true] }
  | next {c : Config} {g : Nat} {f : Frame}
      (hg : c.gs[g]? = some f) (hpc : f.pc = .loop) (hi : f.i < f.urls.length) :
      Step lv fetch c { c with gs := c.gs.set g { f with pc := .check } }
  | exit {c : Config} {g : Nat} {f : Frame}
      (hg : c.gs[g]? = some f) (hpc : f.pc = .loop) (hi : ¬ f.i < f.urls.length) :
      Step lv fetch c { c with gs := c.gs.set g { f with pc := .wait } }
  | skip {c : Config} {g : Nat} {f : Frame} {u : String}
      (hg : c.gs[g]? = some f) (hpc : f.pc = .check) (hu : f.urls[f.i]? = some u)
      (hc : (c.cache.Get u).2 = true) :
      Step lv fetch c { c with gs := c.gs.set g { f with pc := .loop, i := f.i + 1 } }
  | spawn {c : Config} {g : Nat} {f : Frame} {u : String}
      (hg : c.gs[g]? = some f) (hpc : f.pc = .check) (hu : f.urls[f.i]? = some u)
      (hc : (c.cache.Get u).2 = false) :
      Step lv fetch c
        { c with gs := c.gs.set g { f with pc := .loop, i := f.i + 1 } ++ [Frame.child g f.i] }
  | ret {c : Config} {g : Nat} {f : Frame}
      (hg : c.gs[g]? = some f) (hpc : f.pc = .wait) (hk : ¬ f.k < f.urls.length) :
      Step lv fetch c { c with gs := c.gs.set g { f with pc := .returned } }
  | recv {c : Config} {p ch : Nat} {pf cf : Frame}
      (hp : c.gs[p]? = some pf) (hch : c.gs[ch]? = some cf) (hpc : pf.pc = .wait)
      (hk : pf.k < pf.urls.length) (hcpc : cf.pc = .returned) (hpar : cf.parent = some p) :
      Step lv fetch c
        { c with gs := (c.gs.set p { pf with k := pf.k + 1 }).set ch { cf with pc := .finished } }

/-- The fetch of the frame's url succeeded and its results are the frame's locals. -/
def Frame.ok (fetch : Fetcher) (f : Frame) : Prop :=
  (fetch f.url).err = none ∧ f.urls = (fetch f.url).urls ∧ f.body = (fetch f.url).body ∧
    0 < f.depth ∧ f.err = none

/-- What holds of the locals of every frame of a run. -/
structure Frame.Local (fetch : Fetcher) (f : Frame) : Prop where
  idx_le : f.i ≤ f.urls.length
  check_lt : f.pc = .check → f.i < f.urls.length
  fresh : f.pc = .spawned ∨ f.pc = .entry → f.i = 0 ∧ f.k = 0
  ok : f.pc = .fetched ∨ f.pc = .loop ∨ f.pc = .check ∨ f.pc = .wait ∨ 0 < f.i ∨
    f.pc = .store → f.ok fetch
  ret : f.pc = .returned ∨ f.pc = .finished → f.i ≤ f.k
  sig_le : f.k ≤ f.urls.length
  past : f.pc = .wait ∨ f.pc = .returned ∨ f.pc = .finished → f.err = none → 0 < f.depth →
    f.i = f.urls.length

/-- How the frame of goroutine `g` is tied to its parent and to the seed of the run. -/
structure Frame.Linked (fetch : Fetcher) (seed : String) (d : Int) (gs : List Frame) (g : Nat)
    (f : Frame) : Prop where
  chain : f.pc ≠ .spawned → ∃ n : Nat, Chain fetch seed n f.url ∧ (n : Int) + f.depth = d
  par : ∀ p, f.parent = some p → p < g ∧ ∃ pf : Frame, gs[p]? = some pf ∧ f.own < pf.i
  root : f.parent = none → g = 0

/-- The number of goroutines spawned by goroutine `g`. -/
def spawnedBy (gs : List Frame) (g : Nat) : Nat :=
  gs.countP fun x => decide (x.parent = some g)

/-- The number of goroutines spawned by `g` whose completion signal `g` has received. -/
def joinedBy (gs : List Frame) (g : Nat) : Nat :=
  gs.countP fun x => decide (x.parent = some g ∧ x.pc = .finished)

/-- The loop positions of goroutine `g` against the goroutines it has spawned. -/
structure Frame.Counted (gs : List Frame) (g : Nat) (f : Frame) : Prop where
  kids : spawnedBy gs g ≤ f.i
  sigs : joinedBy gs g = f.k

/-- Goroutine `g` crawls `u` and stands at a place that satisfies `P`. -/
def At (P : PC → Prop) (gs : List Frame) (g : Nat) (u : String) : Prop :=
  ∃ f : Frame, gs[g]? = some f ∧ f.url = u ∧ P f.pc

/-- Inside the call `cache.Add(url, body)` of line 48. -/
def PC.inAdd (pc : PC) : Prop := pc = .fetched ∨ pc = .store

/-- Goroutine `g` has fetched `u` and has not left `cache.Add(u, body)` yet. -/
def Pending (gs : List Frame) (g : Nat) (u : String) : Prop := At PC.inAdd gs g u

/-- How the log and the cache of a run of `Crawl(seed, d, fetch)` started with `cache0`
hang together. -/
structure Config.Logged (fetch : Fetcher) (seed : String) (d : Int) (cache0 : URLCache)
    (c : Config) : Prop where
  near : ∀ u ∈ fetched c.trace, ∃ n : Nat, Chain fetch seed n u ∧ (n : Int) < d
  stored : ∀ (g : Nat) (u : String), Event.fetch g u ∈ c.trace → (fetch u).err = none →
    Pending c.gs g u ∨ (c.cache.Get u).2 = true
  fetching : ∀ (g : Nat) (u : String), Pending c.gs g u → Event.fetch g u ∈ c.trace
  sound : ∀ k v : String, c.cache.Get k = (v, true) →
    cache0.Get k = (v, true) ∨ ((fetch k).err = none ∧ v = (fetch k).body ∧ k ∈ fetched c.trace)
  mono : ∀ k v : String, cache0.Get k = (v, true) → c.cache.Get k = (v, true)
  missing : ∀ (g : Nat) (u : String), At (fun pc => pc = .store) c.gs g u →
    (cache0.Get u).2 = false
  won : ∀ u ∈ added c.trace, (c.cache.Get u).2 = true ∧ (cache0.Get u).2 = false
  crawled : ∀ (g : Nat) (u : String), Event.fetch g u ∈ c.trace →
    ∃ dep : Int, 0 < dep ∧ Event.crawl g u dep ∈ c.trace
  sent : ∀ (g : Nat) (k v : String) (w : Bool), Event.add g k v w ∈ c.trace →
    (fetch k).err = none ∧ v = (fetch k).body ∧ Event.fetch g k ∈ c.trace

/-- Everything that holds of every state of a run of `Crawl(seed, d, fetch)` started with
`cache0`. -/
structure Config.Inv (fetch : Fetcher) (seed : String) (d : Int) (cache0 : URLCache)
    (c : Config) : Prop where
  loc : ∀ (g : Nat) (f : Frame), c.gs[g]? = some f → f.Local fetch
  link : ∀ (g : Nat) (f : Frame), c.gs[g]? = some f → f.Linked fetch seed d c.gs g
  count : ∀ (g : Nat) (f : Frame), c.gs[g]? = some f → f.Counted c.gs g
  log : c.Logged fetch seed d cache0

/-- Scenario 1 of the specification: `A -> [B, C]`, `B -> [A]`, `C -> []`. -/
def scenario1 : fakeFetcher :=
  [("A", ⟨"a", ["B", "C"]⟩), ("B", ⟨"b", ["A"]⟩), ("C", ⟨"c", []⟩)]

/-- Scenario 4 of the specification: `A -> [B, C]`, `B -> [D]`, `C -> [D]`, `D -> []`. -/
def diamond : fakeFetcher :=
  [("A", ⟨"a", ["B", "C"]⟩), ("B", ⟨"b", ["D"]⟩), ("C", ⟨"c", ["D"]⟩), ("D", ⟨"d", []⟩)]

/-- A seed `A` with the single link `B`; `B` links on to `C`. -/
def pair : fakeFetcher :=
  [("A", ⟨"a", ["B"]⟩), ("B", ⟨"b", ["C"]⟩), ("C", ⟨"c", []⟩)]

/-- A run of scenario 1 with depth 2 in which every child starts as soon as it is
spawned: `main` crawls `A` and spawns goroutines 1 (`B`) and 2 (`C`); `B` finds `A` in the
cache; `C` returns and `main` receives its signal. -/
def scenario1Run : List Action :=
  [.run 0, .run 0, .run 0, .run 0, .run 0, .run 1, .run 0, .run 0, .run 2, .run 0,
   .run 1, .run 1, .run 1, .run 1, .run 1, .run 1,
   .run 2, .run 2, .run 2, .run 2, .run 2, .recv 0 2]

/-- A run of the diamond with depth 3, every child starting as soon as it is spawned:
goroutines 1 (`B`) and 2 (`C`) both look `D` up before either of the goroutines 3 and 4
they spawn for it has stored it; goroutine 3 stores `D` before goroutine 4 calls `Add`;
everybody returns. -/
def diamondRun : List Action :=
  [.run 0, .run 0, .run 0, .run 0, .run 0, .run 1, .run 0, .run 0, .run 2, .run 0,
   .run 1, .run 1, .run 1, .run 1, .run 1, .run 3, .run 1,
   .run 2, .run 2, .run 2, .run 2, .run 2, .run 4, .run 2,
   .run 3, .run 4, .run 3, .run 3, .run 4, .run 3, .run 4, .run 3, .run 4,
   .recv 1 3, .run 1, .recv 2 4, .run 2, .recv 0 1, .recv 0 2, .run 0]

/-- A run of the fixture with depth 4, every child starting as soon as it is spawned:
`main` spawns goroutines 1 (`pkg/`) and 2 (`cmd/`), goroutine 1 spawns goroutines 3
(`cmd/`), 4 (`pkg/fmt/`) and 5 (`pkg/os/`); all of them fetch. -/
def fixtureRun : List Action :=
  [.run 0, .run 0, .run 0, .run 0, .run 0, .run 1, .run 0, .run 0, .run 2, .run 0,
   .run 2,
   .run 1, .run 1, .run 1, .run 1, .run 1, .run 1, .run 1, .run 3, .run 1, .run 1, .run 4,
   .run 1, .run 1, .run 5, .run 1,
   .run 3, .run 4, .run 5]

/-- The run `fixtureRun` continued until nothing can move: goroutines 4 and 5 store their
pages and find both their links in the cache; goroutine 1 receives the signal of goroutine
3 and `main` that of goroutine 2. -/
def mainRun : List Action :=
  fixtureRun ++
  [.run 4, .run 4, .run 4, .run 4, .run 4, .run 4, .run 4,
   .run 5, .run 5, .run 5, .run 5, .run 5, .run 5, .run 5,
   .recv 1 3, .recv 0 2]

/-- A run of `pair` with depth 1: `main` fetches `A` and spawns goroutine 1 for `B` with
depth 0, which returns at once; `main` receives its signal and returns. -/
def pairRun1 : List Action :=
  [.run 0, .run 0, .run 0, .run 0, .run 0, .run 1, .run 0, .run 1, .recv 0 1, .run 0]

/-- A run of `pair` with depth 2 that returns to `main`: goroutine 1 fetches and stores
`B` and spawns goroutine 2 for `C` with depth 0. -/
def pairRun2 : List Action :=
  [.run 0, .run 0, .run 0, .run 0, .run 0, .run 1, .run 0,
   .run 1, .run 1, .run 1, .run 1, .run 1, .run 2, .run 1, .run 2, .recv 1 2, .run 1,
   .recv 0 1, .run 0]

/-- The cache and the goroutines of a state, without the log. -/
def Config.state (c : Config) : URLCache × List Frame := (c.cache, c.gs)

/-- The frame of `main` in the fixture at line 53, about to examine its first link. -/
def fixtureMainFrame : Frame :=
  { Frame.main "http://golang.org/" 4 with
    pc := .check, body := "The Go Programming Language",
    urls := ["http://golang.org/pkg/", "http://golang.org/cmd/"] }

/-- The state of the fixture in which `main` has fetched and stored the seed. -/
def fixtureMainChecks : Config :=
  { cache := ⟨[("http://golang.org/", "The Go Programming Language")]⟩,
    gs := [fixtureMainFrame],
    trace := [.crawl 0 "http://golang.org/" 4, .fetch 0 "http://golang.org/",
      .add 0 "http://golang.org/" "The Go Programming Language" true] }

/-- A cache that already holds the seed of the fixture, with some older content. -/
def staleCache : URLCache := ⟨[("http://golang.org/", "old")]⟩

/-- The number of completion signals a frame receives in the loop of lines 63-66 before it
returns: one for each element of `urls`. -/
def Frame.awaited (f : Frame) : Nat := f.urls.length

/-- Past the loop of lines 51-62. -/
def PC.pastLoop (pc : PC) : Prop := pc = .wait ∨ pc = .returned ∨ pc = .finished

/-- `f1` is a later state of the frame `f`, both past the loop of lines 51-62. -/
def Frame.Later (f f1 : Frame) : Prop :=
  f1.urls = f.urls ∧ f1.err = f.err ∧ f1.depth = f.depth ∧ f1.pc.pastLoop

/-- What a goroutine that has entered `Crawl` was called with: the depth of its parent less
one and a link of its parent, the one examined when it was spawned or a later one, and
that very one when each iteration has its own `u`. -/
def Frame.Started (lv : LoopVar) (gs : List Frame) (f : Frame) : Prop :=
  ∀ p : Nat, f.parent = some p → f.pc ≠ .spawned →
    ∃ pf : Frame, gs[p]? = some pf ∧ f.depth = pf.depth - 1 ∧
      ∃ j : Nat, f.own ≤ j ∧ pf.urls[j]? = some f.url ∧ (lv = .perIteration → j = f.own)

/-- A run of scenario 1 with depth 2 in which the goroutine spawned for `B` starts only
after `main` has gone on to examine `C`. -/
def lateStartRun : List Action :=
  [.run 0, .run 0, .run 0, .run 0, .run 0, .run 0, .run 0, .run 1, .run 2, .run 1, .run 2]

/-- Where a call of `Add` (lines 19-27) or of `Get` (lines 29-34) stands. -/
inductive CallPC where
  /-- the call is made next: its receiver is copied from the variable `cache` -/
  | called
  /-- at line 20 / 30 -/
  | lock
  /-- holding the mutex of the receiver, at line 22 / 32 -/
  | lookup
  /-- `Add`, the key was not found: at line 23 -/
  | assign
  /-- the result is set; the deferred `Unlock` of line 21 / 31 is next -/
  | unlock
  | returned
deriving DecidableEq

/-- One call in progress.  The methods have value receivers: the receiver is a copy of the
`URLCache` the call is made on, with a mutex of its own and the same map. -/
structure Call where
  op : CacheOp
  pc : CallPC
  /-- whether the mutex of the receiver is locked -/
  mtx : Bool
  /-- `(v, ok)` of `Get`; the flag of `Add`, with an empty string -/
  out : String × Bool
deriving DecidableEq

/-- The variable `cache` of line 89, its map and its mutex, and the calls made on it. -/
structure Shared where
  urls : URLCache
  mtx : Bool
  calls : List Call
deriving DecidableEq

/-- The calls `ops` are about to be made on `cache`, whose mutex is not locked. -/
def Shared.init (urls : URLCache) (ops : List CacheOp) : Shared :=
  { urls := urls, mtx := false,
    calls := ops.map fun op => { op := op, pc := .called, mtx := false, out := ("", false) } }

/-- The next statement of call `j`. `none`: it is blocked or has returned. -/
def stepCall (j : Nat) (s : Shared) : Option Shared :=
  match s.calls[j]? with
  | none => none
  | some cl =>
    match cl.pc with
    | .called =>
      -- `cache.Add(..)` / `cache.Get(..)`: the receiver is a copy of `cache`, mutex included
      some { s with calls := s.calls.set j { cl with pc := .lock, mtx := s.mtx } }
    | .lock =>
      -- `cache.mtx.Lock()` on the receiver
      if cl.mtx then none
      else some { s with calls := s.calls.set j { cl with pc := .lookup, mtx := true } }
    | .lookup =>
      match cl.op with
      | .add url _ =>
        if s.urls.has url then
          some { s with calls := s.calls.set j { cl with pc := .unlock, out := ("", false) } }
        else some { s with calls := s.calls.set j { cl with pc := .assign } }
      | .get url =>
        some { s with calls := s.calls.set j { cl with pc := .unlock, out := s.urls.Get url } }
    | .assign =>
      match cl.op with
      | .add url body =>
        some { s with urls := s.urls.put url body,
                      calls := s.calls.set j { cl with pc := .unlock, out := ("", true) } }
      | .get _ => none
    | .unlock =>
      -- `cache.mtx.Unlock()` on the receiver
      some { s with calls := s.calls.set j { cl with pc := .returned, mtx := false } }
    | .returned => none

/-- Execute the calls in the order of a schedule. -/
def runCalls : List Nat → Shared → Option Shared
  | [], s => some s
  | j :: js, s =>
    match stepCall j s with
    | none => none
    | some s1 => runCalls js s1

/-- The call is between its `Lock` and its `Unlock`. -/
def Call.inBody (cl : Call) : Bool :=
  decide (cl.pc = .lookup) || decide (cl.pc = .assign) || decide (cl.pc = .unlock)

/-- The run `diamondRun` with goroutines 3 and 4 both inside `Add("D", _)` at once: both
look `D` up before either assigns it. -/
def diamondRace : List Action :=
  [.run 0, .run 0, .run 0, .run 0, .run 0, .run 1, .run 0, .run 0, .run 2, .run 0,
   .run 1, .run 1, .run 1, .run 1, .run 1, .run 3, .run 1,
   .run 2, .run 2, .run 2, .run 2, .run 2, .run 4, .run 2,
   .run 3, .run 4, .run 3, .run 4, .run 3, .run 4, .run 3, .run 4, .run 3, .run 4,
   .recv 1 3, .run 1, .recv 2 4, .run 2, .recv 0 1, .recv 0 2, .run 0]

/-- `f1` is a later state of the goroutine whose frame was `f`: the same parent and
position, and once `Crawl` is entered the same call, once the fetch is made the same
results. -/
def Frame.Grown (f f1 : Frame) : Prop :=
  f1.parent = f.parent ∧ f1.own = f.own ∧ f.i ≤ f1.i ∧
  (f.pc ≠ .spawned → f1.pc ≠ .spawned ∧ f1.url = f.url ∧ f1.depth = f.depth) ∧
  (f.pc ≠ .spawned → f.pc ≠ .entry →
    f1.pc ≠ .entry ∧ f1.urls = f.urls ∧ f1.err = f.err ∧ f1.body = f.body)

/-- How the log of fetches and the frames of a run of `Crawl(seed, _, fetch)` hang
together: a `Fetch` is logged for a goroutine once it is past line 43, on the url it was
called with, and once only. -/
structure Config.Traced (fetch : Fetcher) (seed : String) (c : Config) : Prop where
  by_frame : ∀ (g : Nat) (u : String), Event.fetch g u ∈ c.trace →
    ∃ f : Frame, c.gs[g]? = some f ∧ f.url = u ∧ f.pc ≠ .spawned ∧ f.pc ≠ .entry ∧ 0 < f.depth
  once : ∀ (g : Nat) (u : String), c.trace.count (Event.fetch g u) ≤ 1
  logged : ∀ (g : Nat) (f : Frame), c.gs[g]? = some f → f.pc ≠ .spawned → f.pc ≠ .entry →
    Event.crawl g f.url f.depth ∈ c.trace ∧ (0 < f.depth → Event.fetch g f.url ∈ c.trace)
  kept : ∀ (g : Nat) (f : Frame), c.gs[g]? = some f → f.pc ≠ .spawned → f.pc ≠ .entry →
    0 < f.depth → f.err = (fetch f.url).err ∧ f.urls = (fetch f.url).urls
  early : ∀ (g : Nat) (f : Frame), c.gs[g]? = some f → f.pc = .fetched ∨ f.pc = .store →
    f.i = 0
  main : ∃ f : Frame, c.gs[0]? = some f ∧ f.url = seed ∧ f.pc ≠ .spawned

/-- The link for which the goroutine was spawned, the one its parent examined at line 53
when it executed `go`, is not `u`. -/
def Frame.Apart (u : String) (gs : List Frame) (f : Frame) : Prop :=
  ∀ p : Nat, f.parent = some p →
    ∃ (pf : Frame) (v : String), gs[p]? = some pf ∧ pf.urls[f.own]? = some v ∧ v ≠ u

/-- No two goroutines were spawned by one goroutine at one position of its loop. -/
def OnePerLink (gs : List Frame) : Prop :=
  ∀ (g1 g2 p : Nat) (f1 f2 : Frame), gs[g1]? = some f1 → gs[g2]? = some f2 →
    f1.parent = some p → f2.parent = some p → f1.own = f2.own → g1 = g2

/-- A run of the fixture in which `main` examines both its links, `pkg/` and `cmd/`, before
either of the two goroutines it spawns starts; everybody returns. -/
def siblingLostRun : List Action :=
  [.run 0, .run 0, .run 0, .run 0, .run 0, .run 0, .run 0, .run 1, .run 2, .run 1, .run 2,
   .run 0, .recv 0 1, .recv 0 2, .run 0]

/-! ## Theorems -/

theorem URLCache.Get_of_lookup_none {cache : URLCache} {url : String}
    (h : cache.urls.lookup url = none) : cache.Get url = ("", false) := by
  simp [URLCache.Get, h]

theorem URLCache.Get_of_lookup_some {cache : URLCache} {url v : String}
    (h : cache.urls.lookup url = some v) : cache.Get url = (v, true) := by
  simp [URLCache.Get, h]

theorem URLCache.Get_found_iff {cache : URLCache} {url : String} :
    (cache.Get url).2 = true ↔ ∃ v, cache.urls.lookup url = some v := by
  unfold URLCache.Get
  cases h : cache.urls.lookup url <;> simp

theorem URLCache.Get_eq_true_iff {cache : URLCache} {url v : String} :
    cache.Get url = (v, true) ↔ cache.urls.lookup url = some v := by
  unfold URLCache.Get
  cases h : cache.urls.lookup url <;> simp

theorem URLCache.Add_of_absent {cache : URLCache} {url : String} (body : String)
    (h : (cache.Get url).2 = false) :
    cache.Add url body = (⟨cache.urls ++ [(url, body)]⟩, true) := by
  unfold URLCache.Get at h
  unfold URLCache.Add
  cases h1 : cache.urls.lookup url <;> simp_all

theorem URLCache.Add_of_present {cache : URLCache} {url : String} (body : String)
    (h : (cache.Get url).2 = true) : cache.Add url body = (cache, false) := by
  unfold URLCache.Get at h
  unfold URLCache.Add
  cases h1 : cache.urls.lookup url <;> simp_all

/-- A binding that is found stays found, with the same value, after any `Add`. -/
theorem URLCache.Get_Add_of_found {cache : URLCache} {k v : String} (url body : String)
    (h : cache.Get k = (v, true)) : (cache.Add url body).1.Get k = (v, true) := by
  cases hp : (cache.Get url).2
  · rw [URLCache.Add_of_absent body hp]
    rw [URLCache.Get_eq_true_iff] at h ⊢
    simp [List.lookup_append, h]
  · rw [URLCache.Add_of_present body hp]
    exact h

/-- After `Add(url, _)` the key `url` is found. -/
theorem URLCache.Get_Add_self_found (cache : URLCache) (url body : String) :
    ((cache.Add url body).1.Get url).2 = true := by
  cases hp : (cache.Get url).2
  · rw [URLCache.Add_of_absent body hp, URLCache.Get_found_iff]
    have hn : cache.urls.lookup url = none := by
      cases h1 : cache.urls.lookup url with
      | none => rfl
      | some v => simp [URLCache.Get, h1] at hp
    exact ⟨body, by simp [List.lookup_append, hn, List.lookup]⟩
  · rw [URLCache.Add_of_present body hp]
    exact hp

/-- `Add(url, _)` does not touch the other keys. -/
theorem URLCache.Get_Add_of_ne (cache : URLCache) {url k : String} (body : String)
    (hne : k ≠ url) : (cache.Add url body).1.Get k = cache.Get k := by
  cases hp : (cache.Get url).2
  · rw [URLCache.Add_of_absent body hp]
    have hb : (k == url) = false := by simpa using hne
    unfold URLCache.Get
    simp only [List.lookup_append, List.lookup, hb]
    cases cache.urls.lookup k <;> rfl
  · rw [URLCache.Add_of_present body hp]

theorem URLCache.applyAll_keeps_found {k c : String} (ops : List CacheOp) :
    ∀ cache : URLCache, cache.Get k = (c, true) → (cache.applyAll ops).Get k = (c, true) := by
  induction ops with
  | nil => intro cache h; exact h
  | cons op ops ih =>
    intro cache h
    have h1 : (cache.apply op).Get k = (c, true) := by
      cases op with
      | add url body => exact URLCache.Get_Add_of_found url body h
      | get url => exact h
    exact ih (cache.apply op) h1

theorem URLCache.Add_true_iff (cache : URLCache) (url body : String) :
    (cache.Add url body).2 = true ↔ (cache.Get url).2 = false := by
  cases hp : (cache.Get url).2
  · rw [URLCache.Add_of_absent body hp]
    simp
  · rw [URLCache.Add_of_present body hp]
    simp

theorem URLCache.Get_Add_self_of_absent {cache : URLCache} {url : String} (body : String)
    (hp : (cache.Get url).2 = false) : (cache.Add url body).1.Get url = (body, true) := by
  have hn : cache.urls.lookup url = none := by
    cases h1 : cache.urls.lookup url with
    | none => rfl
    | some v => simp [URLCache.Get, h1] at hp
  rw [URLCache.Add_of_absent body hp, URLCache.Get_eq_true_iff]
  simp [List.lookup_append, hn, List.lookup]

/-- C5 (insert-if-absent): `Add(id, c)` returns true exactly when `id` was absent, and
then `Get(id)` yields `(c, true)`; when `id` was present `Add` returns false and the map
is the one before the call, so `Get(id)` still yields the old content. -/
theorem URLCache.Add_insert_if_absent (cache : URLCache) (id c : String) :
    ((cache.Add id c).2 = true ↔ (cache.Get id).2 = false) ∧
    ((cache.Get id).2 = false → (cache.Add id c).1.Get id = (c, true)) ∧
    ((cache.Get id).2 = true →
      (cache.Add id c).2 = false ∧ (cache.Add id c).1 = cache ∧
      (cache.Add id c).1.Get id = cache.Get id) := by
  refine ⟨URLCache.Add_true_iff cache id c, URLCache.Get_Add_self_of_absent c, fun hp => ?_⟩
  rw [URLCache.Add_of_present c hp]
  exact ⟨rfl, rfl, rfl⟩

/-- C6 (cache monotonicity): a key found with content `c` after some operations is
found with the same content `c` after any further `Add` and `Get` operations. -/
theorem URLCache.applyAll_monotone (cache : URLCache) (pre post : List CacheOp)
    (k c : String) (h : (cache.applyAll pre).Get k = (c, true)) :
    (cache.applyAll (pre ++ post)).Get k = (c, true) := by
  have h1 : cache.applyAll (pre ++ post) = (cache.applyAll pre).applyAll post := by
    simp [URLCache.applyAll, List.foldl_append]
  rw [h1]
  exact URLCache.applyAll_keeps_found post _ h

/-- C6 at a concrete cache: `a` keeps its first content through later operations. -/
theorem URLCache.applyAll_monotone_witness :
    (URLCache.empty.applyAll [.add "a" "x"]).Get "a" = ("x", true) ∧
    (URLCache.empty.applyAll ([.add "a" "x"] ++ [.add "a" "y", .get "a", .add "b" "z"])).Get "a"
      = ("x", true) :=
  ⟨by decide, URLCache.applyAll_monotone URLCache.empty [.add "a" "x"]
    [.add "a" "y", .get "a", .add "b" "z"] "a" "x" (by decide)⟩

theorem lookup_filter_ne (l : List (String × String)) (url k : String) :
    (l.filter fun p => !(p.1 == url)).lookup k = if k = url then none else l.lookup k := by
  induction l with
  | nil => simp
  | cons p l ih =>
    obtain ⟨a, b⟩ := p
    by_cases ha : a = url
    · subst ha
      simp only [List.filter_cons, beq_self_eq_true, Bool.not_true, Bool.false_eq_true,
        if_false, ih, List.lookup_cons]
      by_cases hk : k = a
      · simp [hk]
      · have hb : (k == a) = false := by simpa using hk
        simp [hk, hb]
    · have hb : (a == url) = false := by simpa using ha
      simp only [List.filter_cons, hb, Bool.not_false, if_true, List.lookup_cons, ih]
      by_cases hk : k = a
      · subst hk
        simp [ha]
      · have hb2 : (k == a) = false := by simpa using hk
        simp [hb2]

theorem URLCache.has_eq_Get (cache : URLCache) (url : String) :
    cache.has url = (cache.Get url).2 := by
  unfold URLCache.has URLCache.Get
  cases cache.urls.lookup url <;> rfl

theorem URLCache.Get_put_self (cache : URLCache) (url body : String) :
    (cache.put url body).Get url = (body, true) := by
  rw [URLCache.Get_eq_true_iff]
  simp [URLCache.put, List.lookup_append, lookup_filter_ne, List.lookup]

theorem URLCache.Get_put_of_ne (cache : URLCache) {url k : String} (body : String)
    (hne : k ≠ url) : (cache.put url body).Get k = cache.Get k := by
  have hb : (k == url) = false := by simpa using hne
  unfold URLCache.Get
  simp only [URLCache.put, List.lookup_append, lookup_filter_ne, if_neg hne, List.lookup, hb]
  cases cache.urls.lookup k <;> rfl

theorem filter_ne_of_lookup_none (l : List (String × String)) (url : String)
    (h : l.lookup url = none) : (l.filter fun p => !(p.1 == url)) = l := by
  induction l with
  | nil => rfl
  | cons p l ih =>
    obtain ⟨a, b⟩ := p
    by_cases ha : url = a
    · subst ha
      simp [List.lookup_cons] at h
    · have hb : (url == a) = false := by simpa using ha
      have hb2 : (a == url) = false := by simpa using (fun e : a = url => ha e.symm)
      simp only [List.lookup_cons, hb] at h
      simp [List.filter_cons, hb2, ih h]

/-- The whole of `Add` is the lookup of line 22 followed, when the key is missing, by the
assignment of line 23. -/
theorem URLCache.Add_eq_has_put (cache : URLCache) (url body : String) :
    cache.Add url body =
      if cache.has url then (cache, false) else (cache.put url body, true) := by
  unfold URLCache.Add URLCache.has URLCache.put
  cases h : cache.urls.lookup url with
  | none => simp [filter_ne_of_lookup_none _ _ h]
  | some v => simp

theorem Step.of_step {lv : LoopVar} {fetch : Fetcher} {a : Action} {c c1 : Config}
    (h : step lv fetch a c = some c1) : Step lv fetch c c1 := by
  cases a with
  | run g =>
    simp only [step] at h
    cases hg : c.gs[g]? with
    | none => simp [hg] at h
    | some f =>
      simp only [hg] at h
      unfold Crawl at h
      split at h
      · -- spawned
        rename_i hpc
        split at h
        · simp at h
        · rename_i p hp
          split at h
          · simp at h
          · rename_i pf hpf
            split at h
            · simp at h
            · rename_i u hu
              simp only [Option.some.injEq] at h
              subst h
              exact Step.start hg hpc hp hpf hu
      · rename_i hpc
        split at h
        · rename_i hd
          simp only [Option.some.injEq] at h
          subst h
          exact Step.exhausted hg hpc hd
        · rename_i hd
          simp only at h
          split at h
          · rename_i e he
            simp only [Option.some.injEq] at h
            subst h
            rw [he]
            exact Step.fetchErr hg hpc (by omega) he
          · rename_i he
            simp only [Option.some.injEq] at h
            subst h
            rw [he]
            exact Step.fetchOk hg hpc (by omega) he
      · rename_i hpc
        split at h
        · rename_i hc
          simp only [Option.some.injEq] at h
          subst h
          exact Step.hit hg hpc hc
        · rename_i hc
          simp only [Option.some.injEq] at h
          subst h
          exact Step.miss hg hpc (by simpa using hc)
      · rename_i hpc
        simp only [Option.some.injEq] at h
        subst h
        exact Step.put hg hpc
      · rename_i hpc
        split at h
        · rename_i hi
          simp only [Option.some.injEq] at h
          subst h
          exact Step.next hg hpc hi
        · rename_i hi
          simp only [Option.some.injEq] at h
          subst h
          exact Step.exit hg hpc hi
      · rename_i hpc
        split at h
        · simp at h
        · rename_i u hu
          split at h
          · rename_i hc
            simp only [Option.some.injEq] at h
            subst h
            exact Step.skip hg hpc hu hc
          · rename_i hc
            simp only [Option.some.injEq] at h
            subst h
            exact Step.spawn hg hpc hu (by simpa using hc)
      · rename_i hpc
        split at h
        · simp at h
        · rename_i hk
          simp only [Option.some.injEq] at h
          subst h
          exact Step.ret hg hpc hk
      · simp at h
      · simp at h
  | recv p ch =>
    simp only [step, stepRecv] at h
    split at h
    · rename_i pf cf hp hch
      split at h
      · rename_i hcond
        simp only [Option.some.injEq] at h
        subst h
        exact Step.recv hp hch hcond.1 hcond.2.1 hcond.2.2.1 hcond.2.2.2
      · simp at h
    · simp at h

theorem getElem?_set_cases {α : Type} {l : List α} {g j : Nat} {a x : α}
    (h : (l.set g a)[j]? = some x) : (j = g ∧ x = a) ∨ (j ≠ g ∧ l[j]? = some x) := by
  rw [List.getElem?_set] at h
  by_cases hjg : g = j
  · subst hjg
    simp only [if_true] at h
    split at h
    · left; exact ⟨rfl, by simpa using h.symm⟩
    · simp at h
  · right
    rw [if_neg hjg] at h
    exact ⟨fun e => hjg e.symm, h⟩

theorem getElem?_concat_cases {α : Type} {l : List α} {j : Nat} {a x : α}
    (h : (l ++ [a])[j]? = some x) : l[j]? = some x ∨ (j = l.length ∧ x = a) := by
  rw [List.getElem?_append] at h
  split at h
  · left; exact h
  · right
    rename_i hlt
    have hj : j - l.length = 0 := by
      by_contra hne
      have : [a][j - l.length]? = none := by
        apply List.getElem?_eq_none
        simp only [List.length_singleton]
        omega
      rw [this] at h
      simp at h
    rw [hj] at h
    simp only [List.getElem?_cons_zero, Option.some.injEq] at h
    exact ⟨by omega, h.symm⟩

theorem Frame.Local.for_child (fetch : Fetcher) (g i : Nat) : (Frame.child g i).Local fetch := by
  constructor <;> simp [Frame.child, Frame.ok]

theorem Frame.Local.for_main (fetch : Fetcher) (url : String) (d : Int) :
    (Frame.main url d).Local fetch := by
  constructor <;> simp [Frame.main, Frame.ok]

theorem Step.keeps_local {lv : LoopVar} {fetch : Fetcher} {c c1 : Config} (h : Step lv fetch c c1)
    (hI : ∀ (g : Nat) (f : Frame), c.gs[g]? = some f → f.Local fetch) :
    ∀ (g : Nat) (f : Frame), c1.gs[g]? = some f → f.Local fetch := by
  intro j x hx
  cases h with
  | spawn hg hpc hu hc =>
    rcases getElem?_concat_cases hx with h0 | ⟨-, rfl⟩
    · rcases getElem?_set_cases h0 with ⟨-, rfl⟩ | ⟨-, h1⟩
      · have hf := hI _ _ hg
        have hlt := hf.check_lt hpc
        have hsl := hf.sig_le
        have hok := hf.ok (by simp [hpc])
        constructor <;> (simp_all [Frame.ok]; try omega)
      · exact hI _ _ h1
    · exact Frame.Local.for_child fetch _ _
  | recv hp hch hpc hk hcpc hpar =>
    rcases getElem?_set_cases hx with ⟨-, rfl⟩ | ⟨-, h0⟩
    · have hf := hI _ _ hch
      have hr := hf.ret (by simp [hcpc])
      have hle := hf.idx_le
      have hsl := hf.sig_le
      have hpast := hf.past (by simp [hcpc])
      have hok := hf.ok
      constructor <;> simp_all [Frame.ok]
    · rcases getElem?_set_cases h0 with ⟨-, rfl⟩ | ⟨-, h1⟩
      · have hf := hI _ _ hp
        have hok := hf.ok (by simp [hpc])
        have hle := hf.idx_le
        have hpast := hf.past (by simp [hpc])
        constructor <;> (simp_all [Frame.ok]; try omega)
      · exact hI _ _ h1
  | skip hg hpc hu hc =>
    rcases getElem?_set_cases hx with ⟨-, rfl⟩ | ⟨-, h1⟩
    · have hf := hI _ _ hg
      have hlt := hf.check_lt hpc
      have hsl := hf.sig_le
      have hok := hf.ok (by simp [hpc])
      constructor <;> (simp_all [Frame.ok]; try omega)
    · exact hI _ _ h1
  | ret hg hpc hk =>
    rcases getElem?_set_cases hx with ⟨-, rfl⟩ | ⟨-, h1⟩
    · have hf := hI _ _ hg
      have hle := hf.idx_le
      have hsl := hf.sig_le
      have hpast := hf.past (by simp [hpc])
      have hok := hf.ok
      constructor <;> (simp_all [Frame.ok]; try omega)
    · exact hI _ _ h1
  | start hg hpc _ _ _ =>
    rcases getElem?_set_cases hx with ⟨-, rfl⟩ | ⟨-, h1⟩
    · have hf := hI _ _ hg
      have hfr := hf.fresh (by simp [hpc])
      have hsl := hf.sig_le
      constructor <;> simp_all [Frame.ok]
    · exact hI _ _ h1
  | exhausted hg hpc _ | fetchErr hg hpc _ _ | fetchOk hg hpc _ _ =>
    rcases getElem?_set_cases hx with ⟨-, rfl⟩ | ⟨-, h1⟩
    · have hf := hI _ _ hg
      have hfr := hf.fresh (by simp [hpc])
      constructor <;> (simp_all [Frame.ok]; try omega)
    · exact hI _ _ h1
  | hit hg hpc _ | miss hg hpc _ | put hg hpc | next hg hpc _ =>
    rcases getElem?_set_cases hx with ⟨-, rfl⟩ | ⟨-, h1⟩
    · have hf := hI _ _ hg
      have hle := hf.idx_le
      have hsl := hf.sig_le
      have hok := hf.ok
      constructor <;> (simp_all [Frame.ok]; try omega)
    · exact hI _ _ h1
  | exit hg hpc hi =>
    rcases getElem?_set_cases hx with ⟨-, rfl⟩ | ⟨-, h1⟩
    · have hf := hI _ _ hg
      have hle := hf.idx_le
      have hsl := hf.sig_le
      have hok := hf.ok
      constructor <;> (simp_all [Frame.ok]; try omega)
    · exact hI _ _ h1

theorem Frame.Linked.update {fetch : Fetcher} {seed : String} {d : Int} {gs : List Frame}
    {g : Nat} {f : Frame}
    (hI : ∀ (j : Nat) (x : Frame), gs[j]? = some x → x.Linked fetch seed d gs j)
    (hg : gs[g]? = some f) (f1 : Frame) (hpar : f1.parent = f.parent) (hown : f1.own = f.own)
    (hi : f.i ≤ f1.i)
    (hchain : f1.pc ≠ .spawned → ∃ n : Nat, Chain fetch seed n f1.url ∧ (n : Int) + f1.depth = d) :
    ∀ (j : Nat) (x : Frame), (gs.set g f1)[j]? = some x → x.Linked fetch seed d (gs.set g f1) j := by
  intro j x hx
  have hlen : g < gs.length := (List.getElem?_eq_some.1 hg).1
  rcases getElem?_set_cases hx with ⟨rfl, rfl⟩ | ⟨hne, h1⟩
  · have hf := hI _ _ hg
    refine ⟨hchain, ?_, ?_⟩
    · intro p hp
      rw [hpar] at hp
      obtain ⟨hlt, pf, hpf, ho⟩ := hf.par p hp
      refine ⟨hlt, pf, ?_, by omega⟩
      rw [List.getElem?_set_ne (by omega)]
      exact hpf
    · intro hp
      rw [hpar] at hp
      exact hf.root hp
  · have hf := hI _ _ h1
    refine ⟨hf.chain, ?_, hf.root⟩
    intro p hp
    obtain ⟨hlt, pf, hpf, ho⟩ := hf.par p hp
    by_cases hpg : p = g
    · subst hpg
      rw [hg] at hpf
      cases hpf
      exact ⟨hlt, f1, List.getElem?_set_self hlen, by omega⟩
    · refine ⟨hlt, pf, ?_, ho⟩
      rw [List.getElem?_set_ne (fun e => hpg e.symm)]
      exact hpf

theorem Frame.Linked.spawn_child {fetch : Fetcher} {seed : String} {d : Int} {gs : List Frame}
    {p : Nat} {pf ch : Frame}
    (hI : ∀ (j : Nat) (x : Frame), gs[j]? = some x → x.Linked fetch seed d gs j)
    (hp : gs[p]? = some pf) (hpar : ch.parent = some p) (hown : ch.own < pf.i)
    (hpc : ch.pc = .spawned) :
    ∀ (j : Nat) (x : Frame), (gs ++ [ch])[j]? = some x → x.Linked fetch seed d (gs ++ [ch]) j := by
  intro j x hx
  have hlen : p < gs.length := (List.getElem?_eq_some.1 hp).1
  rcases getElem?_concat_cases hx with h1 | ⟨rfl, rfl⟩
  · have hf := hI _ _ h1
    refine ⟨hf.chain, ?_, hf.root⟩
    intro q hq
    obtain ⟨hlt, qf, hqf, ho⟩ := hf.par q hq
    refine ⟨hlt, qf, ?_, ho⟩
    rw [List.getElem?_append_left (List.getElem?_eq_some.1 hqf).1]
    exact hqf
  · refine ⟨fun h => absurd hpc h, ?_, ?_⟩
    · intro q hq
      rw [hpar] at hq
      cases hq
      refine ⟨hlen, pf, ?_, hown⟩
      rw [List.getElem?_append_left hlen]
      exact hp
    · intro h
      rw [hpar] at h
      cases h

theorem Frame.Linked.at_main (fetch : Fetcher) (seed : String) (d : Int) :
    ∀ (j : Nat) (x : Frame), [Frame.main seed d][j]? = some x →
      x.Linked fetch seed d [Frame.main seed d] j := by
  intro j x hx
  cases j with
  | zero =>
    simp only [List.getElem?_cons_zero, Option.some.injEq] at hx
    subst hx
    refine ⟨fun _ => ⟨0, Chain.zero, by simp [Frame.main]⟩, ?_, fun _ => rfl⟩
    intro p hp
    simp [Frame.main] at hp
  | succ j => simp at hx

theorem Step.keeps_linked {lv : LoopVar} {fetch : Fetcher} {seed : String} {d : Int} {c c1 : Config}
    (h : Step lv fetch c c1)
    (hL : ∀ (g : Nat) (f : Frame), c.gs[g]? = some f → f.Local fetch)
    (hI : ∀ (g : Nat) (f : Frame), c.gs[g]? = some f → f.Linked fetch seed d c.gs g) :
    ∀ (g : Nat) (f : Frame), c1.gs[g]? = some f → f.Linked fetch seed d c1.gs g := by
  cases h with
  | start hg hpc hp hpf hu =>
    rename_i g p f pf u
    apply Frame.Linked.update hI hg { f with pc := .entry, url := u, depth := pf.depth - 1 } rfl rfl (Nat.le_refl _)
    intro _
    obtain ⟨-, pf1, hpf1, ho⟩ := (hI _ _ hg).par p hp
    rw [hpf] at hpf1
    cases hpf1
    have hLp := hL _ _ hpf
    have hok := hLp.ok (Or.inr (Or.inr (Or.inr (Or.inr (Or.inl (by omega))))))
    have hns : pf.pc ≠ .spawned := by
      intro e
      have := (hLp.fresh (Or.inl e)).1
      omega
    obtain ⟨n, hn, hd⟩ := (hI _ _ hpf).chain hns
    refine ⟨n + 1, Chain.hop hn ⟨hok.1, ?_⟩, ?_⟩
    · rw [← hok.2.1]
      exact List.getElem?_mem hu
    · simp only
      push_cast
      omega
  | exhausted hg hpc hd =>
    exact Frame.Linked.update hI hg _ rfl rfl (Nat.le_refl _)
      (fun _ => (hI _ _ hg).chain (by simp [hpc]))
  | fetchErr hg hpc hd he =>
    exact Frame.Linked.update hI hg _ rfl rfl (Nat.le_refl _)
      (fun _ => (hI _ _ hg).chain (by simp [hpc]))
  | fetchOk hg hpc hd he =>
    exact Frame.Linked.update hI hg _ rfl rfl (Nat.le_refl _)
      (fun _ => (hI _ _ hg).chain (by simp [hpc]))
  | hit hg hpc hc =>
    exact Frame.Linked.update hI hg _ rfl rfl (Nat.le_refl _)
      (fun _ => (hI _ _ hg).chain (by simp [hpc]))
  | miss hg hpc hc =>
    exact Frame.Linked.update hI hg _ rfl rfl (Nat.le_refl _)
      (fun _ => (hI _ _ hg).chain (by simp [hpc]))
  | put hg hpc =>
    exact Frame.Linked.update hI hg _ rfl rfl (Nat.le_refl _)
      (fun _ => (hI _ _ hg).chain (by simp [hpc]))
  | next hg hpc hi =>
    exact Frame.Linked.update hI hg _ rfl rfl (Nat.le_refl _)
      (fun _ => (hI _ _ hg).chain (by simp [hpc]))
  | exit hg hpc hi =>
    exact Frame.Linked.update hI hg _ rfl rfl (Nat.le_refl _)
      (fun _ => (hI _ _ hg).chain (by simp [hpc]))
  | skip hg hpc hu hc =>
    exact Frame.Linked.update hI hg _ rfl rfl (Nat.le_succ _)
      (fun _ => (hI _ _ hg).chain (by simp [hpc]))
  | spawn hg hpc hu hc =>
    rename_i g f u
    have h1 := Frame.Linked.update hI hg { f with pc := .loop, i := f.i + 1 } rfl rfl
      (Nat.le_succ _) (fun _ => (hI _ _ hg).chain (by simp [hpc]))
    have hlen : g < c.gs.length := (List.getElem?_eq_some.1 hg).1
    exact Frame.Linked.spawn_child h1 (List.getElem?_set_self hlen) rfl (Nat.lt_succ_self _) rfl
  | ret hg hpc hk =>
    exact Frame.Linked.update hI hg _ rfl rfl (Nat.le_refl _)
      (fun _ => (hI _ _ hg).chain (by simp [hpc]))
  | recv hp hch hpc hk hcpc hpar =>
    rename_i p ch pf cf
    have h1 := Frame.Linked.update hI hp { pf with k := pf.k + 1 } rfl rfl
      (Nat.le_refl _) (fun _ => (hI _ _ hp).chain (by simp [hpc]))
    have hne : p ≠ ch := by
      have := ((hI _ _ hch).par p hpar).1
      omega
    have hch1 : (c.gs.set p { pf with k := pf.k + 1 })[ch]? = some cf := by
      rw [List.getElem?_set_ne hne]
      exact hch
    exact Frame.Linked.update h1 hch1 _ rfl rfl (Nat.le_refl _)
      (fun _ => (hI _ _ hch).chain (by simp [hcpc]))

theorem countP_set_same {α : Type} (p : α → Bool) {l : List α} {g : Nat} {a b : α}
    (hg : l[g]? = some a) (hp : p b = p a) : (l.set g b).countP p = l.countP p := by
  obtain ⟨hlt, rfl⟩ := List.getElem?_eq_some.1 hg
  rw [List.countP_set p l g b hlt, hp]
  have := List.boole_getElem_le_countP p l g hlt
  omega

theorem countP_set_gain {α : Type} (p : α → Bool) {l : List α} {g : Nat} {a b : α}
    (hg : l[g]? = some a) (ha : p a = false) (hb : p b = true) :
    (l.set g b).countP p = l.countP p + 1 := by
  obtain ⟨hlt, rfl⟩ := List.getElem?_eq_some.1 hg
  rw [List.countP_set p l g b hlt, ha, hb]
  simp

theorem spawnedBy_set {gs : List Frame} {g : Nat} {f : Frame} (hg : gs[g]? = some f)
    (f1 : Frame) (hpar : f1.parent = f.parent) (q : Nat) :
    spawnedBy (gs.set g f1) q = spawnedBy gs q :=
  countP_set_same _ hg (by simp [hpar])

theorem joinedBy_set {gs : List Frame} {g : Nat} {f : Frame} (hg : gs[g]? = some f)
    (f1 : Frame) (hpar : f1.parent = f.parent) (hpc : f1.pc = .finished ↔ f.pc = .finished)
    (q : Nat) : joinedBy (gs.set g f1) q = joinedBy gs q :=
  countP_set_same _ hg (by simp [hpar, hpc])

theorem joinedBy_set_finish {gs : List Frame} {g p : Nat} {f : Frame} (hg : gs[g]? = some f)
    (f1 : Frame) (hpar : f1.parent = f.parent) (hp : f.parent = some p)
    (hf : f.pc ≠ .finished) (hf1 : f1.pc = .finished) (q : Nat) :
    joinedBy (gs.set g f1) q = joinedBy gs q + if q = p then 1 else 0 := by
  by_cases hq : q = p
  · subst hq
    rw [if_pos rfl]
    exact countP_set_gain _ hg (by simp [hf]) (by simp [hpar, hp, hf1])
  · rw [if_neg hq]
    have hne : p ≠ q := fun e => hq e.symm
    exact countP_set_same _ hg (by simp [hpar, hp, hne])

theorem spawnedBy_concat (gs : List Frame) (ch : Frame) (q : Nat) :
    spawnedBy (gs ++ [ch]) q = spawnedBy gs q + if ch.parent = some q then 1 else 0 := by
  simp only [spawnedBy, List.countP_append, List.countP_cons, List.countP_nil]
  split <;> simp_all

theorem joinedBy_concat (gs : List Frame) (ch : Frame) (hpc : ch.pc ≠ .finished) (q : Nat) :
    joinedBy (gs ++ [ch]) q = joinedBy gs q := by
  simp [joinedBy, List.countP_append, List.countP_cons, hpc]

/-- Nobody has a parent that is not a goroutine yet. -/
theorem spawnedBy_eq_zero {fetch : Fetcher} {seed : String} {d : Int} {gs : List Frame}
    (hI : ∀ (j : Nat) (x : Frame), gs[j]? = some x → x.Linked fetch seed d gs j)
    {q : Nat} (hq : gs.length ≤ q) : spawnedBy gs q = 0 := by
  unfold spawnedBy
  rw [List.countP_eq_zero]
  intro x hx
  obtain ⟨j, hj⟩ := List.mem_iff_getElem?.1 hx
  simp only [decide_eq_true_eq]
  intro hp
  obtain ⟨-, pf, hpf, -⟩ := (hI _ _ hj).par q hp
  have := (List.getElem?_eq_some.1 hpf).1
  omega

theorem joinedBy_le_spawnedBy (gs : List Frame) (q : Nat) : joinedBy gs q ≤ spawnedBy gs q := by
  unfold joinedBy spawnedBy
  apply List.countP_mono_left
  intro x _ h
  simp only [decide_eq_true_eq] at h ⊢
  exact h.1

theorem Frame.Counted.set_frame {gs : List Frame} {g : Nat} {f : Frame}
    (hI : ∀ (j : Nat) (x : Frame), gs[j]? = some x → x.Counted gs j)
    (hg : gs[g]? = some f) (f1 : Frame) (hpar : f1.parent = f.parent)
    (hpc : f1.pc = .finished ↔ f.pc = .finished) (hi : f.i ≤ f1.i) (hk : f1.k = f.k) :
    ∀ (j : Nat) (x : Frame), (gs.set g f1)[j]? = some x → x.Counted (gs.set g f1) j := by
  intro j x hx
  rcases getElem?_set_cases hx with ⟨rfl, rfl⟩ | ⟨-, h1⟩
  · have hf := hI _ _ hg
    constructor
    · rw [spawnedBy_set hg _ hpar]
      have := hf.kids
      omega
    · rw [joinedBy_set hg _ hpar hpc, hk]
      exact hf.sigs
  · have hf := hI _ _ h1
    constructor
    · rw [spawnedBy_set hg f1 hpar]
      exact hf.kids
    · rw [joinedBy_set hg f1 hpar hpc]
      exact hf.sigs

theorem Frame.Counted.of_main (seed : String) (d : Int) :
    ∀ (j : Nat) (x : Frame), [Frame.main seed d][j]? = some x →
      x.Counted [Frame.main seed d] j := by
  intro j x hx
  cases j with
  | zero =>
    simp only [List.getElem?_cons_zero, Option.some.injEq] at hx
    subst hx
    constructor <;> simp [spawnedBy, joinedBy, Frame.main]
  | succ j => simp at hx

theorem Step.keeps_counted {lv : LoopVar} {fetch : Fetcher} {seed : String} {d : Int} {c c1 : Config}
    (h : Step lv fetch c c1)
    (hL : ∀ (g : Nat) (f : Frame), c.gs[g]? = some f → f.Linked fetch seed d c.gs g)
    (hI : ∀ (g : Nat) (f : Frame), c.gs[g]? = some f → f.Counted c.gs g) :
    ∀ (g : Nat) (f : Frame), c1.gs[g]? = some f → f.Counted c1.gs g := by
  cases h with
  | start hg hpc hp hpf hu =>
    exact Frame.Counted.set_frame hI hg _ rfl (by simp [hpc]) (Nat.le_refl _) rfl
  | exhausted hg hpc hd =>
    exact Frame.Counted.set_frame hI hg _ rfl (by simp [hpc]) (Nat.le_refl _) rfl
  | fetchErr hg hpc hd he =>
    exact Frame.Counted.set_frame hI hg _ rfl (by simp [hpc]) (Nat.le_refl _) rfl
  | fetchOk hg hpc hd he =>
    exact Frame.Counted.set_frame hI hg _ rfl (by simp [hpc]) (Nat.le_refl _) rfl
  | hit hg hpc hc =>
    exact Frame.Counted.set_frame hI hg _ rfl (by simp [hpc]) (Nat.le_refl _) rfl
  | miss hg hpc hc =>
    exact Frame.Counted.set_frame hI hg _ rfl (by simp [hpc]) (Nat.le_refl _) rfl
  | put hg hpc =>
    exact Frame.Counted.set_frame hI hg _ rfl (by simp [hpc]) (Nat.le_refl _) rfl
  | next hg hpc hi =>
    exact Frame.Counted.set_frame hI hg _ rfl (by simp [hpc]) (Nat.le_refl _) rfl
  | exit hg hpc hi =>
    exact Frame.Counted.set_frame hI hg _ rfl (by simp [hpc]) (Nat.le_refl _) rfl
  | skip hg hpc hu hc =>
    exact Frame.Counted.set_frame hI hg _ rfl (by simp [hpc]) (Nat.le_succ _) rfl
  | ret hg hpc hk =>
    exact Frame.Counted.set_frame hI hg _ rfl (by simp [hpc]) (Nat.le_refl _) rfl
  | spawn hg hpc hu hc =>
    rename_i g f u
    intro j x hx
    have hlen : g < c.gs.length := (List.getElem?_eq_some.1 hg).1
    have hs : ∀ q, spawnedBy (c.gs.set g { f with pc := .loop, i := f.i + 1 }
        ++ [Frame.child g f.i]) q = spawnedBy c.gs q + if g = q then 1 else 0 := by
      intro q
      rw [spawnedBy_concat, spawnedBy_set hg { f with pc := .loop, i := f.i + 1 } rfl]
      simp [Frame.child]
    have hj : ∀ q, joinedBy (c.gs.set g { f with pc := .loop, i := f.i + 1 }
        ++ [Frame.child g f.i]) q = joinedBy c.gs q := by
      intro q
      rw [joinedBy_concat _ _ (by simp [Frame.child]),
        joinedBy_set hg { f with pc := .loop, i := f.i + 1 } rfl (by simp [hpc])]
    constructor
    · show spawnedBy (c.gs.set g { f with pc := .loop, i := f.i + 1 }
        ++ [Frame.child g f.i]) j ≤ x.i
      rw [hs]
      rcases getElem?_concat_cases hx with h0 | ⟨rfl, rfl⟩
      · rcases getElem?_set_cases h0 with ⟨rfl, rfl⟩ | ⟨hne, h1⟩
        · have := (hI _ _ hg).kids
          simp only [if_true]
          omega
        · have := (hI _ _ h1).kids
          rw [if_neg (fun e => hne e.symm)]
          omega
      · rw [List.length_set, spawnedBy_eq_zero hL (Nat.le_refl _), if_neg (by omega)]
        simp [Frame.child]
    · show joinedBy (c.gs.set g { f with pc := .loop, i := f.i + 1 }
        ++ [Frame.child g f.i]) j = x.k
      rw [hj]
      rcases getElem?_concat_cases hx with h0 | ⟨rfl, rfl⟩
      · rcases getElem?_set_cases h0 with ⟨rfl, rfl⟩ | ⟨hne, h1⟩
        · exact (hI _ _ hg).sigs
        · exact (hI _ _ h1).sigs
      · have h0 := spawnedBy_eq_zero hL (Nat.le_refl c.gs.length)
        have h1 := joinedBy_le_spawnedBy c.gs c.gs.length
        rw [List.length_set]
        simp only [Frame.child]
        omega
  | recv hp hch hpc hk hcpc hpar =>
    rename_i p ch pf cf
    intro j x hx
    have hne : p ≠ ch := by
      have := ((hL _ _ hch).par p hpar).1
      omega
    have hch1 : (c.gs.set p { pf with k := pf.k + 1 })[ch]? = some cf := by
      rw [List.getElem?_set_ne hne]
      exact hch
    constructor
    · show spawnedBy ((c.gs.set p { pf with k := pf.k + 1 }).set ch
        { cf with pc := .finished }) j ≤ x.i
      rw [spawnedBy_set hch1 { cf with pc := .finished } rfl,
        spawnedBy_set hp { pf with k := pf.k + 1 } rfl]
      rcases getElem?_set_cases hx with ⟨rfl, rfl⟩ | ⟨-, h0⟩
      · exact (hI _ _ hch).kids
      · rcases getElem?_set_cases h0 with ⟨rfl, rfl⟩ | ⟨-, h1⟩
        · exact (hI _ _ hp).kids
        · exact (hI _ _ h1).kids
    · show joinedBy ((c.gs.set p { pf with k := pf.k + 1 }).set ch
        { cf with pc := .finished }) j = x.k
      rw [joinedBy_set_finish hch1 { cf with pc := .finished } rfl hpar (by simp [hcpc]) rfl,
        joinedBy_set hp { pf with k := pf.k + 1 } rfl (by simp [hpc])]
      rcases getElem?_set_cases hx with ⟨rfl, rfl⟩ | ⟨hjc, h0⟩
      · rw [if_neg (fun e => hne e.symm)]
        exact (hI _ _ hch).sigs
      · rcases getElem?_set_cases h0 with ⟨rfl, rfl⟩ | ⟨hjp, h1⟩
        · have := (hI _ _ hp).sigs
          simp only [if_true]
          omega
        · rw [if_neg hjp]
          exact (hI _ _ h1).sigs

theorem fetched_append (a b : List Event) : fetched (a ++ b) = fetched a ++ fetched b := by
  induction a with
  | nil => rfl
  | cons e a ih => cases e <;> simp [fetched, ih]

theorem added_append (a b : List Event) : added (a ++ b) = added a ++ added b := by
  induction a with
  | nil => rfl
  | cons e a ih =>
    cases e with
    | add g u b w => cases w <;> simp [added, ih]
    | _ => simp [added, ih]

theorem mem_fetched {u : String} {tr : List Event} :
    u ∈ fetched tr ↔ ∃ g, Event.fetch g u ∈ tr := by
  induction tr with
  | nil => simp [fetched]
  | cons e tr ih =>
    cases e with
    | fetch g1 u1 =>
      simp only [fetched, List.mem_cons, ih, Event.fetch.injEq]
      constructor
      · rintro (rfl | ⟨g, hg⟩)
        · exact ⟨g1, Or.inl ⟨rfl, rfl⟩⟩
        · exact ⟨g, Or.inr hg⟩
      · rintro ⟨g, ⟨-, rfl⟩ | hg⟩
        · exact Or.inl rfl
        · exact Or.inr ⟨g, hg⟩
    | _ => simp [fetched, ih]

theorem At.set_iff {P : PC → Prop} {gs : List Frame} {j : Nat} {f : Frame}
    (hj : gs[j]? = some f) (hpc : ¬ P f.pc) (f1 : Frame) (hpc1 : ¬ P f1.pc) (g : Nat)
    (u : String) : At P (gs.set j f1) g u ↔ At P gs g u := by
  constructor
  · rintro ⟨x, hx, hu, hp⟩
    rcases getElem?_set_cases hx with ⟨-, rfl⟩ | ⟨-, h1⟩
    · exact absurd hp hpc1
    · exact ⟨x, h1, hu, hp⟩
  · rintro ⟨x, hx, hu, hp⟩
    have hne : j ≠ g := by
      rintro rfl
      rw [hj] at hx
      cases hx
      exact hpc hp
    exact ⟨x, by rw [List.getElem?_set_ne hne]; exact hx, hu, hp⟩

theorem At.concat_iff {P : PC → Prop} (gs : List Frame) (ch : Frame) (hpc : ¬ P ch.pc)
    (g : Nat) (u : String) : At P (gs ++ [ch]) g u ↔ At P gs g u := by
  constructor
  · rintro ⟨x, hx, hu, hp⟩
    rcases getElem?_concat_cases hx with h1 | ⟨-, rfl⟩
    · exact ⟨x, h1, hu, hp⟩
    · exact absurd hp hpc
  · rintro ⟨x, hx, hu, hp⟩
    exact ⟨x, by rw [List.getElem?_append_left (List.getElem?_eq_some.1 hx).1]; exact hx, hu, hp⟩

/-- Replacing the frame of `j`: what is at `P` afterwards was so before, or is `j`. -/
theorem At.of_set {P : PC → Prop} {gs : List Frame} {j g : Nat} {f1 : Frame} {u : String}
    (h : At P (gs.set j f1) g u) : At P gs g u ∨ (g = j ∧ f1.url = u ∧ P f1.pc) := by
  obtain ⟨x, hx, hu, hp⟩ := h
  rcases getElem?_set_cases hx with ⟨rfl, rfl⟩ | ⟨-, h1⟩
  · exact Or.inr ⟨rfl, hu, hp⟩
  · exact Or.inl ⟨x, h1, hu, hp⟩

/-- Replacing the frame of `j`: what was at `P` before is so afterwards, or was `j`. -/
theorem At.to_set {P : PC → Prop} {gs : List Frame} {g : Nat} {u : String}
    (h : At P gs g u) (j : Nat) (f1 : Frame) : At P (gs.set j f1) g u ∨ g = j := by
  obtain ⟨x, hx, hu, hp⟩ := h
  by_cases hne : j = g
  · exact Or.inr hne.symm
  · exact Or.inl ⟨x, by rw [List.getElem?_set_ne hne]; exact hx, hu, hp⟩

/-- A step that leaves the cache and the log alone, and moves no goroutine that is inside
`Add`, keeps `Logged`. -/
theorem Config.Logged.quiet {fetch : Fetcher} {seed : String} {d : Int} {cache0 : URLCache}
    {c : Config} (h : c.Logged fetch seed d cache0) (gs1 : List Frame)
    (hP : ∀ (P : PC → Prop), (∀ pc, P pc → pc.inAdd) → ∀ g u, At P gs1 g u ↔ At P c.gs g u) :
    Config.Logged fetch seed d cache0 { c with gs := gs1 } :=
  ⟨h.near, fun g u hm he => (h.stored g u hm he).imp (hP _ (fun _ hp => hp) g u).2 id,
    fun g u hp => h.fetching g u ((hP _ (fun _ hp => hp) g u).1 hp), h.sound, h.mono,
    fun g u hs => h.missing g u ((hP _ (fun _ hp => Or.inr hp) g u).1 hs), h.won, h.crawled,
    h.sent⟩

/-- A step that only appends calls of `Crawl` and of `Fetch` to the log, and moves no
goroutine that is inside `Add`, keeps `Logged`, provided the urls it fetches are near the
seed. -/
theorem Config.Logged.log {fetch : Fetcher} {seed : String} {d : Int} {cache0 : URLCache}
    {c : Config} (h : c.Logged fetch seed d cache0) (gs1 : List Frame) (evs : List Event)
    (hadd : ∀ (g : Nat) (k v : String) (w : Bool), Event.add g k v w ∉ evs)
    (hnear : ∀ u ∈ fetched evs, ∃ n : Nat, Chain fetch seed n u ∧ (n : Int) < d)
    (hcr : ∀ g u, Event.fetch g u ∈ evs → ∃ dep : Int, 0 < dep ∧ Event.crawl g u dep ∈ evs)
    (hnew : ∀ g u, Event.fetch g u ∈ evs → (fetch u).err = none → Pending gs1 g u)
    (hold : ∀ g u, Pending c.gs g u → Pending gs1 g u)
    (hback : ∀ g u, Pending gs1 g u → Pending c.gs g u ∨ Event.fetch g u ∈ evs)
    (hst : ∀ g u, At (fun pc => pc = .store) gs1 g u → At (fun pc => pc = .store) c.gs g u) :
    Config.Logged fetch seed d cache0 { c with gs := gs1, trace := c.trace ++ evs } := by
  have hadded : added evs = [] := by
    clear hnear hcr hnew hback
    induction evs with
    | nil => rfl
    | cons e es ih =>
      cases e with
      | add g k v w => exact absurd (List.mem_cons_self _ _) (hadd g k v w)
      | crawl g u dep =>
        simp only [added]
        exact ih fun g k v w hm => hadd g k v w (List.mem_cons_of_mem _ hm)
      | fetch g u =>
        simp only [added]
        exact ih fun g k v w hm => hadd g k v w (List.mem_cons_of_mem _ hm)
  refine ⟨?_, ?_, ?_, ?_, h.mono, ?_, ?_, ?_, ?_⟩
  · intro u hu
    simp only [fetched_append, List.mem_append] at hu
    rcases hu with hu | hu
    · exact h.near u hu
    · exact hnear u hu
  · intro g u hm he
    simp only [List.mem_append] at hm
    rcases hm with hm | hm
    · exact (h.stored g u hm he).imp (hold g u) id
    · exact Or.inl (hnew g u hm he)
  · intro g u hp
    simp only [List.mem_append]
    exact (hback g u hp).imp (h.fetching g u) id
  · intro k v hk
    rcases h.sound k v hk with h0 | ⟨h1, h2, h3⟩
    · exact Or.inl h0
    · exact Or.inr ⟨h1, h2, by simp [fetched_append, h3]⟩
  · exact fun g u hs => h.missing g u (hst g u hs)
  · simpa [added_append, hadded] using h.won
  · intro g u hm
    simp only [List.mem_append] at hm ⊢
    rcases hm with hm | hm
    · obtain ⟨dep, hd, hc⟩ := h.crawled g u hm
      exact ⟨dep, hd, Or.inl hc⟩
    · obtain ⟨dep, hd, hc⟩ := hcr g u hm
      exact ⟨dep, hd, Or.inr hc⟩
  · intro g k v w hm
    simp only [List.mem_append] at hm ⊢
    rcases hm with hm | hm
    · obtain ⟨h1, h2, h3⟩ := h.sent g k v w hm
      exact ⟨h1, h2, Or.inl h3⟩
    · exact absurd hm (hadd g k v w)

theorem URLCache.Get_Add_cases {cache : URLCache} {url body k v : String}
    (h : (cache.Add url body).1.Get k = (v, true)) :
    cache.Get k = (v, true) ∨ (k = url ∧ v = body ∧ (cache.Get url).2 = false) := by
  cases hp : (cache.Get url).2
  · by_cases hk : k = url
    · subst hk
      right
      have := URLCache.Get_Add_self_of_absent body hp
      rw [this] at h
      simp only [Prod.mk.injEq, and_true] at h
      exact ⟨rfl, h.symm, rfl⟩
    · left
      rw [URLCache.Get_Add_of_ne cache body hk] at h
      exact h
  · rw [URLCache.Add_of_present body hp] at h
    exact Or.inl h

theorem URLCache.Get_eta {cache : URLCache} {k : String} (h : (cache.Get k).2 = true) :
    cache.Get k = ((cache.Get k).1, true) := by
  rw [← h]

theorem Config.Logged.at_start (fetch : Fetcher) (seed : String) (d : Int) (cache0 : URLCache) :
    (Config.init cache0 seed d).Logged fetch seed d cache0 := by
  have hnone : ∀ (P : PC → Prop), (∀ pc, P pc → pc.inAdd) → ∀ g u,
      ¬ At P (Config.init cache0 seed d).gs g u := by
    rintro P hP g u ⟨x, hx, -, hp⟩
    cases g with
    | zero =>
      simp only [Config.init, List.getElem?_cons_zero, Option.some.injEq] at hx
      subst hx
      rcases hP _ hp with h | h <;> cases h
    | succ g => simp [Config.init] at hx
  refine ⟨?_, ?_, ?_, ?_, ?_, ?_, ?_, ?_, ?_⟩
  · simp [Config.init, fetched]
  · simp [Config.init]
  · exact fun g u hp => absurd hp (hnone _ (fun _ h => h) g u)
  · intro k v h
    exact Or.inl h
  · exact fun k v h => h
  · exact fun g u hs => absurd hs (hnone _ (fun _ h => Or.inr h) g u)
  · simp [Config.init, added]
  · simp [Config.init]
  · simp [Config.init]

theorem At.set_quiet {gs : List Frame} {j : Nat} {f : Frame} (hj : gs[j]? = some f)
    (hpc : ¬ f.pc.inAdd) (f1 : Frame) (hpc1 : ¬ f1.pc.inAdd) :
    ∀ (P : PC → Prop), (∀ pc, P pc → pc.inAdd) → ∀ g u,
      At P (gs.set j f1) g u ↔ At P gs g u :=
  fun _ hP g u => At.set_iff hj (fun h => hpc (hP _ h)) f1 (fun h => hpc1 (hP _ h)) g u

theorem Step.keeps_logged {lv : LoopVar} {fetch : Fetcher} {seed : String} {d : Int}
    {cache0 : URLCache} {c c1 : Config} (h : Step lv fetch c c1)
    (hF : ∀ (g : Nat) (f : Frame), c.gs[g]? = some f → f.Local fetch)
    (hL : ∀ (g : Nat) (f : Frame), c.gs[g]? = some f → f.Linked fetch seed d c.gs g)
    (hI : c.Logged fetch seed d cache0) : c1.Logged fetch seed d cache0 := by
  cases h with
  | start hg hpc hp hpf hu =>
    exact hI.quiet _ (At.set_quiet hg (by simp [PC.inAdd, hpc]) _ (by simp [PC.inAdd]))
  | next hg hpc hi =>
    exact hI.quiet _ (At.set_quiet hg (by simp [PC.inAdd, hpc]) _ (by simp [PC.inAdd]))
  | exit hg hpc hi =>
    exact hI.quiet _ (At.set_quiet hg (by simp [PC.inAdd, hpc]) _ (by simp [PC.inAdd]))
  | skip hg hpc hu hc =>
    exact hI.quiet _ (At.set_quiet hg (by simp [PC.inAdd, hpc]) _ (by simp [PC.inAdd]))
  | ret hg hpc hk =>
    exact hI.quiet _ (At.set_quiet hg (by simp [PC.inAdd, hpc]) _ (by simp [PC.inAdd]))
  | spawn hg hpc hu hc =>
    refine hI.quiet _ fun P hP g u => ?_
    rw [At.concat_iff _ _ (fun h => by rcases hP _ h with h | h <;> cases h),
      At.set_quiet hg (by simp [PC.inAdd, hpc]) _ (by simp [PC.inAdd]) P hP]
  | recv hp hch hpc hk hcpc hpar =>
    rename_i p ch pf cf
    refine hI.quiet _ fun P hP g u => ?_
    have hne : p ≠ ch := by
      rintro rfl
      rw [hp] at hch
      cases hch
      rw [hpc] at hcpc
      cases hcpc
    have hch1 : (c.gs.set p { pf with k := pf.k + 1 })[ch]? = some cf := by
      rw [List.getElem?_set_ne hne]
      exact hch
    rw [At.set_quiet hch1 (by simp [PC.inAdd, hcpc]) _ (by simp [PC.inAdd]) P hP,
      At.set_quiet hp (by simp [PC.inAdd, hpc]) _ (by simp [PC.inAdd, hpc]) P hP]
  | exhausted hg hpc hd =>
    rename_i g f
    have hq := At.set_quiet hg (by simp [PC.inAdd, hpc]) { f with pc := PC.returned }
      (by simp [PC.inAdd])
    refine hI.log _ _ (by simp) (by simp [fetched]) (by simp) (by simp) ?_ ?_ ?_
    · exact fun g u => (hq _ (fun _ h => h) g u).2
    · exact fun g u h => Or.inl ((hq _ (fun _ h => h) g u).1 h)
    · exact fun g u => (hq _ (fun _ h => Or.inr h) g u).1
  | fetchErr hg hpc hd he =>
    rename_i g f e
    obtain ⟨n, hn, hnd⟩ := (hL _ _ hg).chain (by simp [hpc])
    have hq := At.set_quiet hg (by simp [PC.inAdd, hpc])
      { f with pc := PC.returned, body := (fetch f.url).body, urls := (fetch f.url).urls,
               err := some e }
      (by simp [PC.inAdd])
    refine hI.log _ _ (by simp) ?_ ?_ ?_ ?_ ?_ ?_
    · intro u hu
      simp only [fetched, List.mem_singleton] at hu
      subst hu
      exact ⟨n, hn, by omega⟩
    · intro j u hm
      simp only [List.mem_cons, List.mem_singleton, List.not_mem_nil, or_false] at hm
      rcases hm with hm | hm
      · cases hm
      · cases hm
        exact ⟨f.depth, hd, by simp⟩
    · intro j u hm hok
      simp only [List.mem_cons, List.mem_singleton, List.not_mem_nil, or_false] at hm
      rcases hm with hm | hm
      · cases hm
      · cases hm
        rw [he] at hok
        cases hok
    · exact fun g u => (hq _ (fun _ h => h) g u).2
    · exact fun g u h => Or.inl ((hq _ (fun _ h => h) g u).1 h)
    · exact fun g u => (hq _ (fun _ h => Or.inr h) g u).1
  | fetchOk hg hpc hd he =>
    rename_i g f
    obtain ⟨n, hn, hnd⟩ := (hL _ _ hg).chain (by simp [hpc])
    have hlen : g < c.gs.length := (List.getElem?_eq_some.1 hg).1
    refine hI.log _ _ (by simp) ?_ ?_ ?_ ?_ ?_ ?_
    · intro u hu
      simp only [fetched, List.mem_singleton] at hu
      subst hu
      exact ⟨n, hn, by omega⟩
    · intro j u hm
      simp only [List.mem_cons, List.mem_singleton, List.not_mem_nil, or_false] at hm
      rcases hm with hm | hm
      · cases hm
      · cases hm
        exact ⟨f.depth, hd, by simp⟩
    · intro j u hm hok
      simp only [List.mem_cons, List.mem_singleton, List.not_mem_nil, or_false] at hm
      rcases hm with hm | hm
      · cases hm
      · cases hm
        exact ⟨_, List.getElem?_set_self hlen, rfl, Or.inl rfl⟩
    · intro j u hp
      rcases hp.to_set g _ with h1 | rfl
      · exact h1
      · obtain ⟨x, hx, -, hpx⟩ := hp
        rw [hg] at hx
        cases hx
        rcases hpx with h | h <;> rw [hpc] at h <;> cases h
    · intro j u hp
      rcases hp.of_set with h1 | ⟨rfl, hu, -⟩
      · exact Or.inl h1
      · right
        simp only at hu
        simp [hu]
    · intro j u hp
      rcases hp.of_set with h1 | ⟨-, -, h⟩
      · exact h1
      · cases h
  | hit hg hpc hc =>
    rename_i g f
    have hok := (hF _ _ hg).ok (Or.inl hpc)
    have hfe := hI.fetching g f.url ⟨f, hg, rfl, Or.inl hpc⟩
    have hfound : (c.cache.Get f.url).2 = true := by rw [← URLCache.has_eq_Get]; exact hc
    refine ⟨?_, ?_, ?_, ?_, hI.mono, ?_, ?_, ?_, ?_⟩
    · simpa [fetched_append, fetched] using hI.near
    · intro j u hm he
      simp only [List.mem_append, List.mem_singleton] at hm
      rcases hm with hm | hm
      · rcases hI.stored j u hm he with hp | hfd
        · rcases hp.to_set g { f with pc := PC.loop } with h1 | rfl
          · exact Or.inl h1
          · right
            obtain ⟨x, hx, hu, -⟩ := hp
            rw [hg] at hx
            cases hx
            rw [← hu]
            exact hfound
        · exact Or.inr hfd
      · cases hm
    · intro j u hp
      simp only [List.mem_append]
      rcases hp.of_set with h1 | ⟨-, -, h⟩
      · exact Or.inl (hI.fetching j u h1)
      · rcases h with h | h <;> cases h
    · intro k v hk
      simp only [fetched_append, fetched, List.append_nil]
      exact hI.sound k v hk
    · intro j u hs
      rcases hs.of_set with h1 | ⟨-, -, h⟩
      · exact hI.missing j u h1
      · cases h
    · simpa [added_append, added] using hI.won
    · intro j u hm
      simp only [List.mem_append, List.mem_singleton] at hm ⊢
      rcases hm with hm | hm
      · obtain ⟨dep, hd, hcr⟩ := hI.crawled j u hm
        exact ⟨dep, hd, Or.inl hcr⟩
      · cases hm
    · intro j k v w hm
      simp only [List.mem_append, List.mem_singleton] at hm ⊢
      rcases hm with hm | hm
      · obtain ⟨h1, h2, h3⟩ := hI.sent j k v w hm
        exact ⟨h1, h2, Or.inl h3⟩
      · cases hm
        exact ⟨hok.1, hok.2.2.1, Or.inl hfe⟩
  | miss hg hpc hc =>
    rename_i g f
    have hlen : g < c.gs.length := (List.getElem?_eq_some.1 hg).1
    have habs : (cache0.Get f.url).2 = false := by
      cases h0 : (cache0.Get f.url).2
      · rfl
      · have := hI.mono _ _ (URLCache.Get_eta h0)
        rw [URLCache.has_eq_Get, this] at hc
        cases hc
    refine ⟨hI.near, ?_, ?_, hI.sound, hI.mono, ?_, hI.won, hI.crawled, hI.sent⟩
    · intro j u hm he
      rcases hI.stored j u hm he with hp | hfd
      · rcases hp.to_set g { f with pc := PC.store } with h1 | rfl
        · exact Or.inl h1
        · obtain ⟨x, hx, hu, -⟩ := hp
          rw [hg] at hx
          cases hx
          exact Or.inl ⟨_, List.getElem?_set_self hlen, hu, Or.inr rfl⟩
      · exact Or.inr hfd
    · intro j u hp
      rcases hp.of_set with h1 | ⟨rfl, hu, -⟩
      · exact hI.fetching j u h1
      · exact hI.fetching j u ⟨f, hg, hu, Or.inl hpc⟩
    · intro j u hs
      rcases hs.of_set with h1 | ⟨-, hu, -⟩
      · exact hI.missing j u h1
      · rw [← hu]
        exact habs
  | put hg hpc =>
    rename_i g f
    have hok := (hF _ _ hg).ok (Or.inr (Or.inr (Or.inr (Or.inr (Or.inr hpc)))))
    have hfe := hI.fetching g f.url ⟨f, hg, rfl, Or.inr hpc⟩
    have habs := hI.missing g f.url ⟨f, hg, rfl, hpc⟩
    have hkeep : ∀ u : String, (c.cache.Get u).2 = true →
        ((c.cache.put f.url f.body).Get u).2 = true := by
      intro u hu
      by_cases hne : u = f.url
      · rw [hne, URLCache.Get_put_self]
      · rw [URLCache.Get_put_of_ne _ _ hne]
        exact hu
    refine ⟨?_, ?_, ?_, ?_, ?_, ?_, ?_, ?_, ?_⟩
    · simpa [fetched_append, fetched] using hI.near
    · intro j u hm he
      simp only [List.mem_append, List.mem_singleton] at hm
      rcases hm with hm | hm
      · rcases hI.stored j u hm he with hp | hfd
        · rcases hp.to_set g { f with pc := PC.loop } with h1 | rfl
          · exact Or.inl h1
          · right
            obtain ⟨x, hx, hu, -⟩ := hp
            rw [hg] at hx
            cases hx
            show ((c.cache.put f.url f.body).Get u).2 = true
            rw [← hu, URLCache.Get_put_self]
        · exact Or.inr (hkeep u hfd)
      · cases hm
    · intro j u hp
      simp only [List.mem_append]
      rcases hp.of_set with h1 | ⟨-, -, h⟩
      · exact Or.inl (hI.fetching j u h1)
      · rcases h with h | h <;> cases h
    · intro k v hk
      simp only [fetched_append, fetched, List.append_nil]
      by_cases hne : k = f.url
      · subst hne
        have hk1 : (c.cache.put f.url f.body).Get f.url = (v, true) := hk
        rw [URLCache.Get_put_self] at hk1
        have hv : f.body = v := (Prod.mk.inj hk1).1
        exact Or.inr ⟨hok.1, by rw [← hv]; exact hok.2.2.1, mem_fetched.2 ⟨g, hfe⟩⟩
      · have hk1 : (c.cache.put f.url f.body).Get k = (v, true) := hk
        rw [URLCache.Get_put_of_ne _ _ hne] at hk1
        exact hI.sound k v hk1
    · intro k v hk
      have hne : k ≠ f.url := by
        rintro rfl
        rw [hk] at habs
        cases habs
      show (c.cache.put f.url f.body).Get k = (v, true)
      rw [URLCache.Get_put_of_ne _ _ hne]
      exact hI.mono k v hk
    · intro j u hs
      rcases hs.of_set with h1 | ⟨-, -, h⟩
      · exact hI.missing j u h1
      · cases h
    · intro u hu
      simp only [added_append, added, List.mem_append, List.mem_singleton] at hu
      rcases hu with hu | rfl
      · exact ⟨hkeep u (hI.won u hu).1, (hI.won u hu).2⟩
      · exact ⟨by show ((c.cache.put f.url f.body).Get f.url).2 = true
                  rw [URLCache.Get_put_self], habs⟩
    · intro j u hm
      simp only [List.mem_append, List.mem_singleton] at hm ⊢
      rcases hm with hm | hm
      · obtain ⟨dep, hd, hcr⟩ := hI.crawled j u hm
        exact ⟨dep, hd, Or.inl hcr⟩
      · cases hm
    · intro j k v w hm
      simp only [List.mem_append, List.mem_singleton] at hm ⊢
      rcases hm with hm | hm
      · obtain ⟨h1, h2, h3⟩ := hI.sent j k v w hm
        exact ⟨h1, h2, Or.inl h3⟩
      · cases hm
        exact ⟨hok.1, hok.2.2.1, Or.inl hfe⟩

theorem Config.Inv.at_init (fetch : Fetcher) (seed : String) (d : Int) (cache0 : URLCache) :
    (Config.init cache0 seed d).Inv fetch seed d cache0 := by
  refine ⟨?_, Frame.Linked.at_main fetch seed d, Frame.Counted.of_main seed d,
    Config.Logged.at_start fetch seed d cache0⟩
  intro j x hx
  cases j with
  | zero =>
    simp only [Config.init, List.getElem?_cons_zero, Option.some.injEq] at hx
    subst hx
    exact Frame.Local.for_main fetch seed d
  | succ j => simp [Config.init] at hx

theorem Step.keeps_inv {lv : LoopVar} {fetch : Fetcher} {seed : String} {d : Int}
    {cache0 : URLCache} {c c1 : Config} (h : Step lv fetch c c1)
    (hI : c.Inv fetch seed d cache0) : c1.Inv fetch seed d cache0 :=
  ⟨h.keeps_local hI.loc, h.keeps_linked hI.loc hI.link, h.keeps_counted hI.link hI.count,
    h.keeps_logged hI.loc hI.link hI.log⟩

theorem run_inv {lv : LoopVar} {fetch : Fetcher} {seed : String} {d : Int}
    {cache0 : URLCache} (sched : List Action) :
    ∀ {c c1 : Config}, run lv fetch sched c = some c1 → c.Inv fetch seed d cache0 →
      c1.Inv fetch seed d cache0 := by
  induction sched with
  | nil =>
    intro c c1 h hI
    simp only [run, Option.some.injEq] at h
    subst h
    exact hI
  | cons a as ih =>
    intro c c1 h hI
    simp only [run] at h
    cases hs : step lv fetch a c with
    | none => simp [hs] at h
    | some c2 =>
      simp only [hs] at h
      exact ih h ((Step.of_step hs).keeps_inv hI)

theorem Reachable.invariant {lv : LoopVar} {fetch : Fetcher} {seed : String} {d : Int}
    {cache0 : URLCache} {c : Config} (h : Reachable lv fetch cache0 seed d c) :
    c.Inv fetch seed d cache0 := by
  obtain ⟨sched, hs⟩ := h
  exact run_inv sched hs (Config.Inv.at_init fetch seed d cache0)

theorem run_append {lv : LoopVar} {fetch : Fetcher} (s1 s2 : List Action) :
    ∀ c : Config, run lv fetch (s1 ++ s2) c = (run lv fetch s1 c).bind (run lv fetch s2) := by
  induction s1 with
  | nil => intro c; rfl
  | cons a as ih =>
    intro c
    simp only [List.cons_append, run]
    cases step lv fetch a c with
    | none => rfl
    | some c1 => exact ih c1

theorem spawnedBy_cons (a : Frame) (l : List Frame) (q : Nat) :
    spawnedBy (a :: l) q = spawnedBy l q + if a.parent = some q then 1 else 0 := by
  simp only [spawnedBy, List.countP_cons, decide_eq_true_eq]

theorem joinedBy_cons (a : Frame) (l : List Frame) (q : Nat) :
    joinedBy (a :: l) q =
      joinedBy l q + if a.parent = some q ∧ a.pc = .finished then 1 else 0 := by
  simp only [joinedBy, List.countP_cons, decide_eq_true_eq]

/-- If all goroutines spawned by `q` have been joined, each of them is finished. -/
theorem all_joined {gs : List Frame} {q : Nat} (h : spawnedBy gs q ≤ joinedBy gs q) :
    ∀ x ∈ gs, x.parent = some q → x.pc = .finished := by
  induction gs with
  | nil => simp
  | cons a l ih =>
    have hle := joinedBy_le_spawnedBy l q
    rw [spawnedBy_cons, joinedBy_cons] at h
    intro x hx hp
    by_cases ha : a.parent = some q
    · by_cases hf : a.pc = .finished
      · rw [if_pos ha, if_pos ⟨ha, hf⟩] at h
        rcases List.mem_cons.1 hx with rfl | hx
        · exact hf
        · exact ih (by omega) x hx hp
      · rw [if_pos ha, if_neg (fun hh => hf hh.2)] at h
        omega
    · rw [if_neg ha, if_neg (fun hh => ha hh.1)] at h
      rcases List.mem_cons.1 hx with rfl | hx
      · exact absurd hp ha
      · exact ih (by omega) x hx hp

/-- Once `Crawl` has returned to `main`, every other goroutine is finished. -/
theorem Config.Inv.all_finished {fetch : Fetcher} {seed : String} {d : Int}
    {cache0 : URLCache} {c : Config} (hI : c.Inv fetch seed d cache0) (hd : c.done = true) :
    ∀ (g : Nat) (f : Frame), c.gs[g]? = some f → f.pc = .returned ∨ f.pc = .finished := by
  intro g
  induction g using Nat.strong_induction_on with
  | _ g ih =>
    intro f hf
    cases hp : f.parent with
    | none =>
      have hg := (hI.link g f hf).root hp
      subst hg
      simp only [Config.done, hf, decide_eq_true_eq] at hd
      exact Or.inl hd
    | some p =>
      obtain ⟨hlt, pf, hpf, -⟩ := (hI.link g f hf).par p hp
      have hpc := ih p hlt pf hpf
      have hret := (hI.loc p pf hpf).ret hpc
      have hc := hI.count p pf hpf
      have hk := hc.kids
      have hs := hc.sigs
      exact Or.inr (all_joined (by omega) f (List.getElem?_mem hf) hp)

theorem Config.blocked_of_stuck {c : Config} (h : c.stuck = true) {g : Nat} {f : Frame}
    (hg : c.gs[g]? = some f) : c.blocked g f = true := by
  have hlt : g < c.gs.length := (List.getElem?_eq_some.1 hg).1
  simp only [Config.stuck, List.all_eq_true, List.mem_range] at h
  have := h g hlt
  rw [hg] at this
  exact this

/-- In a stuck state no action is enabled. -/
theorem Config.stuck_sound {lv : LoopVar} {fetch : Fetcher} {c : Config}
    (h : c.stuck = true) : ∀ a : Action, step lv fetch a c = none := by
  intro a
  cases a with
  | run g =>
    simp only [step]
    cases hg : c.gs[g]? with
    | none => rfl
    | some f =>
      have hb := Config.blocked_of_stuck h hg
      cases hpc : f.pc <;> simp [Config.blocked, hpc] at hb <;> simp [Crawl, hpc, hb]
  | recv p ch =>
    simp only [step, stepRecv]
    cases hp : c.gs[p]? with
    | none => rfl
    | some pf =>
      cases hch : c.gs[ch]? with
      | none => rfl
      | some cf =>
        simp only
        rw [if_neg]
        rintro ⟨h1, h2, h3, h4⟩
        have hb := Config.blocked_of_stuck h hp
        simp only [Config.blocked, h1, Bool.and_eq_true, decide_eq_true_eq, List.all_eq_true,
          Bool.not_eq_true', Bool.and_eq_false_imp] at hb
        have := hb.2 cf (List.getElem?_mem hch) h3
        simp [h4] at this

/-- From a stuck state no non-empty schedule can be run. -/
theorem Config.stuck_run {lv : LoopVar} {fetch : Fetcher} {c : Config}
    (h : c.stuck = true) (a : Action) (as : List Action) : run lv fetch (a :: as) c = none := by
  simp [run, Config.stuck_sound h a]

/-- C1 (termination), on its witness graph: with either reading of the loop variable the
run `scenario1Run` of `Crawl("A", 2, scenario1)` from an empty cache reaches a state in
which `Crawl` has not returned to `main` and no action is enabled: goroutine 1 (`B`) waits
at line 65 for a signal nobody will send, and so does `main`.  The program itself ends the
same way: after `mainRun` four goroutines wait at line 65 and nothing is enabled. -/
theorem Crawl_scenario1_deadlock (lv : LoopVar) :
    (∃ c : Config, run lv scenario1.Fetch scenario1Run (Config.init .empty "A" 2) = some c ∧
      c.done = false ∧ (∀ a : Action, step lv scenario1.Fetch a c = none) ∧
      (c.gs.map fun f => (f.url, f.pc, f.urls.length, f.k)) =
        [("A", .wait, 2, 1), ("B", .wait, 1, 0), ("C", .finished, 0, 0)]) ∧
    (∃ c : Config, run lv fetcher.Fetch mainRun main = some c ∧
      c.done = false ∧ (∀ a : Action, step lv fetcher.Fetch a c = none) ∧
      (c.gs.map fun f => (f.pc, f.urls.length, f.k)) =
        [(.wait, 2, 1), (.wait, 4, 1), (.finished, 0, 0), (.finished, 0, 0), (.wait, 2, 0),
         (.wait, 2, 0)]) := by
  cases lv
  · exact ⟨⟨_, rfl, by decide, Config.stuck_sound (by decide), by decide⟩,
      ⟨_, rfl, by decide, Config.stuck_sound (by decide), by decide⟩⟩
  · exact ⟨⟨_, rfl, by decide, Config.stuck_sound (by decide), by decide⟩,
      ⟨_, rfl, by decide, Config.stuck_sound (by decide), by decide⟩⟩

/-- C2 (dedup), refuted on two of its witnesses: in the run `diamondRun` of the diamond
with depth 3, which returns to `main`, `Fetch` is invoked twice on `D`; and in the run
`fixtureRun` of the fixture with depth 4 it is invoked twice on `http://golang.org/cmd/`.
Both runs start from an empty cache and are runs under either reading of the loop
variable. -/
theorem Crawl_fetches_twice :
    ((run .perIteration diamond.Fetch diamondRun (Config.init .empty "A" 3)).map
        fun c => (c.done, fetchCount "D" c.trace)) = some (true, 2) ∧
    ((run .shared diamond.Fetch diamondRun (Config.init .empty "A" 3)).map
        fun c => (c.done, fetchCount "D" c.trace)) = some (true, 2) ∧
    ((run .perIteration fetcher.Fetch fixtureRun (Config.init .empty "http://golang.org/" 4)).map
        fun c => fetchCount "http://golang.org/cmd/" c.trace) = some 2 ∧
    ((run .shared fetcher.Fetch fixtureRun (Config.init .empty "http://golang.org/" 4)).map
        fun c => fetchCount "http://golang.org/cmd/" c.trace) = some 2 := by
  refine ⟨by decide, by decide, by decide, by decide⟩

/-- C3 (depth bound): in every state of every run of `Crawl(seed, d, fetch)`, every url on
which `Fetch` has been invoked is reached from the seed by a chain of at most `d` links;
so a url all of whose chains from the seed are longer than `d` is never fetched. -/
theorem Crawl_depth_bound (lv : LoopVar) (fetch : Fetcher) (cache : URLCache) (seed : String)
    (d : Int) (c : Config) (h : Reachable lv fetch cache seed d c) :
    (∀ u ∈ fetched c.trace, ∃ n : Nat, Chain fetch seed n u ∧ (n : Int) ≤ d) ∧
    (∀ u : String, (∀ n : Nat, Chain fetch seed n u → d < (n : Int)) → u ∉ fetched c.trace) := by
  have hI := (Reachable.invariant h).log
  constructor
  · intro u hu
    obtain ⟨n, hn, hlt⟩ := hI.near u hu
    exact ⟨n, hn, by omega⟩
  · intro u hfar hu
    obtain ⟨n, hn, hlt⟩ := hI.near u hu
    have := hfar n hn
    omega

/-- C3 on the run `fixtureRun` of the fixture with depth 4. -/
theorem Crawl_depth_bound_witness :
    ∃ c : Config, Reachable .shared fetcher.Fetch .empty "http://golang.org/" 4 c ∧
      fetched c.trace = ["http://golang.org/", "http://golang.org/cmd/",
        "http://golang.org/pkg/", "http://golang.org/cmd/", "http://golang.org/pkg/fmt/",
        "http://golang.org/pkg/os/"] ∧
      ((∀ u ∈ fetched c.trace,
          ∃ n : Nat, Chain fetcher.Fetch "http://golang.org/" n u ∧ (n : Int) ≤ 4) ∧
       (∀ u : String, (∀ n : Nat, Chain fetcher.Fetch "http://golang.org/" n u → 4 < (n : Int)) →
          u ∉ fetched c.trace)) :=
  ⟨_, ⟨fixtureRun, rfl⟩, by decide,
    Crawl_depth_bound .shared fetcher.Fetch .empty "http://golang.org/" 4 _ ⟨fixtureRun, rfl⟩⟩

theorem pair_chain_B : Chain pair.Fetch "A" 1 "B" :=
  Chain.hop Chain.zero ⟨by decide, by decide⟩

theorem Chain.eq_of_zero {fetch : Fetcher} {seed u : String} {n : Nat}
    (h : Chain fetch seed n u) (hn : n = 0) : u = seed := by
  cases h with
  | zero => rfl
  | hop _ _ => omega

theorem pair_not_chain_zero_B : ¬ Chain pair.Fetch "A" 0 "B" := by
  intro h
  have := h.eq_of_zero rfl
  revert this
  decide

/-- C4 (depth bound, boundary), refuted on its witness: `B` is at distance exactly 1 from
the seed `A` of `pair`, and the run `pairRun1` of `Crawl("A", 1, pair)` from an empty cache
returns to `main`, with nothing left to execute, without `Fetch` having been invoked on
`B`: goroutine 1 entered `Crawl("B", 0, pair)` and returned at line 41. -/
theorem Crawl_boundary_not_fetched :
    Chain pair.Fetch "A" 1 "B" ∧ ¬ Chain pair.Fetch "A" 0 "B" ∧
    ((run .perIteration pair.Fetch pairRun1 (Config.init .empty "A" 1)).map
      fun c => (c.done, c.stuck, fetched c.trace, c.trace.contains (.crawl 1 "B" 0)))
      = some (true, true, ["A"], true) ∧
    ((run .shared pair.Fetch pairRun1 (Config.init .empty "A" 1)).map
      fun c => (c.done, c.stuck, fetched c.trace, c.trace.contains (.crawl 1 "B" 0)))
      = some (true, true, ["A"], true) :=
  ⟨pair_chain_B, pair_not_chain_zero_B, by decide, by decide⟩

/-- C4 as amended: in every state of every run of `Crawl(seed, d, fetch)`, every url on
which `Fetch` has been invoked is reached from the seed by a chain of fewer than `d` links;
so a url at graph-distance `d` or more (all of whose chains have at least `d` links) is
never fetched. -/
theorem Crawl_depth_bound_strict (lv : LoopVar) (fetch : Fetcher) (cache : URLCache)
    (seed : String) (d : Int) (c : Config) (h : Reachable lv fetch cache seed d c) :
    (∀ u ∈ fetched c.trace, ∃ n : Nat, Chain fetch seed n u ∧ (n : Int) < d) ∧
    (∀ u : String, (∀ n : Nat, Chain fetch seed n u → d ≤ (n : Int)) → u ∉ fetched c.trace) := by
  have hI := (Reachable.invariant h).log
  refine ⟨hI.near, ?_⟩
  intro u hfar hu
  obtain ⟨n, hn, hlt⟩ := hI.near u hu
  have := hfar n hn
  omega

/-- C4 as amended, on the run `pairRun1` of `pair` with depth 1. -/
theorem Crawl_depth_bound_strict_witness :
    ∃ c : Config, Reachable .perIteration pair.Fetch .empty "A" 1 c ∧ c.done = true ∧
      ((∀ u ∈ fetched c.trace, ∃ n : Nat, Chain pair.Fetch "A" n u ∧ (n : Int) < 1) ∧
       (∀ u : String, (∀ n : Nat, Chain pair.Fetch "A" n u → (1 : Int) ≤ (n : Int)) →
          u ∉ fetched c.trace)) :=
  ⟨_, ⟨pairRun1, rfl⟩, by decide,
    Crawl_depth_bound_strict .perIteration pair.Fetch .empty "A" 1 _ ⟨pairRun1, rfl⟩⟩

/-- A start state with one successor `c1`, which is stuck, has no other states. -/
theorem run_two_states {lv : LoopVar} {fetch : Fetcher} {c0 c1 : Config}
    (h0 : ∀ (a : Action) (c : Config), step lv fetch a c0 = some c → c = c1)
    (h1 : ∀ a : Action, step lv fetch a c1 = none) :
    ∀ (sched : List Action) (c : Config), run lv fetch sched c0 = some c → c = c0 ∨ c = c1 := by
  intro sched c h
  cases sched with
  | nil =>
    simp only [run, Option.some.injEq] at h
    exact Or.inl h.symm
  | cons a as =>
    simp only [run] at h
    cases hs : step lv fetch a c0 with
    | none => simp [hs] at h
    | some c2 =>
      simp only [hs] at h
      have := h0 a c2 hs
      subst this
      cases as with
      | nil =>
        simp only [run, Option.some.injEq] at h
        exact Or.inr h.symm
      | cons b bs => simp [run, h1 b] at h

/-- The only goroutine of a state can only execute its next statement. -/
theorem step_single {lv : LoopVar} {fetch : Fetcher} {c c1 : Config} {f : Frame} {a : Action}
    (hgs : c.gs = [f]) (hpc : f.pc ≠ .wait) (h : step lv fetch a c = some c1) :
    a = .run 0 := by
  cases a with
  | run g =>
    cases g with
    | zero => rfl
    | succ g => simp [step, hgs] at h
  | recv p ch =>
    simp only [step, stepRecv, hgs] at h
    cases p with
    | zero =>
      cases ch with
      | zero => simp [hpc] at h
      | succ ch => simp at h
    | succ p => simp at h

theorem step_entry_exhausted (lv : LoopVar) (fetch : Fetcher) {c : Config} {g : Nat} {f : Frame}
    (hg : c.gs[g]? = some f) (hpc : f.pc = .entry) (hd : f.depth ≤ 0) :
    step lv fetch (.run g) c =
      some { c with gs := c.gs.set g { f with pc := .returned },
                    trace := c.trace ++ [.crawl g f.url f.depth] } := by
  simp [step, hg, Crawl, hpc, hd]

theorem step_entry_failed (lv : LoopVar) {fetch : Fetcher} {c : Config} {g : Nat} {f : Frame}
    {e : String} (hg : c.gs[g]? = some f) (hpc : f.pc = .entry) (hd : 0 < f.depth)
    (he : (fetch f.url).err = some e) :
    step lv fetch (.run g) c =
      some { c with gs := c.gs.set g { f with pc := .returned, body := (fetch f.url).body,
                                              urls := (fetch f.url).urls, err := some e },
                    trace := c.trace ++ [.crawl g f.url f.depth, .fetch g f.url] } := by
  have hnd : ¬ f.depth ≤ 0 := by omega
  simp [step, hg, Crawl, hpc, hnd, he]

theorem step_returned (lv : LoopVar) (fetch : Fetcher) {c : Config} {g : Nat} {f : Frame}
    (hg : c.gs[g]? = some f) (hpc : f.pc = .returned) : step lv fetch (.run g) c = none := by
  simp [step, hg, Crawl, hpc]

theorem stuck_single {c : Config} {f : Frame} (hgs : c.gs = [f]) (hpc : f.pc = .returned) :
    c.stuck = true := by
  simp [Config.stuck, hgs, List.range_succ, Config.blocked, hpc]

/-- C7 (depth-exhausted base case): with `d <= 0`, a goroutine at the entry of
`Crawl(url, d, fetch)` returns in its next step; that step leaves the cache and all other
goroutines as they are, creates no goroutine and logs no call of `Fetch`, and the
goroutine executes nothing after it.  So every state of a run of `main`'s call
`Crawl(url, d, fetch)` has no `Fetch` in its log, one goroutine and the initial cache, and
the one-step run returns to `main`. -/
theorem Crawl_depth_exhausted (lv : LoopVar) (fetch : Fetcher) (d : Int) (hd : d ≤ 0) :
    (∀ (c : Config) (g : Nat) (f : Frame), c.gs[g]? = some f → f.pc = .entry → f.depth = d →
      ∃ c1 : Config, step lv fetch (.run g) c = some c1 ∧ c1.cache = c.cache ∧
        fetched c1.trace = fetched c.trace ∧ c1.gs = c.gs.set g { f with pc := .returned } ∧
        c1.gs.length = c.gs.length ∧ step lv fetch (.run g) c1 = none) ∧
    (∀ (cache : URLCache) (url : String),
      (∃ c1 : Config, run lv fetch [.run 0] (Config.init cache url d) = some c1 ∧
        c1.done = true ∧ ∀ a : Action, step lv fetch a c1 = none) ∧
      ∀ c : Config, Reachable lv fetch cache url d c →
        fetched c.trace = [] ∧ c.gs.length = 1 ∧ c.cache = cache) := by
  constructor
  · intro c g f hg hpc hfd
    have hlt : g < c.gs.length := (List.getElem?_eq_some.1 hg).1
    refine ⟨_, step_entry_exhausted lv fetch hg hpc (by omega), rfl, ?_, rfl, by simp, ?_⟩
    · simp [fetched_append, fetched]
    · exact step_returned lv fetch (List.getElem?_set_self hlt) rfl
  · intro cache url
    have hs : step lv fetch (.run 0) (Config.init cache url d) =
        some { cache := cache, gs := [{ Frame.main url d with pc := .returned }],
               trace := [.crawl 0 url d] } :=
      step_entry_exhausted lv fetch (c := Config.init cache url d) (f := Frame.main url d)
        rfl rfl hd
    have hstuck : ∀ a : Action, step lv fetch a
        { cache := cache, gs := [{ Frame.main url d with pc := .returned }],
          trace := [.crawl 0 url d] } = none :=
      Config.stuck_sound (stuck_single rfl rfl)
    refine ⟨⟨_, by simp only [run, hs], by simp [Config.done], hstuck⟩, ?_⟩
    rintro c ⟨sched, hr⟩
    have h0 : ∀ (a : Action) (c : Config), step lv fetch a (Config.init cache url d) = some c →
        c = { cache := cache, gs := [{ Frame.main url d with pc := .returned }],
              trace := [.crawl 0 url d] } := by
      intro a c2 h2
      have ha := step_single (f := Frame.main url d) rfl (by simp [Frame.main]) h2
      subst ha
      rw [hs] at h2
      exact (Option.some.inj h2).symm
    rcases run_two_states h0 hstuck sched c hr with rfl | rfl
    · simp [Config.init, fetched]
    · simp [fetched]

/-- C7 at depth 0 and at a negative depth, for the seed of the fixture. -/
theorem Crawl_depth_exhausted_witness :
    ((run .shared fetcher.Fetch [.run 0] (Config.init .empty "http://golang.org/" 0)).map
      fun c => (c.done, fetched c.trace, c.gs.length, c.cache)) = some (true, [], 1, .empty) ∧
    (∀ c : Config, Reachable .shared fetcher.Fetch .empty "http://golang.org/" (-3) c →
      fetched c.trace = [] ∧ c.gs.length = 1 ∧ c.cache = .empty) :=
  ⟨by decide,
    ((Crawl_depth_exhausted .shared fetcher.Fetch (-3) (by decide)).2 .empty
      "http://golang.org/").2⟩

/-- C8 (fetch failure is local): with `d > 0` and `Fetch(X)` failing, a goroutine at the
entry of `Crawl(X, d, fetch)` returns in its next step; that step logs exactly one call of
`Fetch`, on `X`, leaves the cache and all other goroutines as they are and creates no
goroutine, and the goroutine executes nothing after it.  So every state of a run of
`main`'s call `Crawl(X, d, fetch)` has one goroutine and the initial cache, and is either
the initial state or the state in which `Crawl` has returned after the one `Fetch`. -/
theorem Crawl_fetch_failure (lv : LoopVar) (fetch : Fetcher) (X e : String) (d : Int)
    (hd : 0 < d) (he : (fetch X).err = some e) :
    (∀ (c : Config) (g : Nat) (f : Frame), c.gs[g]? = some f → f.pc = .entry → f.url = X →
      f.depth = d →
      ∃ c1 : Config, step lv fetch (.run g) c = some c1 ∧ c1.cache = c.cache ∧
        c1.trace = c.trace ++ [.crawl g X d, .fetch g X] ∧
        c1.gs = c.gs.set g { f with pc := .returned, body := (fetch X).body,
                                    urls := (fetch X).urls, err := some e } ∧
        c1.gs.length = c.gs.length ∧ step lv fetch (.run g) c1 = none) ∧
    (∀ cache : URLCache,
      (∃ c1 : Config, run lv fetch [.run 0] (Config.init cache X d) = some c1 ∧
        c1.done = true ∧ fetched c1.trace = [X] ∧ ∀ a : Action, step lv fetch a c1 = none) ∧
      ∀ c : Config, Reachable lv fetch cache X d c →
        c.gs.length = 1 ∧ c.cache = cache ∧
        (c = Config.init cache X d ∨ (c.done = true ∧ fetched c.trace = [X]))) := by
  constructor
  · intro c g f hg hpc hu hfd
    have hlt : g < c.gs.length := (List.getElem?_eq_some.1 hg).1
    subst hu hfd
    refine ⟨_, step_entry_failed lv hg hpc hd he, rfl, rfl, rfl, by simp, ?_⟩
    exact step_returned lv fetch (List.getElem?_set_self hlt) rfl
  · intro cache
    have hs : step lv fetch (.run 0) (Config.init cache X d) =
        some { cache := cache,
               gs := [{ Frame.main X d with pc := .returned, body := (fetch X).body,
                                            urls := (fetch X).urls, err := some e }],
               trace := [.crawl 0 X d, .fetch 0 X] } :=
      step_entry_failed lv (c := Config.init cache X d) (f := Frame.main X d) rfl rfl hd he
    have hstuck : ∀ a : Action, step lv fetch a
        { cache := cache,
          gs := [{ Frame.main X d with pc := .returned, body := (fetch X).body,
                                       urls := (fetch X).urls, err := some e }],
          trace := [.crawl 0 X d, .fetch 0 X] } = none :=
      Config.stuck_sound (stuck_single rfl rfl)
    refine ⟨⟨_, by simp only [run, hs], by simp [Config.done], by simp [fetched], hstuck⟩, ?_⟩
    rintro c ⟨sched, hr⟩
    have h0 : ∀ (a : Action) (c : Config), step lv fetch a (Config.init cache X d) = some c →
        c = { cache := cache,
              gs := [{ Frame.main X d with pc := .returned, body := (fetch X).body,
                                           urls := (fetch X).urls, err := some e }],
              trace := [.crawl 0 X d, .fetch 0 X] } := by
      intro a c2 h2
      have ha := step_single (f := Frame.main X d) rfl (by simp [Frame.main]) h2
      subst ha
      rw [hs] at h2
      exact (Option.some.inj h2).symm
    rcases run_two_states h0 hstuck sched c hr with rfl | rfl
    · simp [Config.init]
    · simp [fetched, Config.done]

/-- C8 for the url of the fixture whose fetch fails. -/
theorem Crawl_fetch_failure_witness :
    (fetcher.Fetch "http://golang.org/cmd/").err = some "not found: http://golang.org/cmd/" ∧
    ∀ c : Config, Reachable .perIteration fetcher.Fetch .empty "http://golang.org/cmd/" 3 c →
      c.gs.length = 1 ∧ c.cache = .empty ∧
      (c = Config.init .empty "http://golang.org/cmd/" 3 ∨
        (c.done = true ∧ fetched c.trace = ["http://golang.org/cmd/"])) :=
  ⟨by decide,
    ((Crawl_fetch_failure .perIteration fetcher.Fetch "http://golang.org/cmd/"
      "not found: http://golang.org/cmd/" 3 (by decide) (by decide)).2 .empty).2⟩

/-- A successful fetch whose goroutine is past line 48 has its url in the cache. -/
theorem Config.Inv.stored_of_settled {fetch : Fetcher} {seed : String} {d : Int}
    {cache0 : URLCache} {c : Config} (hI : c.Inv fetch seed d cache0)
    (hs : ∀ (g : Nat) (f : Frame), c.gs[g]? = some f → ¬ f.pc.inAdd) :
    ∀ u ∈ fetched c.trace, (fetch u).err = none → (c.cache.Get u).2 = true := by
  intro u hu he
  obtain ⟨g, hg⟩ := mem_fetched.1 hu
  rcases hI.log.stored g u hg he with ⟨f, hf, -, hp⟩ | h
  · exact absurd hp (hs g f hf)
  · exact h

/-- C9 (completion postcondition): in a state of a run of `Crawl(seed, d, fetch)` in which
`Crawl` has returned to `main`, every url on which `Fetch` was invoked with success is found
in the cache, and when the run started from the empty cache the content found is the body
`Fetch` returns for it. -/
theorem Crawl_completion (lv : LoopVar) (fetch : Fetcher) (cache : URLCache) (seed : String)
    (d : Int) (c : Config) (h : Reachable lv fetch cache seed d c) (hd : c.done = true) :
    ∀ u ∈ fetched c.trace, (fetch u).err = none →
      (c.cache.Get u).2 = true ∧
      (cache = URLCache.empty → c.cache.Get u = ((fetch u).body, true)) := by
  have hI := Reachable.invariant h
  have hfin := hI.all_finished hd
  have hs : ∀ (g : Nat) (f : Frame), c.gs[g]? = some f → ¬ f.pc.inAdd := by
    intro g f hf hp
    rcases hfin g f hf with h1 | h1 <;> rcases hp with hp | hp <;> rw [hp] at h1 <;> cases h1
  intro u hu he
  have hfound := hI.stored_of_settled hs u hu he
  refine ⟨hfound, ?_⟩
  rintro rfl
  rcases hI.log.sound u _ (URLCache.Get_eta hfound) with h0 | ⟨-, h2, -⟩
  · simp [URLCache.empty, URLCache.Get] at h0
  · rw [URLCache.Get_eta hfound, h2]

/-- C9 on the run `pairRun2` of `pair` with depth 2, which returns to `main` after the
successful fetches of `A` and `B`: `B` is found in the cache with its body. -/
theorem Crawl_completion_witness :
    ∃ c : Config, Reachable .shared pair.Fetch .empty "A" 2 c ∧ c.done = true ∧
      fetched c.trace = ["A", "B"] ∧ (pair.Fetch "B").err = none ∧
      (c.cache.Get "B").2 = true ∧ c.cache.Get "B" = ((pair.Fetch "B").body, true) :=
  ⟨_, ⟨pairRun2, rfl⟩, by decide, by decide, by decide,
    (Crawl_completion .shared pair.Fetch .empty "A" 2 _ ⟨pairRun2, rfl⟩ (by decide) "B"
      (by decide) (by decide)).1,
    (Crawl_completion .shared pair.Fetch .empty "A" 2 _ ⟨pairRun2, rfl⟩ (by decide) "B"
      (by decide) (by decide)).2 rfl⟩

theorem step_check_spawn (lv : LoopVar) (fetch : Fetcher) {c : Config} {g : Nat} {f : Frame}
    {u : String} (hg : c.gs[g]? = some f) (hpc : f.pc = .check) (hu : f.urls[f.i]? = some u)
    (hc : (c.cache.Get u).2 = false) :
    step lv fetch (.run g) c =
      some { c with gs := c.gs.set g { f with pc := .loop, i := f.i + 1 }
                            ++ [Frame.child g f.i] } := by
  simp [step, hg, Crawl, hpc, hu, hc]

theorem step_start (lv : LoopVar) (fetch : Fetcher) {c : Config} {g p : Nat} {f pf : Frame}
    {u : String} (hg : c.gs[g]? = some f) (hpc : f.pc = .spawned) (hp : f.parent = some p)
    (hpf : c.gs[p]? = some pf) (hu : pf.urls[loopVarIndex lv pf f]? = some u) :
    step lv fetch (.run g) c =
      some { c with gs := c.gs.set g { f with pc := .entry, url := u, depth := pf.depth - 1 } } := by
  simp [step, hg, Crawl, hpc, hp, hpf, hu]

theorem step_entry_ok (lv : LoopVar) {fetch : Fetcher} {c : Config} {g : Nat} {f : Frame}
    (hg : c.gs[g]? = some f) (hpc : f.pc = .entry) (hd : 0 < f.depth)
    (he : (fetch f.url).err = none) :
    step lv fetch (.run g) c =
      some { c with gs := c.gs.set g { f with pc := .fetched, body := (fetch f.url).body,
                                              urls := (fetch f.url).urls, err := none },
                    trace := c.trace ++ [.crawl g f.url f.depth, .fetch g f.url] } := by
  have hnd : ¬ f.depth ≤ 0 := by omega
  simp [step, hg, Crawl, hpc, hnd, he]

/-- The step of a goroutine at the entry of `Crawl(url, depth, fetch)` with `depth > 0`
logs the call and one `Fetch`, whether the fetch succeeds or not. -/
theorem step_entry_fetch (lv : LoopVar) (fetch : Fetcher) {c : Config} {g : Nat} {f : Frame}
    (hg : c.gs[g]? = some f) (hpc : f.pc = .entry) (hd : 0 < f.depth) :
    ∃ c1 : Config, step lv fetch (.run g) c = some c1 ∧ c1.cache = c.cache ∧
      c1.trace = c.trace ++ [.crawl g f.url f.depth, .fetch g f.url] ∧
      (∃ f1 : Frame, c1.gs = c.gs.set g f1 ∧ f1.parent = f.parent ∧ f1.url = f.url ∧
        f1.depth = f.depth) := by
  cases he : (fetch f.url).err with
  | none => exact ⟨_, step_entry_ok lv hg hpc hd he, rfl, rfl, _, rfl, rfl, rfl, rfl⟩
  | some e => exact ⟨_, step_entry_failed lv hg hpc hd he, rfl, rfl, _, rfl, rfl, rfl, rfl⟩

/-- A goroutine `x` at the entry of `Crawl` that has spawned nobody: replacing its frame by
a returned one `xf1` (and extending the log) changes the outcome of no action of another
goroutine, other than in the frame of `x` itself. -/
theorem step_beside_returned (lv : LoopVar) (fetch : Fetcher) {c : Config} {x : Nat}
    {xf : Frame} (xf1 : Frame) (evs : List Event) (hx : c.gs[x]? = some xf)
    (hpc : xf.pc = .entry) (hpc1 : xf1.pc = .returned)
    (hkids : ∀ f ∈ c.gs, f.parent ≠ some x) (a : Action) (ha : a ≠ .run x)
    (hr : ∀ q : Nat, a ≠ .recv q x) :
    (step lv fetch a { c with gs := c.gs.set x xf1, trace := c.trace ++ evs }).map Config.state
      = (step lv fetch a c).map fun c2 => (c2.cache, c2.gs.set x xf1) := by
  have hxlt : x < c.gs.length := (List.getElem?_eq_some.1 hx).1
  cases a with
  | run g =>
    have hgx : x ≠ g := fun e => ha (by rw [e])
    simp only [step, List.getElem?_set_ne hgx]
    cases hg : c.gs[g]? with
    | none => rfl
    | some f =>
      have hglt : g < c.gs.length := (List.getElem?_eq_some.1 hg).1
      simp only
      cases hfpc : f.pc with
      | spawned =>
        simp only [Crawl, hfpc]
        cases hp : f.parent with
        | none => rfl
        | some p =>
          have hpx : x ≠ p := by
            intro e
            exact hkids f (List.getElem?_mem hg) (by rw [hp, e])
          simp only [List.getElem?_set_ne hpx]
          cases hpf : c.gs[p]? with
          | none => rfl
          | some pf =>
            simp only
            cases hu : pf.urls[loopVarIndex lv pf f]? with
            | none => rfl
            | some u =>
              simp only [Option.map_some', Config.state]
              rw [List.set_comm _ _ _ hgx]
      | entry =>
        simp only [Crawl, hfpc]
        split
        · simp only [Option.map_some', Config.state]
          rw [List.set_comm _ _ _ hgx]
        · cases he : (fetch f.url).err with
          | none =>
            simp only [Option.map_some', Config.state]
            rw [List.set_comm _ _ _ hgx]
          | some e =>
            simp only [Option.map_some', Config.state]
            rw [List.set_comm _ _ _ hgx]
      | fetched =>
        simp only [Crawl, hfpc]
        split
        · simp only [Option.map_some', Config.state]
          rw [List.set_comm _ _ _ hgx]
        · simp only [Option.map_some', Config.state]
          rw [List.set_comm _ _ _ hgx]
      | store =>
        simp only [Crawl, hfpc, Option.map_some', Config.state]
        rw [List.set_comm _ _ _ hgx]
      | loop =>
        simp only [Crawl, hfpc]
        split
        · simp only [Option.map_some', Config.state]
          rw [List.set_comm _ _ _ hgx]
        · simp only [Option.map_some', Config.state]
          rw [List.set_comm _ _ _ hgx]
      | check =>
        simp only [Crawl, hfpc]
        cases hu : f.urls[f.i]? with
        | none => rfl
        | some u =>
          simp only
          split
          · simp only [Option.map_some', Config.state]
            rw [List.set_comm _ _ _ hgx]
          · simp only [Option.map_some', Config.state]
            rw [List.set_append_left _ _ (by simpa using hxlt), List.set_comm _ _ _ hgx]
      | wait =>
        simp only [Crawl, hfpc]
        split
        · rfl
        · simp only [Option.map_some', Config.state]
          rw [List.set_comm _ _ _ hgx]
      | returned => simp [Crawl, hfpc]
      | finished => simp [Crawl, hfpc]
  | recv p ch =>
    have hchx : x ≠ ch := fun e => hr p (by rw [e])
    simp only [step, stepRecv, List.getElem?_set_ne hchx]
    by_cases hpx : x = p
    · subst hpx
      rw [List.getElem?_set_self hxlt, hx]
      cases hch : c.gs[ch]? with
      | none => rfl
      | some cf => simp [hpc, hpc1]
    · rw [List.getElem?_set_ne hpx]
      cases hp : c.gs[p]? with
      | none => rfl
      | some pf =>
        cases hch : c.gs[ch]? with
        | none => rfl
        | some cf =>
          simp only
          split
          · simp only [Option.map_some', Config.state]
            rw [List.set_comm _ _ _ hpx, List.set_comm _ _ _ hchx]
          · rfl

/-- In a run, a goroutine at the entry of `Crawl` has spawned nobody. -/
theorem Config.Inv.no_kids_at_entry {fetch : Fetcher} {seed : String} {d : Int}
    {cache0 : URLCache} {c : Config} (hI : c.Inv fetch seed d cache0) {x : Nat} {xf : Frame}
    (hx : c.gs[x]? = some xf) (hpc : xf.pc = .entry) : ∀ f ∈ c.gs, f.parent ≠ some x := by
  intro f hf hp
  obtain ⟨j, hj⟩ := List.mem_iff_getElem?.1 hf
  obtain ⟨-, pf, hpf, ho⟩ := (hI.link j f hj).par x hp
  rw [hx] at hpf
  cases hpf
  have := ((hI.loc x xf hx).fresh (Or.inr hpc)).1
  omega

theorem step_check_skip (lv : LoopVar) (fetch : Fetcher) {c : Config} {g : Nat} {f : Frame}
    {u : String} (hg : c.gs[g]? = some f) (hpc : f.pc = .check) (hu : f.urls[f.i]? = some u)
    (hc : (c.cache.Get u).2 = true) :
    step lv fetch (.run g) c =
      some { c with gs := c.gs.set g { f with pc := .loop, i := f.i + 1 } } := by
  simp [step, hg, Crawl, hpc, hu, hc]

theorem step_add_hit (lv : LoopVar) (fetch : Fetcher) {c : Config} {g : Nat} {f : Frame}
    (hg : c.gs[g]? = some f) (hpc : f.pc = .fetched) (hc : (c.cache.Get f.url).2 = true) :
    step lv fetch (.run g) c =
      some { c with gs := c.gs.set g { f with pc := .loop },
                    trace := c.trace ++ [.add g f.url f.body false] } := by
  have hh : c.cache.has f.url = true := by rw [URLCache.has_eq_Get]; exact hc
  simp [step, hg, Crawl, hpc, hh]

/-- C17 (canned fetcher): `f.Fetch(url)` returns the body and the links stored under `url`
and no error when `url` is a key of `f`, and an empty body, no links and the error
`not found: <url>` when it is not; so it succeeds exactly on the keys of `f`.  On the
fixture it fails for `http://golang.org/cmd/` and succeeds for the four pages. -/
theorem fakeFetcher_Fetch_canned (f : fakeFetcher) (url : String) :
    (∀ res : fakeResult, f.lookup url = some res →
      f.Fetch url = ⟨res.body, res.urls, none⟩) ∧
    (f.lookup url = none → f.Fetch url = ⟨"", [], some ("not found: " ++ url)⟩) ∧
    ((f.Fetch url).err = none ↔ (f.lookup url).isSome = true) ∧
    ((f.Fetch url).err = some ("not found: " ++ url) ↔ f.lookup url = none) ∧
    fetcher.Fetch "http://golang.org/cmd/"
      = ⟨"", [], some "not found: http://golang.org/cmd/"⟩ ∧
    fetcher.Fetch "http://golang.org/"
      = ⟨"The Go Programming Language",
         ["http://golang.org/pkg/", "http://golang.org/cmd/"], none⟩ ∧
    fetcher.Fetch "http://golang.org/pkg/"
      = ⟨"Packages", ["http://golang.org/", "http://golang.org/cmd/",
          "http://golang.org/pkg/fmt/", "http://golang.org/pkg/os/"], none⟩ ∧
    fetcher.Fetch "http://golang.org/pkg/fmt/"
      = ⟨"Package fmt", ["http://golang.org/", "http://golang.org/pkg/"], none⟩ ∧
    fetcher.Fetch "http://golang.org/pkg/os/"
      = ⟨"Package os", ["http://golang.org/", "http://golang.org/pkg/"], none⟩ := by
  refine ⟨?_, ?_, ?_, ?_, by decide, by decide, by decide, by decide, by decide⟩
  · intro res h
    simp [fakeFetcher.Fetch, h]
  · intro h
    simp [fakeFetcher.Fetch, h]
  · cases h : f.lookup url <;> simp [fakeFetcher.Fetch, h]
  · cases h : f.lookup url <;> simp [fakeFetcher.Fetch, h]

/-- C16 (frame of the cache operations): `Add(id, c)`, and the assignment of line 23 by
itself, leave the result of `Get(k)` as it was for every other key `k`; a call of `Get`
leaves the map as it is, so no result of `Get` changes by it, in a sequence of calls as in
the step of `Crawl` that calls it (line 53); and `Get` of an absent key is `("", false)`. -/
theorem URLCache.Get_frame (cache : URLCache) (id k c : String) (hne : k ≠ id) :
    (cache.Add id c).1.Get k = cache.Get k ∧
    (cache.put id c).Get k = cache.Get k ∧
    (∀ url key : String, (cache.apply (.get url)).Get key = cache.Get key) ∧
    (∀ (urls : List String) (key : String),
      (cache.applyAll (urls.map CacheOp.get)).Get key = cache.Get key) ∧
    (∀ (lv : LoopVar) (fetch : Fetcher) (s s1 : Config) (g : Nat) (f : Frame),
      s.gs[g]? = some f → f.pc = .check → step lv fetch (.run g) s = some s1 →
      s1.cache = s.cache) ∧
    (∀ key : String, cache.urls.lookup key = none → cache.Get key = ("", false)) ∧
    (∀ key : String, (cache.Get key).2 = false → cache.Get key = ("", false)) := by
  refine ⟨URLCache.Get_Add_of_ne cache c hne, URLCache.Get_put_of_ne cache c hne,
    fun _ _ => rfl, ?_, ?_, fun key h => URLCache.Get_of_lookup_none h, ?_⟩
  · intro urls key
    have : cache.applyAll (urls.map CacheOp.get) = cache := by
      induction urls with
      | nil => rfl
      | cons u us ih => simpa [URLCache.applyAll, URLCache.apply] using ih
    rw [this]
  · intro lv fetch s s1 g f hg hpc hs
    cases hu : f.urls[f.i]? with
    | none => simp [step, hg, Crawl, hpc, hu] at hs
    | some u =>
      cases hc : (s.cache.Get u).2
      · rw [step_check_spawn lv fetch hg hpc hu hc] at hs
        cases hs
        rfl
      · rw [step_check_skip lv fetch hg hpc hu hc] at hs
        cases hs
        rfl
  · intro key h
    unfold URLCache.Get at h ⊢
    cases hl : cache.urls.lookup key with
    | none => rfl
    | some v => simp [hl] at h

/-- C16 on a cache that holds `a`: storing `b` leaves `a` alone. -/
theorem URLCache.Get_frame_witness :
    ((⟨[("a", "x")]⟩ : URLCache).Add "b" "y").1.Get "a" = ("x", true) ∧
    ((⟨[("a", "x")]⟩ : URLCache).Add "b" "y").1.Get "a" = (⟨[("a", "x")]⟩ : URLCache).Get "a" ∧
    (⟨[("a", "x")]⟩ : URLCache).Get "c" = ("", false) :=
  ⟨by decide,
    (URLCache.Get_frame ⟨[("a", "x")]⟩ "b" "a" "y" (by decide)).1,
    (URLCache.Get_frame ⟨[("a", "x")]⟩ "b" "a" "y" (by decide)).2.2.2.2.2.1 "c" (by decide)⟩

/-- C14 (the starting node's fetch is not deduplicated): a goroutine at the entry of
`Crawl(id, depth, fetch)` with `depth > 0` invokes `Fetch(id)` in its next step, whatever
the cache holds, `id` included.  When the fetch succeeds and `id` is a key of the cache,
the two steps of the call and of `Add` leave the cache as it is and `Add` returns false;
so does `Add` in any state in which it finds `id`, and so does a whole call `Add(id, _)`
on a map that holds `id`. -/
theorem Crawl_refetches_start (lv : LoopVar) (fetch : Fetcher) (c : Config) (g : Nat)
    (f : Frame) (hg : c.gs[g]? = some f) (hpc : f.pc = .entry) (hd : 0 < f.depth) :
    (∃ c1 : Config, step lv fetch (.run g) c = some c1 ∧ c1.cache = c.cache ∧
      c1.trace = c.trace ++ [.crawl g f.url f.depth, .fetch g f.url]) ∧
    ((fetch f.url).err = none → (c.cache.Get f.url).2 = true →
      ∃ c2 : Config, run lv fetch [.run g, .run g] c = some c2 ∧ c2.cache = c.cache ∧
        c2.trace = c.trace ++ [.crawl g f.url f.depth, .fetch g f.url,
          .add g f.url (fetch f.url).body false] ∧
        (c2.gs[g]?.map fun x => x.pc) = some .loop) ∧
    (∀ (s : Config) (j : Nat) (x : Frame), s.gs[j]? = some x → x.pc = .fetched →
      (s.cache.Get x.url).2 = true →
      step lv fetch (.run j) s =
        some { s with gs := s.gs.set j { x with pc := .loop },
                      trace := s.trace ++ [.add j x.url x.body false] }) ∧
    (∀ (cache : URLCache) (body : String), (cache.Get f.url).2 = true →
      cache.Add f.url body = (cache, false)) := by
  have hlt : g < c.gs.length := (List.getElem?_eq_some.1 hg).1
  refine ⟨?_, ?_, fun s j x hj hx hc => step_add_hit lv fetch hj hx hc,
    fun cache body h => URLCache.Add_of_present body h⟩
  · obtain ⟨c1, h1, h2, h3, -⟩ := step_entry_fetch lv fetch hg hpc hd
    exact ⟨c1, h1, h2, h3⟩
  · intro he hc
    let f1 : Frame := { f with pc := .fetched, body := (fetch f.url).body,
                               urls := (fetch f.url).urls, err := none }
    let c1 : Config := { c with gs := c.gs.set g f1,
                                trace := c.trace ++ [.crawl g f.url f.depth, .fetch g f.url] }
    let c2 : Config := { c1 with gs := c1.gs.set g { f1 with pc := .loop },
                                 trace := c1.trace ++ [.add g f1.url f1.body false] }
    have h1 : step lv fetch (.run g) c = some c1 := step_entry_ok lv hg hpc hd he
    have hg1 : c1.gs[g]? = some f1 := List.getElem?_set_self hlt
    have h2 : step lv fetch (.run g) c1 = some c2 := step_add_hit lv fetch hg1 rfl hc
    refine ⟨c2, by simp only [run, h1, h2], rfl, ?_, ?_⟩
    · show (c.trace ++ [.crawl g f.url f.depth, .fetch g f.url]) ++
        [.add g f.url (fetch f.url).body false] = _
      simp
    · show ((c.gs.set g f1).set g { f1 with pc := .loop })[g]?.map (fun x => x.pc) = some .loop
      rw [List.getElem?_set_self (by simpa using hlt)]
      rfl

/-- C14 on the fixture started with a cache that already holds the seed: the seed is
fetched all the same, `Add` returns false and the old content stays. -/
theorem Crawl_refetches_start_witness :
    ((run .shared fetcher.Fetch [.run 0, .run 0] (Config.init staleCache "http://golang.org/" 4)).map
      fun c => (c.cache.Get "http://golang.org/", c.trace)) =
      some (("old", true), [.crawl 0 "http://golang.org/" 4, .fetch 0 "http://golang.org/",
        .add 0 "http://golang.org/" "The Go Programming Language" false]) ∧
    ∃ c1 : Config,
      step .shared fetcher.Fetch (.run 0) (Config.init staleCache "http://golang.org/" 4)
        = some c1 ∧
      c1.cache = (Config.init staleCache "http://golang.org/" 4).cache ∧
      c1.trace = (Config.init staleCache "http://golang.org/" 4).trace ++
        [.crawl 0 "http://golang.org/" 4, .fetch 0 "http://golang.org/"] :=
  ⟨by decide,
    (Crawl_refetches_start .shared fetcher.Fetch (Config.init staleCache "http://golang.org/" 4)
      0 (Frame.main "http://golang.org/" 4) (by decide) (by decide) (by decide)).1⟩

/-- A key that is found is still found after any step. -/
theorem Step.keeps_found {lv : LoopVar} {fetch : Fetcher} {c c1 : Config}
    (h : Step lv fetch c c1) {k : String} (hk : (c.cache.Get k).2 = true) :
    (c1.cache.Get k).2 = true := by
  cases h with
  | put hg hpc =>
    rename_i g f
    show ((c.cache.put f.url f.body).Get k).2 = true
    by_cases hne : k = f.url
    · rw [hne, URLCache.Get_put_self]
    · rw [URLCache.Get_put_of_ne _ _ hne]
      exact hk
  | _ => exact hk

theorem run_keeps_found {lv : LoopVar} {fetch : Fetcher} {k : String} (sched : List Action) :
    ∀ {c c1 : Config}, run lv fetch sched c = some c1 → (c.cache.Get k).2 = true →
      (c1.cache.Get k).2 = true := by
  induction sched with
  | nil =>
    intro c c1 h hk
    simp only [run, Option.some.injEq] at h
    subst h
    exact hk
  | cons a as ih =>
    intro c c1 h hk
    simp only [run] at h
    cases hs : step lv fetch a c with
    | none => simp [hs] at h
    | some c2 =>
      simp only [hs] at h
      exact ih h ((Step.of_step hs).keeps_found hk)

theorem Reachable.extend {lv : LoopVar} {fetch : Fetcher} {cache : URLCache} {seed : String}
    {d : Int} {c c1 : Config} (h : Reachable lv fetch cache seed d c) (sched : List Action)
    (h1 : run lv fetch sched c = some c1) : Reachable lv fetch cache seed d c1 := by
  obtain ⟨s0, h0⟩ := h
  exact ⟨s0 ++ sched, by rw [run_append, h0]; exact h1⟩

/-- C15 (cache soundness of `Crawl`): in every state `c` of every run of
`Crawl(seed, d, fetch)` started with `cache`, every entry of `cache` is found with the same
content; every entry found is one of `cache` or holds the body that `Fetch`, invoked in the
run, returns for its key without error; every call of `Add` made passes such a body, after
a `Fetch` by the same goroutine; a key whose fetch fails, and a key on which `Crawl` was
entered with depth budget 0 or less only, is found only if `cache` held it; and an entry
found in `c` is found with the same content in every later state. -/
theorem Crawl_cache_sound (lv : LoopVar) (fetch : Fetcher) (cache : URLCache) (seed : String)
    (d : Int) (c : Config) (h : Reachable lv fetch cache seed d c) :
    (∀ k v : String, cache.Get k = (v, true) → c.cache.Get k = (v, true)) ∧
    (∀ k v : String, c.cache.Get k = (v, true) →
      cache.Get k = (v, true) ∨
        ((fetch k).err = none ∧ v = (fetch k).body ∧ k ∈ fetched c.trace)) ∧
    (∀ (g : Nat) (k v : String) (w : Bool), Event.add g k v w ∈ c.trace →
      (fetch k).err = none ∧ v = (fetch k).body ∧ Event.fetch g k ∈ c.trace) ∧
    (∀ k : String, (fetch k).err ≠ none → (cache.Get k).2 = false →
      (c.cache.Get k).2 = false) ∧
    (∀ k : String, (∀ (g : Nat) (dep : Int), Event.crawl g k dep ∈ c.trace → dep ≤ 0) →
      (cache.Get k).2 = false → (c.cache.Get k).2 = false) ∧
    (∀ (sched : List Action) (c1 : Config), run lv fetch sched c = some c1 →
      ∀ k v : String, c.cache.Get k = (v, true) → c1.cache.Get k = (v, true)) := by
  have hI := (Reachable.invariant h).log
  have hnew : ∀ k : String, (cache.Get k).2 = false → (c.cache.Get k).2 = true →
      (fetch k).err = none ∧ k ∈ fetched c.trace := by
    intro k h0 h1
    rcases hI.sound k _ (URLCache.Get_eta h1) with h2 | ⟨h2, -, h3⟩
    · rw [h2] at h0
      cases h0
    · exact ⟨h2, h3⟩
  refine ⟨hI.mono, hI.sound, hI.sent, ?_, ?_, ?_⟩
  · intro k hk h0
    cases h1 : (c.cache.Get k).2
    · rfl
    · exact absurd (hnew k h0 h1).1 hk
  · intro k hk h0
    cases h1 : (c.cache.Get k).2
    · rfl
    · obtain ⟨g, hg⟩ := mem_fetched.1 (hnew k h0 h1).2
      obtain ⟨dep, hd, hc⟩ := hI.crawled g k hg
      have := hk g dep hc
      omega
  · intro sched c1 hr k v hk
    have hI1 := (Reachable.invariant (h.extend sched hr)).log
    have hf1 : (c1.cache.Get k).2 = true := run_keeps_found sched hr (by rw [hk])
    rcases hI.sound k v hk with h0 | ⟨-, h2, -⟩
    · exact hI1.mono k v h0
    · rcases hI1.sound k _ (URLCache.Get_eta hf1) with h3 | ⟨-, h4, -⟩
      · have := hI.mono k _ h3
        rw [hk] at this
        rw [URLCache.Get_eta hf1, ← (Prod.mk.inj this).1]
      · rw [URLCache.Get_eta hf1, h4, h2]

/-- C15 on the run `fixtureRun` of the fixture started with a cache that holds the seed
with an older content: that content stays, and `http://golang.org/cmd/`, whose fetch
fails, is not found. -/
theorem Crawl_cache_sound_witness :
    ∃ c : Config, Reachable .shared fetcher.Fetch staleCache "http://golang.org/" 4 c ∧
      fetchCount "http://golang.org/cmd/" c.trace = 2 ∧
      c.cache.Get "http://golang.org/" = ("old", true) ∧
      (c.cache.Get "http://golang.org/cmd/").2 = false ∧
      c.cache.Get "http://golang.org/pkg/" = ("Packages", true) :=
  ⟨(run .shared fetcher.Fetch (fixtureRun.drop 1) (Config.init staleCache "http://golang.org/" 4)).get
      (by decide),
    ⟨fixtureRun.drop 1, by simp⟩, by decide,
    (Crawl_cache_sound .shared fetcher.Fetch staleCache "http://golang.org/" 4 _
      ⟨fixtureRun.drop 1, by simp⟩).1 "http://golang.org/" "old" (by decide),
    (Crawl_cache_sound .shared fetcher.Fetch staleCache "http://golang.org/" 4 _
      ⟨fixtureRun.drop 1, by simp⟩).2.2.2.1 "http://golang.org/cmd/" (by decide) (by decide),
    by decide⟩

theorem Frame.Later.after_set {gs : List Frame} {j g : Nat} {fj f : Frame}
    (hj : gs[j]? = some fj) (hg : gs[g]? = some f) (hp : f.pc.pastLoop) (f1 : Frame)
    (hpar : f1.parent = fj.parent) (h : fj.pc.pastLoop → fj.Later f1) :
    ∃ x : Frame, (gs.set j f1)[g]? = some x ∧ f.Later x ∧
      spawnedBy (gs.set j f1) g = spawnedBy gs g := by
  have hlt : j < gs.length := (List.getElem?_eq_some.1 hj).1
  by_cases hjg : j = g
  · subst hjg
    rw [hj] at hg
    cases hg
    exact ⟨f1, List.getElem?_set_self hlt, h hp, spawnedBy_set hj f1 hpar _⟩
  · exact ⟨f, by rw [List.getElem?_set_ne hjg]; exact hg, ⟨rfl, rfl, rfl, hp⟩,
      spawnedBy_set hj f1 hpar _⟩

/-- A frame past its loop stays past it, with the links, the error and the depth it has,
and spawns nobody any more. -/
theorem Step.keeps_past {lv : LoopVar} {fetch : Fetcher} {c c1 : Config}
    (h : Step lv fetch c c1) {g : Nat} {f : Frame} (hg : c.gs[g]? = some f)
    (hp : f.pc.pastLoop) :
    ∃ x : Frame, c1.gs[g]? = some x ∧ f.Later x ∧ spawnedBy c1.gs g = spawnedBy c.gs g := by
  cases h with
  | start hj hpc _ _ _ =>
    exact Frame.Later.after_set hj hg hp _ rfl (fun h => by simp [PC.pastLoop, hpc] at h)
  | exhausted hj hpc _ =>
    exact Frame.Later.after_set hj hg hp _ rfl (fun h => by simp [PC.pastLoop, hpc] at h)
  | fetchErr hj hpc _ _ =>
    exact Frame.Later.after_set hj hg hp _ rfl (fun h => by simp [PC.pastLoop, hpc] at h)
  | fetchOk hj hpc _ _ =>
    exact Frame.Later.after_set hj hg hp _ rfl (fun h => by simp [PC.pastLoop, hpc] at h)
  | hit hj hpc _ =>
    exact Frame.Later.after_set hj hg hp _ rfl (fun h => by simp [PC.pastLoop, hpc] at h)
  | miss hj hpc _ =>
    exact Frame.Later.after_set hj hg hp _ rfl (fun h => by simp [PC.pastLoop, hpc] at h)
  | put hj hpc =>
    exact Frame.Later.after_set hj hg hp _ rfl (fun h => by simp [PC.pastLoop, hpc] at h)
  | next hj hpc _ =>
    exact Frame.Later.after_set hj hg hp _ rfl (fun h => by simp [PC.pastLoop, hpc] at h)
  | exit hj hpc _ =>
    exact Frame.Later.after_set hj hg hp _ rfl (fun h => by simp [PC.pastLoop, hpc] at h)
  | skip hj hpc _ _ =>
    exact Frame.Later.after_set hj hg hp _ rfl (fun h => by simp [PC.pastLoop, hpc] at h)
  | ret hj hpc _ =>
    exact Frame.Later.after_set hj hg hp _ rfl (fun _ => ⟨rfl, rfl, rfl, Or.inr (Or.inl rfl)⟩)
  | spawn hj hpc hu hc =>
    rename_i j fj u
    obtain ⟨x, hx, hl, hs⟩ := Frame.Later.after_set hj hg hp
      { fj with pc := .loop, i := fj.i + 1 } rfl (fun h => by simp [PC.pastLoop, hpc] at h)
    have hjg : j ≠ g := by
      rintro rfl
      rw [hj] at hg
      cases hg
      simp [PC.pastLoop, hpc] at hp
    refine ⟨x, ?_, hl, ?_⟩
    · show (c.gs.set j { fj with pc := .loop, i := fj.i + 1 } ++ [Frame.child j fj.i])[g]? = some x
      rw [List.getElem?_append_left (List.getElem?_eq_some.1 hx).1]
      exact hx
    · show spawnedBy (c.gs.set j { fj with pc := .loop, i := fj.i + 1 }
        ++ [Frame.child j fj.i]) g = spawnedBy c.gs g
      rw [spawnedBy_concat, hs]
      simp [Frame.child, hjg]
  | recv hq hch hpc hk hcpc hpar =>
    rename_i q ch qf cf
    have hne : q ≠ ch := by
      rintro rfl
      rw [hq] at hch
      cases hch
      rw [hpc] at hcpc
      cases hcpc
    obtain ⟨x, hx, hl, hs⟩ := Frame.Later.after_set hq hg hp { qf with k := qf.k + 1 } rfl
      (fun _ => ⟨rfl, rfl, rfl, Or.inl hpc⟩)
    have hch1 : (c.gs.set q { qf with k := qf.k + 1 })[ch]? = some cf := by
      rw [List.getElem?_set_ne hne]
      exact hch
    obtain ⟨y, hy, hl2, hs2⟩ := Frame.Later.after_set hch1 hx hl.2.2.2
      { cf with pc := .finished } rfl (fun _ => ⟨rfl, rfl, rfl, Or.inr (Or.inr rfl)⟩)
    exact ⟨y, hy, ⟨hl2.1.trans hl.1, hl2.2.1.trans hl.2.1, hl2.2.2.1.trans hl.2.2.1,
      hl2.2.2.2⟩, hs2.trans hs⟩

theorem run_keeps_past {lv : LoopVar} {fetch : Fetcher} {g : Nat} (sched : List Action) :
    ∀ {c c1 : Config} {f : Frame}, run lv fetch sched c = some c1 → c.gs[g]? = some f →
      f.pc.pastLoop →
      ∃ x : Frame, c1.gs[g]? = some x ∧ f.Later x ∧ spawnedBy c1.gs g = spawnedBy c.gs g := by
  induction sched with
  | nil =>
    intro c c1 f h hg hp
    simp only [run, Option.some.injEq] at h
    subst h
    exact ⟨f, hg, ⟨rfl, rfl, rfl, hp⟩, rfl⟩
  | cons a as ih =>
    intro c c1 f h hg hp
    simp only [run] at h
    cases hs : step lv fetch a c with
    | none => simp [hs] at h
    | some c2 =>
      simp only [hs] at h
      obtain ⟨x, hx, hl, hsp⟩ := (Step.of_step hs).keeps_past hg hp
      obtain ⟨y, hy, hl2, hsp2⟩ := ih h hx hl.2.2.2
      exact ⟨y, hy, ⟨hl2.1.trans hl.1, hl2.2.1.trans hl.2.1, hl2.2.2.1.trans hl.2.2.1,
        hl2.2.2.2⟩, hsp2.trans hsp⟩

/-- In a run, a frame whose fetch succeeded and that has returned has received one signal
for each of its links and has spawned a goroutine for each of them. -/
theorem Config.Inv.returned_spawned_all {fetch : Fetcher} {seed : String} {d : Int}
    {cache0 : URLCache} {c : Config} (hI : c.Inv fetch seed d cache0) {g : Nat} {f : Frame}
    (hg : c.gs[g]? = some f) (he : f.err = none) (hd : 0 < f.depth)
    (hpc : f.pc = .returned ∨ f.pc = .finished) :
    f.k = f.awaited ∧ spawnedBy c.gs g = f.awaited := by
  have hl := hI.loc g f hg
  have hc := hI.count g f hg
  have h1 := hl.past (Or.inr hpc) he hd
  have h2 := hl.ret hpc
  have h3 := hl.sig_le
  have h4 := hc.kids
  have h5 := hc.sigs
  have h6 := joinedBy_le_spawnedBy c.gs g
  unfold Frame.awaited
  omega

/-- C12 (join count), evaluated on scenario 1 and in general.  After `scenario1Run` the
frame of `B`, whose fetch succeeded with the one link `A`, waits at line 65 for 1 signal
and has spawned 0 goroutines, `A` having been found in the cache; nothing is enabled.  In
every run, a frame whose fetch succeeded and that is past the loop of lines 51-62 awaits one
signal for each of its links, whatever it spawned; it returns only after that many
signals, which only a frame that spawned a goroutine for every link gets; one that
spawned fewer stays at line 65 in every continuation of the run. -/
theorem Crawl_join_count :
    (∀ lv : LoopVar, ∃ (c : Config) (f : Frame),
      run lv scenario1.Fetch scenario1Run (Config.init .empty "A" 2) = some c ∧
      c.gs[1]? = some f ∧ f.url = "B" ∧ f.err = none ∧ f.urls = ["A"] ∧ f.pc = .wait ∧
      f.awaited = 1 ∧ f.k = 0 ∧ spawnedBy c.gs 1 = 0 ∧
      ∀ a : Action, step lv scenario1.Fetch a c = none) ∧
    (∀ (lv : LoopVar) (fetch : Fetcher) (cache : URLCache) (seed : String) (d : Int)
      (c : Config), Reachable lv fetch cache seed d c →
      ∀ (g : Nat) (f : Frame), c.gs[g]? = some f → f.err = none → 0 < f.depth →
        f.pc.pastLoop →
        f.i = f.urls.length ∧ f.k ≤ spawnedBy c.gs g ∧ spawnedBy c.gs g ≤ f.awaited ∧
        (f.pc = .returned ∨ f.pc = .finished →
          f.k = f.awaited ∧ spawnedBy c.gs g = f.awaited) ∧
        (spawnedBy c.gs g < f.awaited →
          ∀ (sched : List Action) (c1 : Config), run lv fetch sched c = some c1 →
            ∃ x : Frame, c1.gs[g]? = some x ∧ x.pc = .wait)) := by
  constructor
  · intro lv
    cases lv
    · exact ⟨_, _, rfl, rfl, by decide, by decide, by decide, by decide, by decide, by decide,
        by decide, Config.stuck_sound (by decide)⟩
    · exact ⟨_, _, rfl, rfl, by decide, by decide, by decide, by decide, by decide, by decide,
        by decide, Config.stuck_sound (by decide)⟩
  · intro lv fetch cache seed d c hr g f hg he hd hp
    have hI := Reachable.invariant hr
    have hl := hI.loc g f hg
    have hc := hI.count g f hg
    have h1 := hl.past hp he hd
    have h4 := hc.kids
    have h5 := hc.sigs
    have h6 := joinedBy_le_spawnedBy c.gs g
    refine ⟨h1, by omega, by unfold Frame.awaited; omega,
      fun hpc => hI.returned_spawned_all hg he hd hpc, ?_⟩
    intro hlt sched c1 hr1
    obtain ⟨x, hx, hlx, hsp⟩ := run_keeps_past sched hr1 hg hp
    refine ⟨x, hx, ?_⟩
    rcases hlx.2.2.2 with h | h
    · exact h
    · exfalso
      have hI1 := Reachable.invariant (hr.extend sched hr1)
      have := (hI1.returned_spawned_all hx (by rw [hlx.2.1]; exact he)
        (by rw [hlx.2.2.1]; exact hd) h).2
      unfold Frame.awaited at this hlt
      rw [hlx.1] at this
      omega

theorem Frame.Started.keep {lv : LoopVar} {fetch : Fetcher} {seed : String} {d : Int}
    {gs : List Frame} {g : Nat} {f : Frame}
    (hL : ∀ (j : Nat) (x : Frame), gs[j]? = some x → x.Linked fetch seed d gs j)
    (hI : ∀ (j : Nat) (x : Frame), gs[j]? = some x → x.Started lv gs)
    (hg : gs[g]? = some f) (f1 : Frame) (hpar : f1.parent = f.parent)
    (hkids : (f1.urls = f.urls ∧ f1.depth = f.depth) ∨ f.i = 0)
    (hself : ∀ p : Nat, f1.parent = some p → f1.pc ≠ .spawned →
      ∃ pf : Frame, gs[p]? = some pf ∧ f1.depth = pf.depth - 1 ∧
        ∃ j : Nat, f1.own ≤ j ∧ pf.urls[j]? = some f1.url ∧ (lv = .perIteration → j = f1.own)) :
    ∀ (j : Nat) (x : Frame), (gs.set g f1)[j]? = some x → x.Started lv (gs.set g f1) := by
  intro j x hx p hp hs
  have hlen : g < gs.length := (List.getElem?_eq_some.1 hg).1
  rcases getElem?_set_cases hx with ⟨rfl, rfl⟩ | ⟨hne, h1⟩
  · obtain ⟨pf, hpf, h2⟩ := hself p hp hs
    have hlt := ((hL _ _ hg).par p (by rw [← hpar]; exact hp)).1
    exact ⟨pf, by rw [List.getElem?_set_ne (by omega)]; exact hpf, h2⟩
  · obtain ⟨pf, hpf, hd, k, hk1, hk2, hk3⟩ := hI _ _ h1 p hp hs
    by_cases hpg : p = g
    · subst hpg
      rw [hg] at hpf
      cases hpf
      obtain ⟨-, pf2, hpf2, ho⟩ := (hL _ _ h1).par p hp
      rw [hg] at hpf2
      cases hpf2
      rcases hkids with ⟨hu, hdd⟩ | h0
      · exact ⟨f1, List.getElem?_set_self hlen, by rw [hdd]; exact hd, k, hk1,
          by rw [hu]; exact hk2, hk3⟩
      · omega
    · exact ⟨pf, by rw [List.getElem?_set_ne (fun e => hpg e.symm)]; exact hpf, hd, k, hk1,
        hk2, hk3⟩

theorem Frame.Started.append_child {lv : LoopVar} {gs : List Frame} {ch : Frame}
    (hI : ∀ (j : Nat) (x : Frame), gs[j]? = some x → x.Started lv gs)
    (hpc : ch.pc = .spawned) :
    ∀ (j : Nat) (x : Frame), (gs ++ [ch])[j]? = some x → x.Started lv (gs ++ [ch]) := by
  intro j x hx p hp hs
  rcases getElem?_concat_cases hx with h1 | ⟨-, rfl⟩
  · obtain ⟨pf, hpf, h2⟩ := hI _ _ h1 p hp hs
    exact ⟨pf, by rw [List.getElem?_append_left (List.getElem?_eq_some.1 hpf).1]; exact hpf, h2⟩
  · exact absurd hpc hs

theorem Step.keeps_started {lv : LoopVar} {fetch : Fetcher} {seed : String} {d : Int}
    {c c1 : Config} (h : Step lv fetch c c1)
    (hF : ∀ (g : Nat) (f : Frame), c.gs[g]? = some f → f.Local fetch)
    (hL : ∀ (g : Nat) (f : Frame), c.gs[g]? = some f → f.Linked fetch seed d c.gs g)
    (hI : ∀ (g : Nat) (f : Frame), c.gs[g]? = some f → f.Started lv c.gs) :
    ∀ (g : Nat) (f : Frame), c1.gs[g]? = some f → f.Started lv c1.gs := by
  cases h with
  | start hg hpc hp hpf hu =>
    rename_i g p f pf u
    have hfr := ((hF _ _ hg).fresh (Or.inl hpc)).1
    refine Frame.Started.keep hL hI hg
      { f with pc := .entry, url := u, depth := pf.depth - 1 } rfl (Or.inr hfr) ?_
    intro q hq _
    have hqp : q = p := by
      have : f.parent = some q := hq
      rw [hp] at this
      exact (Option.some.inj this).symm
    subst hqp
    obtain ⟨-, pf2, hpf2, ho⟩ := (hL _ _ hg).par q hp
    rw [hpf] at hpf2
    cases hpf2
    refine ⟨pf, hpf, rfl, loopVarIndex lv pf f, ?_, hu, ?_⟩
    · cases lv
      · simp only [loopVarIndex]
        split <;> omega
      · simp [loopVarIndex]
    · intro hlv
      subst hlv
      rfl
  | exhausted hg hpc hd =>
    exact Frame.Started.keep hL hI hg _ rfl (Or.inl ⟨rfl, rfl⟩)
      (fun p hp _ => hI _ _ hg p hp (by simp [hpc]))
  | fetchErr hg hpc hd he =>
    exact Frame.Started.keep hL hI hg _ rfl (Or.inr ((hF _ _ hg).fresh (Or.inr hpc)).1)
      (fun p hp _ => hI _ _ hg p hp (by simp [hpc]))
  | fetchOk hg hpc hd he =>
    exact Frame.Started.keep hL hI hg _ rfl (Or.inr ((hF _ _ hg).fresh (Or.inr hpc)).1)
      (fun p hp _ => hI _ _ hg p hp (by simp [hpc]))
  | hit hg hpc hc =>
    exact Frame.Started.keep hL hI hg _ rfl (Or.inl ⟨rfl, rfl⟩)
      (fun p hp _ => hI _ _ hg p hp (by simp [hpc]))
  | miss hg hpc hc =>
    exact Frame.Started.keep hL hI hg _ rfl (Or.inl ⟨rfl, rfl⟩)
      (fun p hp _ => hI _ _ hg p hp (by simp [hpc]))
  | put hg hpc =>
    exact Frame.Started.keep hL hI hg _ rfl (Or.inl ⟨rfl, rfl⟩)
      (fun p hp _ => hI _ _ hg p hp (by simp [hpc]))
  | next hg hpc hi =>
    exact Frame.Started.keep hL hI hg _ rfl (Or.inl ⟨rfl, rfl⟩)
      (fun p hp _ => hI _ _ hg p hp (by simp [hpc]))
  | exit hg hpc hi =>
    exact Frame.Started.keep hL hI hg _ rfl (Or.inl ⟨rfl, rfl⟩)
      (fun p hp _ => hI _ _ hg p hp (by simp [hpc]))
  | skip hg hpc hu hc =>
    exact Frame.Started.keep hL hI hg _ rfl (Or.inl ⟨rfl, rfl⟩)
      (fun p hp _ => hI _ _ hg p hp (by simp [hpc]))
  | ret hg hpc hk =>
    exact Frame.Started.keep hL hI hg _ rfl (Or.inl ⟨rfl, rfl⟩)
      (fun p hp _ => hI _ _ hg p hp (by simp [hpc]))
  | spawn hg hpc hu hc =>
    rename_i g f u
    exact Frame.Started.append_child
      (Frame.Started.keep hL hI hg { f with pc := .loop, i := f.i + 1 } rfl
        (Or.inl ⟨rfl, rfl⟩) (fun p hp _ => hI _ _ hg p hp (by simp [hpc]))) rfl
  | recv hp hch hpc hk hcpc hpar =>
    rename_i p ch pf cf
    have hne : p ≠ ch := by
      have := ((hL _ _ hch).par p hpar).1
      omega
    have hch1 : (c.gs.set p { pf with k := pf.k + 1 })[ch]? = some cf := by
      rw [List.getElem?_set_ne hne]
      exact hch
    have hL1 := Frame.Linked.update hL hp { pf with k := pf.k + 1 } rfl rfl (Nat.le_refl _)
      (fun _ => (hL _ _ hp).chain (by simp [hpc]))
    have hI1 := Frame.Started.keep hL hI hp { pf with k := pf.k + 1 } rfl
      (Or.inl ⟨rfl, rfl⟩) (fun q hq _ => hI _ _ hp q hq (by simp [hpc]))
    exact Frame.Started.keep hL1 hI1 hch1 { cf with pc := .finished } rfl
      (Or.inl ⟨rfl, rfl⟩) (fun q hq _ => hI1 _ _ hch1 q hq (by simp [hcpc]))

theorem run_started {lv : LoopVar} {fetch : Fetcher} {seed : String} {d : Int}
    {cache0 : URLCache} (sched : List Action) :
    ∀ {c c1 : Config}, run lv fetch sched c = some c1 → c.Inv fetch seed d cache0 →
      (∀ (g : Nat) (f : Frame), c.gs[g]? = some f → f.Started lv c.gs) →
      ∀ (g : Nat) (f : Frame), c1.gs[g]? = some f → f.Started lv c1.gs := by
  induction sched with
  | nil =>
    intro c c1 h _ hS
    simp only [run, Option.some.injEq] at h
    subst h
    exact hS
  | cons a as ih =>
    intro c c1 h hI hS
    simp only [run] at h
    cases hs : step lv fetch a c with
    | none => simp [hs] at h
    | some c2 =>
      simp only [hs] at h
      exact ih h ((Step.of_step hs).keeps_inv hI)
        ((Step.of_step hs).keeps_started hI.loc hI.link hS)

theorem Reachable.started {lv : LoopVar} {fetch : Fetcher} {cache : URLCache} {seed : String}
    {d : Int} {c : Config} (h : Reachable lv fetch cache seed d c) :
    ∀ (g : Nat) (f : Frame), c.gs[g]? = some f → f.Started lv c.gs := by
  obtain ⟨sched, hs⟩ := h
  refine run_started sched hs (Config.Inv.at_init fetch seed d cache) ?_
  intro g f hg p hp _
  cases g with
  | zero =>
    simp only [Config.init, List.getElem?_cons_zero, Option.some.injEq] at hg
    subst hg
    simp [Frame.main] at hp
  | succ g => simp [Config.init] at hg

/-- C13 (spawn rule), evaluated on scenario 1 and in general.  With one `u` for the whole
loop, in the run `lateStartRun` the goroutine spawned when `main` examined its link `B`
enters `Crawl("C", 1, fetch)`: `C` is fetched twice and `B` never.  In every state, for
either reading: the step of line 53 on the link `u` at position `i` moves on to position
`i + 1`, spawning nothing when `Get(u)` finds `u` and exactly one goroutine, which records
`i`, when it does not.  In every run a goroutine was spawned at a position its parent has
examined, and once it has entered `Crawl` its depth is that of its parent less one and its
url is the link of its parent at that position or a later one: at that very position when
each iteration has its own `u`. -/
theorem Crawl_spawn_rule :
    (∃ (c : Config) (pf f : Frame),
      run .shared scenario1.Fetch lateStartRun (Config.init .empty "A" 2) = some c ∧
      c.gs[0]? = some pf ∧ c.gs[1]? = some f ∧ f.parent = some 0 ∧ f.own = 0 ∧
      pf.urls[f.own]? = some "B" ∧ f.url = "C" ∧ f.depth = 1 ∧
      Event.crawl 1 "C" 1 ∈ c.trace ∧ fetched c.trace = ["A", "C", "C"]) ∧
    (∀ (lv : LoopVar) (fetch : Fetcher) (c : Config) (g : Nat) (f : Frame) (u : String),
      c.gs[g]? = some f → f.pc = .check → f.urls[f.i]? = some u →
      ((c.cache.Get u).2 = true →
        step lv fetch (.run g) c =
          some { c with gs := c.gs.set g { f with pc := .loop, i := f.i + 1 } }) ∧
      ((c.cache.Get u).2 = false →
        step lv fetch (.run g) c =
          some { c with gs := c.gs.set g { f with pc := .loop, i := f.i + 1 }
                                ++ [Frame.child g f.i] })) ∧
    (∀ (lv : LoopVar) (fetch : Fetcher) (cache : URLCache) (seed : String) (d : Int)
      (c : Config), Reachable lv fetch cache seed d c →
      ∀ (g p : Nat) (f : Frame), c.gs[g]? = some f → f.parent = some p →
        ∃ pf : Frame, c.gs[p]? = some pf ∧ f.own < pf.i ∧
          (f.pc ≠ .spawned →
            f.depth = pf.depth - 1 ∧
            (∃ j : Nat, f.own ≤ j ∧ pf.urls[j]? = some f.url) ∧
            (lv = .perIteration → pf.urls[f.own]? = some f.url))) := by
  refine ⟨⟨_, _, _, rfl, rfl, rfl, by decide, by decide, by decide, by decide, by decide,
    by decide, by decide⟩, ?_, ?_⟩
  · intro lv fetch c g f u hg hpc hu
    exact ⟨fun h => step_check_skip lv fetch hg hpc hu h,
      fun h => step_check_spawn lv fetch hg hpc hu h⟩
  · intro lv fetch cache seed d c hr g p f hg hp
    obtain ⟨-, pf, hpf, ho⟩ := ((Reachable.invariant hr).link g f hg).par p hp
    refine ⟨pf, hpf, ho, ?_⟩
    intro hs
    obtain ⟨pf2, hpf2, hd, j, hj1, hj2, hj3⟩ := hr.started g f hg p hp hs
    rw [hpf] at hpf2
    cases hpf2
    refine ⟨hd, ⟨j, hj1, hj2⟩, ?_⟩
    intro hlv
    rw [← hj3 hlv]
    exact hj2

/-- The mutex of `cache` itself is never locked, and no call finds the mutex of its
receiver locked when it gets to `Lock`. -/
theorem stepCall_keeps_unlocked {j : Nat} {s s1 : Shared} (h : stepCall j s = some s1)
    (hm : s.mtx = false) (hc : ∀ cl ∈ s.calls, cl.pc = .called ∨ cl.pc = .lock → cl.mtx = false) :
    s1.mtx = false ∧ ∀ cl ∈ s1.calls, cl.pc = .called ∨ cl.pc = .lock → cl.mtx = false := by
  unfold stepCall at h
  cases hj : s.calls[j]? with
  | none => simp [hj] at h
  | some cl0 =>
    simp only [hj] at h
    have key : ∀ (s2 : Shared) (x : Call), s2.mtx = s.mtx → s2.calls = s.calls.set j x →
        (x.pc = .called ∨ x.pc = .lock → x.mtx = false) →
        s2.mtx = false ∧ ∀ cl ∈ s2.calls, cl.pc = .called ∨ cl.pc = .lock → cl.mtx = false := by
      intro s2 x h1 h2 h3
      refine ⟨by rw [h1]; exact hm, ?_⟩
      intro cl hcl hpc
      rw [h2] at hcl
      obtain ⟨i, hi⟩ := List.mem_iff_getElem?.1 hcl
      rcases getElem?_set_cases hi with ⟨-, rfl⟩ | ⟨-, h4⟩
      · exact h3 hpc
      · exact hc cl (List.getElem?_mem h4) hpc
    cases hpc : cl0.pc with
    | called =>
      simp only [hpc, Option.some.injEq] at h
      subst h
      exact key _ _ rfl rfl (fun _ => hm)
    | lock =>
      simp only [hpc] at h
      split at h
      · simp at h
      · simp only [Option.some.injEq] at h
        subst h
        exact key _ _ rfl rfl (fun hh => by simp at hh)
    | lookup =>
      simp only [hpc] at h
      cases hop : cl0.op with
      | add url body =>
        simp only [hop] at h
        split at h
        · simp only [Option.some.injEq] at h
          subst h
          exact key _ _ rfl rfl (fun hh => by simp at hh)
        · simp only [Option.some.injEq] at h
          subst h
          exact key _ _ rfl rfl (fun hh => by simp at hh)
      | get url =>
        simp only [hop, Option.some.injEq] at h
        subst h
        exact key _ _ rfl rfl (fun hh => by simp at hh)
    | assign =>
      simp only [hpc] at h
      cases hop : cl0.op with
      | add url body =>
        simp only [hop, Option.some.injEq] at h
        subst h
        exact key _ _ rfl rfl (fun hh => by simp at hh)
      | get url => simp [hop] at h
    | unlock =>
      simp only [hpc, Option.some.injEq] at h
      subst h
      exact key _ _ rfl rfl (fun hh => by simp at hh)
    | returned => simp [hpc] at h

theorem runCalls_keeps_unlocked (sched : List Nat) :
    ∀ {s s1 : Shared}, runCalls sched s = some s1 → s.mtx = false →
      (∀ cl ∈ s.calls, cl.pc = .called ∨ cl.pc = .lock → cl.mtx = false) →
      s1.mtx = false ∧ ∀ cl ∈ s1.calls, cl.pc = .called ∨ cl.pc = .lock → cl.mtx = false := by
  induction sched with
  | nil =>
    intro s s1 h hm hc
    simp only [runCalls, Option.some.injEq] at h
    subst h
    exact ⟨hm, hc⟩
  | cons j js ih =>
    intro s s1 h hm hc
    simp only [runCalls] at h
    cases hs : stepCall j s with
    | none => simp [hs] at h
    | some s2 =>
      simp only [hs] at h
      obtain ⟨h1, h2⟩ := stepCall_keeps_unlocked hs hm hc
      exact ih h h1 h2

/-- A call of `Add` that runs alone does what `URLCache.Add` says. -/
theorem runCalls_Add_alone (urls : URLCache) (url body : String) :
    ∃ s : Shared, (runCalls [0, 0, 0, 0] (Shared.init urls [.add url body]) = some s ∨
        runCalls [0, 0, 0, 0, 0] (Shared.init urls [.add url body]) = some s) ∧
      s.urls = (urls.Add url body).1 ∧
      (s.calls.map fun cl => (cl.pc, cl.out)) = [(.returned, ("", (urls.Add url body).2))] := by
  rw [URLCache.Add_eq_has_put]
  cases h : urls.has url
  · exact ⟨_, Or.inr (by simp [runCalls, stepCall, Shared.init, h]; rfl), by simp, by simp⟩
  · exact ⟨_, Or.inl (by simp [runCalls, stepCall, Shared.init, h]; rfl), by simp, by simp⟩

/-- C11 (atomic test-and-set under concurrency), evaluated on two concurrent callers of
`Add("a", _)` on the empty cache and in general.  Each call locks the mutex of its own
receiver: after three steps each, both calls hold a locked mutex and are at line 23 at the
same time, the mutex of `cache` being unlocked; after five steps each, both have returned
true for `a`, and the map holds the content of the second.  In every run of calls on
`cache`, its mutex is never locked and a call at `Lock` can always go on.  In `Crawl`, the
run `diamondRace` of the diamond returns to `main` with two calls of `Add("D", _)`, by
goroutines 3 and 4, having returned true. -/
theorem URLCache_Add_not_exclusive :
    (∃ s : Shared,
      runCalls [0, 1, 0, 1, 0, 1] (Shared.init .empty [.add "a" "x", .add "a" "y"]) = some s ∧
      s.mtx = false ∧
      (s.calls.map fun cl => (cl.inBody, cl.mtx, cl.pc))
        = [(true, true, .assign), (true, true, .assign)]) ∧
    (∃ s : Shared,
      runCalls [0, 1, 0, 1, 0, 1, 0, 1, 0, 1] (Shared.init .empty [.add "a" "x", .add "a" "y"])
        = some s ∧
      (s.calls.map fun cl => (cl.op, cl.pc, cl.out))
        = [(.add "a" "x", .returned, ("", true)), (.add "a" "y", .returned, ("", true))] ∧
      s.urls.Get "a" = ("y", true)) ∧
    (∀ (urls : URLCache) (ops : List CacheOp) (sched : List Nat) (s : Shared),
      runCalls sched (Shared.init urls ops) = some s →
      s.mtx = false ∧
      ∀ (j : Nat) (cl : Call), s.calls[j]? = some cl → cl.pc = .lock →
        cl.mtx = false ∧
        stepCall j s = some { s with calls := s.calls.set j { cl with pc := .lookup, mtx := true } }) ∧
    (∀ lv : LoopVar, ∃ c : Config,
      run lv diamond.Fetch diamondRace (Config.init .empty "A" 3) = some c ∧ c.done = true ∧
      Event.add 3 "D" "d" true ∈ c.trace ∧ Event.add 4 "D" "d" true ∈ c.trace ∧
      (added c.trace).count "D" = 2) := by
  refine ⟨⟨_, rfl, by decide, by decide⟩, ⟨_, rfl, by decide, by decide⟩, ?_, ?_⟩
  · intro urls ops sched s hr
    have h0 : ∀ cl ∈ (Shared.init urls ops).calls, cl.pc = .called ∨ cl.pc = .lock →
        cl.mtx = false := by
      intro cl hcl _
      simp only [Shared.init, List.mem_map] at hcl
      obtain ⟨op, -, rfl⟩ := hcl
      rfl
    obtain ⟨h1, h2⟩ := runCalls_keeps_unlocked sched hr rfl h0
    refine ⟨h1, ?_⟩
    intro j cl hj hpc
    have hm := h2 cl (List.getElem?_mem hj) (Or.inr hpc)
    exact ⟨hm, by simp [stepCall, hj, hpc, hm]⟩
  · intro lv
    cases lv
    · exact ⟨_, rfl, by decide, by decide, by decide, by decide⟩
    · exact ⟨_, rfl, by decide, by decide, by decide, by decide⟩

theorem Frame.Grown.same (f : Frame) : f.Grown f :=
  ⟨rfl, rfl, Nat.le_refl _, fun h => ⟨h, rfl, rfl⟩, fun _ h => ⟨h, rfl, rfl, rfl⟩⟩

theorem Frame.Grown.later {f f1 f2 : Frame} (h1 : f.Grown f1) (h2 : f1.Grown f2) :
    f.Grown f2 := by
  obtain ⟨a1, b1, c1, d1, e1⟩ := h1
  obtain ⟨a2, b2, c2, d2, e2⟩ := h2
  refine ⟨a2.trans a1, b2.trans b1, Nat.le_trans c1 c2, ?_, ?_⟩
  · intro h
    obtain ⟨x1, x2, x3⟩ := d1 h
    obtain ⟨y1, y2, y3⟩ := d2 x1
    exact ⟨y1, y2.trans x2, y3.trans x3⟩
  · intro h h0
    obtain ⟨x1, -, -⟩ := d1 h
    obtain ⟨z1, z2, z3, z4⟩ := e1 h h0
    obtain ⟨w1, w2, w3, w4⟩ := e2 x1 z1
    exact ⟨w1, w2.trans z2, w3.trans z3, w4.trans z4⟩

theorem Frame.Grown.after_update {gs : List Frame} {j g : Nat} {fj f : Frame}
    (hj : gs[j]? = some fj) (hg : gs[g]? = some f) (f1 : Frame) (h : fj.Grown f1) :
    ∃ x : Frame, (gs.set j f1)[g]? = some x ∧ f.Grown x := by
  have hlt : j < gs.length := (List.getElem?_eq_some.1 hj).1
  by_cases hjg : j = g
  · subst hjg
    rw [hj] at hg
    cases hg
    exact ⟨f1, List.getElem?_set_self hlt, h⟩
  · exact ⟨f, by rw [List.getElem?_set_ne hjg]; exact hg, Frame.Grown.same f⟩

/-- A goroutine stays through every step, with the call it has entered. -/
theorem Step.keeps_frame {lv : LoopVar} {fetch : Fetcher} {c c1 : Config}
    (h : Step lv fetch c c1) {g : Nat} {f : Frame} (hg : c.gs[g]? = some f) :
    ∃ x : Frame, c1.gs[g]? = some x ∧ f.Grown x := by
  cases h with
  | start hj hpc _ _ _ =>
    exact Frame.Grown.after_update hj hg _ (by simp [Frame.Grown, hpc])
  | exhausted hj hpc _ =>
    exact Frame.Grown.after_update hj hg _ (by simp [Frame.Grown, hpc])
  | fetchErr hj hpc _ _ =>
    exact Frame.Grown.after_update hj hg _ (by simp [Frame.Grown, hpc])
  | fetchOk hj hpc _ _ =>
    exact Frame.Grown.after_update hj hg _ (by simp [Frame.Grown, hpc])
  | hit hj hpc _ =>
    exact Frame.Grown.after_update hj hg _ (by simp [Frame.Grown, hpc])
  | miss hj hpc _ =>
    exact Frame.Grown.after_update hj hg _ (by simp [Frame.Grown, hpc])
  | put hj hpc =>
    exact Frame.Grown.after_update hj hg _ (by simp [Frame.Grown, hpc])
  | next hj hpc _ =>
    exact Frame.Grown.after_update hj hg _ (by simp [Frame.Grown, hpc])
  | exit hj hpc _ =>
    exact Frame.Grown.after_update hj hg _ (by simp [Frame.Grown, hpc])
  | skip hj hpc _ _ =>
    exact Frame.Grown.after_update hj hg _ (by simp [Frame.Grown, hpc])
  | ret hj hpc _ =>
    exact Frame.Grown.after_update hj hg _ (by simp [Frame.Grown, hpc])
  | spawn hj hpc hu hc =>
    rename_i j fj u
    obtain ⟨x, hx, hl⟩ := Frame.Grown.after_update hj hg
      { fj with pc := .loop, i := fj.i + 1 } (by simp [Frame.Grown, hpc])
    refine ⟨x, ?_, hl⟩
    show (c.gs.set j { fj with pc := .loop, i := fj.i + 1 } ++ [Frame.child j fj.i])[g]? = some x
    rw [List.getElem?_append_left (List.getElem?_eq_some.1 hx).1]
    exact hx
  | recv hq hch hpc hk hcpc hpar =>
    rename_i q ch qf cf
    have hne : q ≠ ch := by
      rintro rfl
      rw [hq] at hch
      cases hch
      rw [hpc] at hcpc
      cases hcpc
    obtain ⟨x, hx, hl⟩ := Frame.Grown.after_update hq hg { qf with k := qf.k + 1 }
      (by simp [Frame.Grown, hpc])
    have hch1 : (c.gs.set q { qf with k := qf.k + 1 })[ch]? = some cf := by
      rw [List.getElem?_set_ne hne]
      exact hch
    obtain ⟨y, hy, hl2⟩ := Frame.Grown.after_update hch1 hx { cf with pc := .finished }
      (by simp [Frame.Grown, hcpc])
    exact ⟨y, hy, hl.later hl2⟩

theorem run_keeps_frame {lv : LoopVar} {fetch : Fetcher} {g : Nat} (sched : List Action) :
    ∀ {c c1 : Config} {f : Frame}, run lv fetch sched c = some c1 → c.gs[g]? = some f →
      ∃ x : Frame, c1.gs[g]? = some x ∧ f.Grown x := by
  induction sched with
  | nil =>
    intro c c1 f h hg
    simp only [run, Option.some.injEq] at h
    subst h
    exact ⟨f, hg, Frame.Grown.same f⟩
  | cons a as ih =>
    intro c c1 f h hg
    simp only [run] at h
    cases hs : step lv fetch a c with
    | none => simp [hs] at h
    | some c2 =>
      simp only [hs] at h
      obtain ⟨x, hx, hl⟩ := (Step.of_step hs).keeps_frame hg
      obtain ⟨y, hy, hl2⟩ := ih h hx
      exact ⟨y, hy, hl.later hl2⟩

/-- In a run, a goroutine that is not at line 65, has not returned and, when it has not
entered `Crawl` yet, has a parent, can execute its next statement. -/
theorem Config.Inv.can_run {fetch : Fetcher} {seed : String} {d : Int} {cache0 : URLCache}
    {c : Config} (hI : c.Inv fetch seed d cache0) (lv : LoopVar) {g : Nat} {f : Frame}
    (hg : c.gs[g]? = some f) (hw : f.pc ≠ .wait) (hr : f.pc ≠ .returned)
    (hf : f.pc ≠ .finished) (hp : f.pc = .spawned → f.parent ≠ none) :
    ∃ c1 : Config, step lv fetch (.run g) c = some c1 := by
  have hl := hI.loc g f hg
  cases hpc : f.pc with
  | spawned =>
    cases hpar : f.parent with
    | none => exact absurd hpar (hp hpc)
    | some p =>
      obtain ⟨-, pf, hpf, ho⟩ := (hI.link g f hg).par p hpar
      have hpl := hI.loc p pf hpf
      have hidx : loopVarIndex lv pf f < pf.urls.length := by
        have h1 := hpl.idx_le
        cases lv
        · simp only [loopVarIndex]
          split
          · rename_i hc
            exact hpl.check_lt hc
          · omega
        · simp only [loopVarIndex]
          omega
      exact ⟨_, step_start lv fetch hg hpc hpar hpf (List.getElem?_eq_getElem hidx)⟩
  | entry =>
    by_cases hd : f.depth ≤ 0
    · exact ⟨_, step_entry_exhausted lv fetch hg hpc hd⟩
    · obtain ⟨c1, h1, -⟩ := step_entry_fetch lv fetch hg hpc (by omega)
      exact ⟨c1, h1⟩
  | fetched =>
    cases hh : c.cache.has f.url
    · exact ⟨_, by simp [step, hg, Crawl, hpc, hh]; rfl⟩
    · exact ⟨_, by simp [step, hg, Crawl, hpc, hh]; rfl⟩
  | store => exact ⟨_, by simp [step, hg, Crawl, hpc]; rfl⟩
  | loop =>
    by_cases hi : f.i < f.urls.length
    · exact ⟨_, by simp [step, hg, Crawl, hpc, hi]; rfl⟩
    · exact ⟨_, by simp [step, hg, Crawl, hpc, hi]; rfl⟩
  | check =>
    have hi := hl.check_lt hpc
    cases hc : (c.cache.Get f.urls[f.i]).2
    · exact ⟨_, step_check_spawn lv fetch hg hpc (List.getElem?_eq_getElem hi) hc⟩
    · exact ⟨_, step_check_skip lv fetch hg hpc (List.getElem?_eq_getElem hi) hc⟩
  | wait => exact absurd hpc hw
  | returned => exact absurd hpc hr
  | finished => exact absurd hpc hf

theorem Config.Traced.at_first (fetch : Fetcher) (cache : URLCache) (seed : String) (d : Int) :
    (Config.init cache seed d).Traced fetch seed := by
  refine ⟨?_, ?_, ?_, ?_, ?_, ⟨Frame.main seed d, rfl, rfl, by simp [Frame.main]⟩⟩
  · intro g u h
    simp [Config.init] at h
  · intro g u
    simp [Config.init]
  · intro g f hg h1 h2
    cases g with
    | zero =>
      simp only [Config.init, List.getElem?_cons_zero, Option.some.injEq] at hg
      subst hg
      simp [Frame.main] at h2
    | succ g => simp [Config.init] at hg
  · intro g f hg h1 h2
    cases g with
    | zero =>
      simp only [Config.init, List.getElem?_cons_zero, Option.some.injEq] at hg
      subst hg
      simp [Frame.main] at h2
    | succ g => simp [Config.init] at hg
  · intro g f hg h1
    cases g with
    | zero =>
      simp only [Config.init, List.getElem?_cons_zero, Option.some.injEq] at hg
      subst hg
      simp [Frame.main] at h1
    | succ g => simp [Config.init] at hg

/-- The frame of goroutine `g` goes from `f` to `f1` and `evs` is logged. -/
theorem Config.Traced.set_one {fetch : Fetcher} {seed : String} {c : Config}
    (hT : c.Traced fetch seed) {g : Nat} {f : Frame} (hg : c.gs[g]? = some f)
    (c1 : Config) (f1 : Frame) (evs : List Event)
    (hgs : c1.gs = c.gs.set g f1) (htr : c1.trace = c.trace ++ evs)
    (hpc1 : f1.pc ≠ .spawned)
    (hstart : f.pc = .spawned → f1.pc = .entry)
    (hcall : f.pc ≠ .spawned → f1.url = f.url ∧ f1.depth = f.depth)
    (hres : f.pc ≠ .spawned → f.pc ≠ .entry →
      f1.pc ≠ .entry ∧ f1.urls = f.urls ∧ f1.err = f.err)
    (hev : ∀ (j : Nat) (u : String), Event.fetch j u ∈ evs →
      j = g ∧ u = f1.url ∧ f.pc = .entry ∧ f1.pc ≠ .entry ∧ 0 < f1.depth ∧
        evs.count (Event.fetch j u) = 1)
    (hlog : f.pc = .entry → f1.pc ≠ .entry →
      Event.crawl g f1.url f1.depth ∈ evs ∧
      (0 < f1.depth → Event.fetch g f1.url ∈ evs ∧
        f1.err = (fetch f1.url).err ∧ f1.urls = (fetch f1.url).urls))
    (hearly : f1.pc = .fetched ∨ f1.pc = .store → f1.i = 0) :
    c1.Traced fetch seed := by
  have hlt : g < c.gs.length := (List.getElem?_eq_some.1 hg).1
  have hself : c1.gs[g]? = some f1 := by rw [hgs]; exact List.getElem?_set_self hlt
  have hother : ∀ j : Nat, j ≠ g → c1.gs[j]? = c.gs[j]? := by
    intro j hj
    rw [hgs, List.getElem?_set_ne (fun e => hj e.symm)]
  have hframes : ∀ (j : Nat) (x : Frame), c1.gs[j]? = some x →
      (j = g ∧ x = f1) ∨ (j ≠ g ∧ c.gs[j]? = some x) := by
    intro j x hx
    rw [hgs] at hx
    exact getElem?_set_cases hx
  refine ⟨?_, ?_, ?_, ?_, ?_, ?_⟩
  · intro j u hm
    rw [htr, List.mem_append] at hm
    rcases hm with hm | hm
    · obtain ⟨x, hx, hu, h1, h2, h3⟩ := hT.by_frame j u hm
      by_cases hjg : j = g
      · subst hjg
        rw [hg] at hx
        cases hx
        obtain ⟨a1, a2⟩ := hcall h1
        obtain ⟨b1, -, -⟩ := hres h1 h2
        exact ⟨f1, hself, a1.trans hu, hpc1, b1, by rw [a2]; exact h3⟩
      · exact ⟨x, by rw [hother j hjg]; exact hx, hu, h1, h2, h3⟩
    · obtain ⟨rfl, rfl, -, h2, h3, -⟩ := hev j u hm
      exact ⟨f1, hself, rfl, hpc1, h2, h3⟩
  · intro j u
    rw [htr, List.count_append]
    by_cases hm : Event.fetch j u ∈ evs
    · obtain ⟨rfl, -, h1, -, -, h2⟩ := hev j u hm
      have h0 : c.trace.count (Event.fetch j u) = 0 := by
        rw [List.count_eq_zero]
        intro hin
        obtain ⟨x, hx, -, -, h4, -⟩ := hT.by_frame j u hin
        rw [hg] at hx
        cases hx
        exact h4 h1
      omega
    · have h0 : evs.count (Event.fetch j u) = 0 := List.count_eq_zero.2 hm
      have := hT.once j u
      omega
  · intro j x hx h1 h2
    rcases hframes j x hx with ⟨rfl, rfl⟩ | ⟨-, hold⟩
    · rw [htr]
      by_cases hs : f.pc = .spawned
      · exact absurd (hstart hs) h2
      · by_cases he : f.pc = .entry
        · obtain ⟨a1, a2⟩ := hlog he h2
          exact ⟨List.mem_append_right _ a1, fun hd => List.mem_append_right _ (a2 hd).1⟩
        · obtain ⟨a1, a2⟩ := hcall hs
          obtain ⟨b1, b2⟩ := hT.logged j f hg hs he
          rw [a1, a2]
          exact ⟨List.mem_append_left _ b1, fun hd => List.mem_append_left _ (b2 hd)⟩
    · obtain ⟨b1, b2⟩ := hT.logged j x hold h1 h2
      rw [htr]
      exact ⟨List.mem_append_left _ b1, fun hd => List.mem_append_left _ (b2 hd)⟩
  · intro j x hx h1 h2 h3
    rcases hframes j x hx with ⟨rfl, rfl⟩ | ⟨-, hold⟩
    · by_cases hs : f.pc = .spawned
      · exact absurd (hstart hs) h2
      · by_cases he : f.pc = .entry
        · exact ((hlog he h2).2 h3).2
        · obtain ⟨a1, a2⟩ := hcall hs
          obtain ⟨-, c1, c2⟩ := hres hs he
          rw [c1, c2, a1]
          exact hT.kept j f hg hs he (by rw [← a2]; exact h3)
    · exact hT.kept j x hold h1 h2 h3
  · intro j x hx h1
    rcases hframes j x hx with ⟨rfl, rfl⟩ | ⟨-, hold⟩
    · exact hearly h1
    · exact hT.early j x hold h1
  · obtain ⟨m, hm, hu, hp⟩ := hT.main
    by_cases h0 : 0 = g
    · subst h0
      rw [hg] at hm
      cases hm
      exact ⟨f1, hself, (hcall hp).1.trans hu, hpc1⟩
    · exact ⟨m, by rw [hother 0 h0]; exact hm, hu, hp⟩

theorem Config.Traced.add_child {fetch : Fetcher} {seed : String} {c : Config}
    (hT : c.Traced fetch seed) (c1 : Config) (ch : Frame) (hpc : ch.pc = .spawned)
    (hgs : c1.gs = c.gs ++ [ch]) (htr : c1.trace = c.trace) : c1.Traced fetch seed := by
  have hold : ∀ (j : Nat) (x : Frame), c.gs[j]? = some x → c1.gs[j]? = some x := by
    intro j x hx
    rw [hgs, List.getElem?_append_left (List.getElem?_eq_some.1 hx).1]
    exact hx
  have hframes : ∀ (j : Nat) (x : Frame), c1.gs[j]? = some x →
      c.gs[j]? = some x ∨ x = ch := by
    intro j x hx
    rw [hgs] at hx
    rcases getElem?_concat_cases hx with h | ⟨-, h⟩
    · exact Or.inl h
    · exact Or.inr h
  refine ⟨?_, ?_, ?_, ?_, ?_, ?_⟩
  · intro j u hm
    rw [htr] at hm
    obtain ⟨x, hx, h⟩ := hT.by_frame j u hm
    exact ⟨x, hold j x hx, h⟩
  · intro j u
    rw [htr]
    exact hT.once j u
  · intro j x hx h1 h2
    rw [htr]
    rcases hframes j x hx with h | rfl
    · exact hT.logged j x h h1 h2
    · exact absurd hpc h1
  · intro j x hx h1 h2 h3
    rcases hframes j x hx with h | rfl
    · exact hT.kept j x h h1 h2 h3
    · exact absurd hpc h1
  · intro j x hx h1
    rcases hframes j x hx with h | rfl
    · exact hT.early j x h h1
    · rw [hpc] at h1
      simp at h1
  · obtain ⟨m, hm, h⟩ := hT.main
    exact ⟨m, hold 0 m hm, h⟩

theorem Step.keeps_traced {lv : LoopVar} {fetch : Fetcher} {seed : String} {c c1 : Config}
    (h : Step lv fetch c c1)
    (hF : ∀ (g : Nat) (f : Frame), c.gs[g]? = some f → f.Local fetch)
    (hT : c.Traced fetch seed) : c1.Traced fetch seed := by
  cases h with
  | start hg hpc hp hpf hu =>
    refine hT.set_one hg _ _ [] rfl (by simp) ?_ ?_ ?_ ?_ ?_ ?_ ?_ <;> simp [hpc]
  | exhausted hg hpc hd =>
    rename_i g f
    refine hT.set_one hg _ _ [.crawl g f.url f.depth] rfl rfl ?_ ?_ ?_ ?_ ?_ ?_ ?_ <;>
      simp [hpc]
    omega
  | fetchErr hg hpc hd he =>
    rename_i g f e
    refine hT.set_one hg _ _ [.crawl g f.url f.depth, .fetch g f.url] rfl rfl
      ?_ ?_ ?_ ?_ ?_ ?_ ?_ <;> simp [hpc, hd, he]
  | fetchOk hg hpc hd he =>
    rename_i g f
    have hi := ((hF _ _ hg).fresh (Or.inr hpc)).1
    refine hT.set_one hg _ _ [.crawl g f.url f.depth, .fetch g f.url] rfl rfl
      ?_ ?_ ?_ ?_ ?_ ?_ ?_ <;> simp [hpc, hd, he, hi]
  | hit hg hpc hc =>
    rename_i g f
    refine hT.set_one hg _ _ [.add g f.url f.body false] rfl rfl ?_ ?_ ?_ ?_ ?_ ?_ ?_ <;>
      simp [hpc]
  | miss hg hpc hc =>
    have hi := hT.early _ _ hg (Or.inl hpc)
    refine hT.set_one hg _ _ [] rfl (by simp) ?_ ?_ ?_ ?_ ?_ ?_ ?_ <;> simp [hpc, hi]
  | put hg hpc =>
    rename_i g f
    refine hT.set_one hg _ _ [.add g f.url f.body true] rfl rfl ?_ ?_ ?_ ?_ ?_ ?_ ?_ <;>
      simp [hpc]
  | next hg hpc hi =>
    refine hT.set_one hg _ _ [] rfl (by simp) ?_ ?_ ?_ ?_ ?_ ?_ ?_ <;> simp [hpc]
  | exit hg hpc hi =>
    refine hT.set_one hg _ _ [] rfl (by simp) ?_ ?_ ?_ ?_ ?_ ?_ ?_ <;> simp [hpc]
  | skip hg hpc hu hc =>
    refine hT.set_one hg _ _ [] rfl (by simp) ?_ ?_ ?_ ?_ ?_ ?_ ?_ <;> simp [hpc]
  | ret hg hpc hk =>
    refine hT.set_one hg _ _ [] rfl (by simp) ?_ ?_ ?_ ?_ ?_ ?_ ?_ <;> simp [hpc]
  | spawn hg hpc hu hc =>
    rename_i g f u
    let c2 : Config := { c with gs := c.gs.set g { f with pc := .loop, i := f.i + 1 } }
    have h2 : c2.Traced fetch seed := by
      refine hT.set_one hg c2 _ [] rfl (by simp [c2]) ?_ ?_ ?_ ?_ ?_ ?_ ?_ <;> simp [hpc]
    exact h2.add_child _ (Frame.child g f.i) rfl rfl rfl
  | recv hp hch hpc hk hcpc hpar =>
    rename_i p ch pf cf
    have hne : p ≠ ch := by
      rintro rfl
      rw [hp] at hch
      cases hch
      rw [hpc] at hcpc
      cases hcpc
    let c2 : Config := { c with gs := c.gs.set p { pf with k := pf.k + 1 } }
    have h2 : c2.Traced fetch seed := by
      refine hT.set_one hp c2 _ [] rfl (by simp [c2]) ?_ ?_ ?_ ?_ ?_ ?_ ?_ <;> simp [hpc]
    have hch1 : c2.gs[ch]? = some cf := by
      show (c.gs.set p { pf with k := pf.k + 1 })[ch]? = some cf
      rw [List.getElem?_set_ne hne]
      exact hch
    refine h2.set_one hch1 _ _ [] rfl (by simp [c2]) ?_ ?_ ?_ ?_ ?_ ?_ ?_ <;> simp [hcpc]

theorem run_traced {lv : LoopVar} {fetch : Fetcher} {seed : String} {d : Int}
    {cache0 : URLCache} (sched : List Action) :
    ∀ {c c1 : Config}, run lv fetch sched c = some c1 → c.Inv fetch seed d cache0 →
      c.Traced fetch seed → c1.Traced fetch seed := by
  induction sched with
  | nil =>
    intro c c1 h _ hT
    simp only [run, Option.some.injEq] at h
    subst h
    exact hT
  | cons a as ih =>
    intro c c1 h hI hT
    simp only [run] at h
    cases hs : step lv fetch a c with
    | none => simp [hs] at h
    | some c2 =>
      simp only [hs] at h
      exact ih h ((Step.of_step hs).keeps_inv hI) ((Step.of_step hs).keeps_traced hI.loc hT)

theorem Reachable.traced {lv : LoopVar} {fetch : Fetcher} {cache : URLCache} {seed : String}
    {d : Int} {c : Config} (h : Reachable lv fetch cache seed d c) : c.Traced fetch seed := by
  obtain ⟨sched, hs⟩ := h
  exact run_traced sched hs (Config.Inv.at_init fetch seed d cache)
    (Config.Traced.at_first fetch cache seed d)

/-- In a run, a goroutine in the loop of lines 51-62 or past it, or one that has examined
a link, finds the url it crawls in the cache. -/
theorem Config.Inv.own_cached {fetch : Fetcher} {seed : String} {d : Int} {cache0 : URLCache}
    {c : Config} (hI : c.Inv fetch seed d cache0) (hT : c.Traced fetch seed) {g : Nat}
    {f : Frame} (hg : c.gs[g]? = some f)
    (hpc : f.pc = .loop ∨ f.pc = .check ∨ f.pc = .wait ∨ 0 < f.i) :
    (c.cache.Get f.url).2 = true := by
  have hl := hI.loc g f hg
  have hok : f.ok fetch := by
    rcases hpc with h | h | h | h
    · exact hl.ok (Or.inr (Or.inl h))
    · exact hl.ok (Or.inr (Or.inr (Or.inl h)))
    · exact hl.ok (Or.inr (Or.inr (Or.inr (Or.inl h))))
    · exact hl.ok (Or.inr (Or.inr (Or.inr (Or.inr (Or.inl h)))))
  have hns : f.pc ≠ .spawned := by
    intro hs
    have := (hl.fresh (Or.inl hs)).1
    rcases hpc with h | h | h | h
    · rw [hs] at h; cases h
    · rw [hs] at h; cases h
    · rw [hs] at h; cases h
    · omega
  have hne : f.pc ≠ .entry := by
    intro hs
    have := (hl.fresh (Or.inr hs)).1
    rcases hpc with h | h | h | h
    · rw [hs] at h; cases h
    · rw [hs] at h; cases h
    · rw [hs] at h; cases h
    · omega
  have hfe := (hT.logged g f hg hns hne).2 hok.2.2.2.1
  rcases hI.log.stored g f.url hfe hok.1 with ⟨x, hx, -, hp⟩ | h
  · rw [hg] at hx
    cases hx
    have h0 := hT.early g _ hg hp
    rcases hpc with h | h | h | h
    · rcases hp with hp | hp <;> (rw [h] at hp; cases hp)
    · rcases hp with hp | hp <;> (rw [h] at hp; cases hp)
    · rcases hp with hp | hp <;> (rw [h] at hp; cases hp)
    · omega
  · exact h

theorem Frame.Apart.hold {fetch : Fetcher} {seed : String} {d : Int} {u : String}
    {gs : List Frame} {g : Nat} {f : Frame} (n : Nat)
    (hL : ∀ (j : Nat) (x : Frame), gs[j]? = some x → x.Linked fetch seed d gs j)
    (hA : ∀ (j : Nat) (x : Frame), n ≤ j → gs[j]? = some x → x.Apart u gs)
    (hg : gs[g]? = some f) (f1 : Frame) (hpar : f1.parent = f.parent)
    (hown : f1.own = f.own) (hkids : f1.urls = f.urls ∨ f.i = 0) :
    ∀ (j : Nat) (x : Frame), n ≤ j → (gs.set g f1)[j]? = some x →
      x.Apart u (gs.set g f1) := by
  intro j x hn hx p hp
  have hlen : g < gs.length := (List.getElem?_eq_some.1 hg).1
  rcases getElem?_set_cases hx with ⟨rfl, rfl⟩ | ⟨hne, h1⟩
  · have hp0 : f.parent = some p := by rw [← hpar]; exact hp
    obtain ⟨pf, v, hpf, hv, hvu⟩ := hA _ _ hn hg p hp0
    have hlt := ((hL _ _ hg).par p hp0).1
    exact ⟨pf, v, by rw [List.getElem?_set_ne (by omega)]; exact hpf, by rw [hown]; exact hv,
      hvu⟩
  · obtain ⟨pf, v, hpf, hv, hvu⟩ := hA _ _ hn h1 p hp
    by_cases hpg : p = g
    · subst hpg
      rw [hg] at hpf
      cases hpf
      obtain ⟨-, pf2, hpf2, ho⟩ := (hL _ _ h1).par p hp
      rw [hg] at hpf2
      cases hpf2
      rcases hkids with hu | h0
      · exact ⟨f1, v, List.getElem?_set_self hlen, by rw [hu]; exact hv, hvu⟩
      · omega
    · exact ⟨pf, v, by rw [List.getElem?_set_ne (fun e => hpg e.symm)]; exact hpf, hv, hvu⟩

theorem Frame.Apart.new_child {u : String} {gs : List Frame} (n : Nat)
    (hA : ∀ (j : Nat) (x : Frame), n ≤ j → gs[j]? = some x → x.Apart u gs)
    (ch : Frame) (hch : ch.Apart u (gs ++ [ch])) :
    ∀ (j : Nat) (x : Frame), n ≤ j → (gs ++ [ch])[j]? = some x → x.Apart u (gs ++ [ch]) := by
  intro j x hn hx p hp
  rcases getElem?_concat_cases hx with h1 | ⟨-, rfl⟩
  · obtain ⟨pf, v, hpf, h2⟩ := hA _ _ hn h1 p hp
    exact ⟨pf, v, by rw [List.getElem?_append_left (List.getElem?_eq_some.1 hpf).1]; exact hpf,
      h2⟩
  · exact hch p hp

/-- Goroutines numbered `n` or more that were spawned for a link other than `u` stay so,
and so is every new one, as long as a link not found at line 53 is not `u`. -/
theorem Step.keeps_apart {lv : LoopVar} {fetch : Fetcher} {seed : String} {d : Int}
    {u : String} {c c1 : Config} (h : Step lv fetch c c1) (n : Nat)
    (hF : ∀ (g : Nat) (f : Frame), c.gs[g]? = some f → f.Local fetch)
    (hL : ∀ (g : Nat) (f : Frame), c.gs[g]? = some f → f.Linked fetch seed d c.gs g)
    (hA : ∀ (g : Nat) (f : Frame), n ≤ g → c.gs[g]? = some f → f.Apart u c.gs)
    (hsp : ∀ (g : Nat) (f : Frame) (v : String), c.gs[g]? = some f → f.pc = .check →
      f.urls[f.i]? = some v → (c.cache.Get v).2 = false → v ≠ u) :
    ∀ (g : Nat) (f : Frame), n ≤ g → c1.gs[g]? = some f → f.Apart u c1.gs := by
  cases h with
  | start hg hpc hp hpf hu =>
    exact Frame.Apart.hold n hL hA hg _ rfl rfl (Or.inl rfl)
  | exhausted hg hpc hd =>
    exact Frame.Apart.hold n hL hA hg _ rfl rfl (Or.inl rfl)
  | fetchErr hg hpc hd he =>
    exact Frame.Apart.hold n hL hA hg _ rfl rfl (Or.inr ((hF _ _ hg).fresh (Or.inr hpc)).1)
  | fetchOk hg hpc hd he =>
    exact Frame.Apart.hold n hL hA hg _ rfl rfl (Or.inr ((hF _ _ hg).fresh (Or.inr hpc)).1)
  | hit hg hpc hc =>
    exact Frame.Apart.hold n hL hA hg _ rfl rfl (Or.inl rfl)
  | miss hg hpc hc =>
    exact Frame.Apart.hold n hL hA hg _ rfl rfl (Or.inl rfl)
  | put hg hpc =>
    exact Frame.Apart.hold n hL hA hg _ rfl rfl (Or.inl rfl)
  | next hg hpc hi =>
    exact Frame.Apart.hold n hL hA hg _ rfl rfl (Or.inl rfl)
  | exit hg hpc hi =>
    exact Frame.Apart.hold n hL hA hg _ rfl rfl (Or.inl rfl)
  | skip hg hpc hu hc =>
    exact Frame.Apart.hold n hL hA hg _ rfl rfl (Or.inl rfl)
  | ret hg hpc hk =>
    exact Frame.Apart.hold n hL hA hg _ rfl rfl (Or.inl rfl)
  | spawn hg hpc hu hc =>
    rename_i g f v
    have hlen : g < c.gs.length := (List.getElem?_eq_some.1 hg).1
    refine Frame.Apart.new_child n
      (Frame.Apart.hold n hL hA hg { f with pc := .loop, i := f.i + 1 } rfl rfl (Or.inl rfl))
      _ ?_
    intro p hp
    have hpg : p = g := by
      simp only [Frame.child, Option.some.injEq] at hp
      exact hp.symm
    subst hpg
    refine ⟨{ f with pc := .loop, i := f.i + 1 }, v, ?_, hu, hsp _ _ _ hg hpc hu hc⟩
    rw [List.getElem?_append_left (by simpa using hlen)]
    exact List.getElem?_set_self hlen
  | recv hp hch hpc hk hcpc hpar =>
    rename_i p ch pf cf
    have hne : p ≠ ch := by
      have := ((hL _ _ hch).par p hpar).1
      omega
    have hch1 : (c.gs.set p { pf with k := pf.k + 1 })[ch]? = some cf := by
      rw [List.getElem?_set_ne hne]
      exact hch
    have hL1 := Frame.Linked.update hL hp { pf with k := pf.k + 1 } rfl rfl (Nat.le_refl _)
      (fun _ => (hL _ _ hp).chain (by simp [hpc]))
    have hA1 := Frame.Apart.hold n hL hA hp { pf with k := pf.k + 1 } rfl rfl (Or.inl rfl)
    exact Frame.Apart.hold n hL1 hA1 hch1 { cf with pc := .finished } rfl rfl (Or.inl rfl)

/-- Once `u` is found in the cache, no goroutine is spawned for the link `u`. -/
theorem run_keeps_apart {lv : LoopVar} {fetch : Fetcher} {seed : String} {d : Int}
    {cache0 : URLCache} {u : String} (n : Nat) (sched : List Action) :
    ∀ {c c1 : Config}, run lv fetch sched c = some c1 → c.Inv fetch seed d cache0 →
      (c.cache.Get u).2 = true →
      (∀ (g : Nat) (f : Frame), n ≤ g → c.gs[g]? = some f → f.Apart u c.gs) →
      ∀ (g : Nat) (f : Frame), n ≤ g → c1.gs[g]? = some f → f.Apart u c1.gs := by
  induction sched with
  | nil =>
    intro c c1 h _ _ hA
    simp only [run, Option.some.injEq] at h
    subst h
    exact hA
  | cons a as ih =>
    intro c c1 h hI hu hA
    simp only [run] at h
    cases hs : step lv fetch a c with
    | none => simp [hs] at h
    | some c2 =>
      simp only [hs] at h
      refine ih h ((Step.of_step hs).keeps_inv hI) ((Step.of_step hs).keeps_found hu)
        ((Step.of_step hs).keeps_apart n hI.loc hI.link hA ?_)
      intro g f v _ _ _ hv hvu
      rw [hvu, hu] at hv
      cases hv

/-- In a run, the seed is in the cache when a goroutine examines a link at line 53. -/
theorem Config.Inv.seed_cached {fetch : Fetcher} {seed : String} {d : Int}
    {cache0 : URLCache} {c : Config} (hI : c.Inv fetch seed d cache0)
    (hT : c.Traced fetch seed) {g : Nat} {f : Frame} (hg : c.gs[g]? = some f)
    (hpc : f.pc = .check) : (c.cache.Get seed).2 = true := by
  obtain ⟨m, hm, hmu, -⟩ := hT.main
  cases g with
  | zero =>
    rw [hg] at hm
    cases hm
    rw [← hmu]
    exact hI.own_cached hT hg (Or.inr (Or.inl hpc))
  | succ g =>
    have hlen : g + 1 < c.gs.length := (List.getElem?_eq_some.1 hg).1
    have h1 : c.gs[1]? = some c.gs[1] := List.getElem?_eq_getElem (by omega)
    have hlk := hI.link 1 _ h1
    cases hp : (c.gs[1]).parent with
    | none =>
      have := hlk.root hp
      omega
    | some p =>
      obtain ⟨hlt, pf, hpf, ho⟩ := hlk.par p hp
      have hp0 : p = 0 := by omega
      subst hp0
      rw [hm] at hpf
      cases hpf
      rw [← hmu]
      exact hI.own_cached hT hm (Or.inr (Or.inr (Or.inr (by omega))))

theorem run_apart_seed {lv : LoopVar} {fetch : Fetcher} {seed : String} {d : Int}
    {cache0 : URLCache} (sched : List Action) :
    ∀ {c c1 : Config}, run lv fetch sched c = some c1 → c.Inv fetch seed d cache0 →
      c.Traced fetch seed →
      (∀ (g : Nat) (f : Frame), 0 ≤ g → c.gs[g]? = some f → f.Apart seed c.gs) →
      ∀ (g : Nat) (f : Frame), 0 ≤ g → c1.gs[g]? = some f → f.Apart seed c1.gs := by
  induction sched with
  | nil =>
    intro c c1 h _ _ hA
    simp only [run, Option.some.injEq] at h
    subst h
    exact hA
  | cons a as ih =>
    intro c c1 h hI hT hA
    simp only [run] at h
    cases hs : step lv fetch a c with
    | none => simp [hs] at h
    | some c2 =>
      simp only [hs] at h
      refine ih h ((Step.of_step hs).keeps_inv hI) ((Step.of_step hs).keeps_traced hI.loc hT)
        ((Step.of_step hs).keeps_apart 0 hI.loc hI.link hA ?_)
      intro g f v hg hpc _ hv hvu
      have := hI.seed_cached hT hg hpc
      rw [hvu, this] at hv
      cases hv

/-- In a run, no goroutine was spawned for the link `seed`. -/
theorem Reachable.apart_seed {lv : LoopVar} {fetch : Fetcher} {cache : URLCache}
    {seed : String} {d : Int} {c : Config} (h : Reachable lv fetch cache seed d c) :
    ∀ (g : Nat) (f : Frame), c.gs[g]? = some f → f.Apart seed c.gs := by
  obtain ⟨sched, hs⟩ := h
  intro g f hg
  refine run_apart_seed sched hs (Config.Inv.at_init fetch seed d cache)
    (Config.Traced.at_first fetch cache seed d) ?_ g f (Nat.zero_le _) hg
  intro j x _ hx p hp
  cases j with
  | zero =>
    simp only [Config.init, List.getElem?_cons_zero, Option.some.injEq] at hx
    subst hx
    simp [Frame.main] at hp
  | succ j => simp [Config.init] at hx

/-- With a loop variable per iteration, a goroutine that has invoked `Fetch(u)` is `main`
or was spawned for the link `u`. -/
theorem Reachable.fetch_own_link {fetch : Fetcher} {cache : URLCache} {seed : String}
    {d : Int} {c : Config} (h : Reachable .perIteration fetch cache seed d c) {g : Nat}
    {u : String} (hf : Event.fetch g u ∈ c.trace) :
    ∃ f : Frame, c.gs[g]? = some f ∧ f.url = u ∧
      ∀ p : Nat, f.parent = some p →
        ∃ pf : Frame, c.gs[p]? = some pf ∧ pf.urls[f.own]? = some u := by
  obtain ⟨f, hg, hu, hs, -, -⟩ := h.traced.by_frame g u hf
  refine ⟨f, hg, hu, ?_⟩
  intro p hp
  obtain ⟨pf, hpf, -, j, -, hj, hjo⟩ := h.started g f hg p hp hs
  rw [hjo rfl, hu] at hj
  exact ⟨pf, hpf, hj⟩

/-- When one goroutine made all the fetches of `u`, they are at most as many as it made. -/
theorem fetchCount_eq_count {u : String} {g0 : Nat} {tr : List Event}
    (h : ∀ g : Nat, Event.fetch g u ∈ tr → g = g0) :
    fetchCount u tr = tr.count (Event.fetch g0 u) := by
  induction tr with
  | nil => rfl
  | cons e es ih =>
    have ih1 := ih (fun g hg => h g (List.mem_cons_of_mem _ hg))
    unfold fetchCount at ih1 ⊢
    cases e with
    | fetch g1 u1 =>
      by_cases hu : u1 = u
      · subst hu
        have hg1 : g1 = g0 := h g1 (List.mem_cons_self _ _)
        subst hg1
        simp [fetched, ih1]
      · have hne : Event.fetch g1 u1 ≠ Event.fetch g0 u := by
          intro he
          cases he
          exact hu rfl
        simp only [fetched]
        rw [List.count_cons_of_ne (Ne.symm hu), List.count_cons_of_ne hne.symm]
        exact ih1
    | crawl g1 u1 d1 =>
      simp only [fetched]
      rw [List.count_cons_of_ne (by simp)]
      exact ih1
    | add g1 u1 b1 w1 =>
      simp only [fetched]
      rw [List.count_cons_of_ne (by simp)]
      exact ih1

theorem mem_added {u : String} {tr : List Event} :
    u ∈ added tr ↔ ∃ (g : Nat) (v : String), Event.add g u v true ∈ tr := by
  induction tr with
  | nil => simp [added]
  | cons e tr ih =>
    cases e with
    | add g1 u1 b1 w1 =>
      cases w1
      · simp only [added, ih, List.mem_cons]
        constructor
        · rintro ⟨g, v, h⟩
          exact ⟨g, v, Or.inr h⟩
        · rintro ⟨g, v, h | h⟩
          · cases h
          · exact ⟨g, v, h⟩
      · simp only [added, ih, List.mem_cons]
        constructor
        · rintro (rfl | ⟨g, v, h⟩)
          · exact ⟨g1, b1, Or.inl rfl⟩
          · exact ⟨g, v, Or.inr h⟩
        · rintro ⟨g, v, h | h⟩
          · cases h
            exact Or.inl rfl
          · exact Or.inr ⟨g, v, h⟩
    | fetch g1 u1 =>
      simp only [added, ih, List.mem_cons]
      constructor
      · rintro ⟨g, v, h⟩
        exact ⟨g, v, Or.inr h⟩
      · rintro ⟨g, v, h | h⟩
        · cases h
        · exact ⟨g, v, h⟩
    | crawl g1 u1 d1 =>
      simp only [added, ih, List.mem_cons]
      constructor
      · rintro ⟨g, v, h⟩
        exact ⟨g, v, Or.inr h⟩
      · rintro ⟨g, v, h | h⟩
        · cases h
        · exact ⟨g, v, h⟩

theorem frame_before_set {gs : List Frame} {j g : Nat} {fj x : Frame}
    (hj : gs[j]? = some fj) (f1 : Frame) (hpar : f1.parent = fj.parent) (hown : f1.own = fj.own)
    (hx : (gs.set j f1)[g]? = some x) :
    ∃ y : Frame, gs[g]? = some y ∧ y.parent = x.parent ∧ y.own = x.own := by
  rcases getElem?_set_cases hx with ⟨rfl, rfl⟩ | ⟨-, h⟩
  · exact ⟨fj, hj, hpar.symm, hown.symm⟩
  · exact ⟨x, h, rfl, rfl⟩

theorem OnePerLink.after_step {gs : List Frame} {j : Nat} {fj : Frame} (h : OnePerLink gs)
    (hj : gs[j]? = some fj) (f1 : Frame) (hpar : f1.parent = fj.parent)
    (hown : f1.own = fj.own) : OnePerLink (gs.set j f1) := by
  intro g1 g2 p x1 x2 h1 h2 hp1 hp2 ho
  obtain ⟨y1, hy1, a1, b1⟩ := frame_before_set hj f1 hpar hown h1
  obtain ⟨y2, hy2, a2, b2⟩ := frame_before_set hj f1 hpar hown h2
  exact h g1 g2 p y1 y2 hy1 hy2 (a1.trans hp1) (a2.trans hp2) (by rw [b1, b2]; exact ho)

theorem OnePerLink.plus_child {gs : List Frame} (h : OnePerLink gs) (ch : Frame)
    (hnew : ∀ (j : Nat) (x : Frame), gs[j]? = some x → x.parent = ch.parent →
      x.own ≠ ch.own) : OnePerLink (gs ++ [ch]) := by
  intro g1 g2 p x1 x2 h1 h2 hp1 hp2 ho
  rcases getElem?_concat_cases h1 with a1 | ⟨a1, rfl⟩
  · rcases getElem?_concat_cases h2 with a2 | ⟨a2, rfl⟩
    · exact h g1 g2 p x1 x2 a1 a2 hp1 hp2 ho
    · exact absurd ho (hnew g1 x1 a1 (hp1.trans hp2.symm))
  · rcases getElem?_concat_cases h2 with a2 | ⟨a2, rfl⟩
    · exact absurd ho.symm (hnew g2 x2 a2 (hp2.trans hp1.symm))
    · omega

theorem Step.keeps_one_per_link {lv : LoopVar} {fetch : Fetcher} {seed : String} {d : Int}
    {c c1 : Config} (h : Step lv fetch c c1)
    (hL : ∀ (g : Nat) (f : Frame), c.gs[g]? = some f → f.Linked fetch seed d c.gs g)
    (hO : OnePerLink c.gs) : OnePerLink c1.gs := by
  cases h with
  | start hg hpc hp hpf hu => exact hO.after_step hg _ rfl rfl
  | exhausted hg hpc hd => exact hO.after_step hg _ rfl rfl
  | fetchErr hg hpc hd he => exact hO.after_step hg _ rfl rfl
  | fetchOk hg hpc hd he => exact hO.after_step hg _ rfl rfl
  | hit hg hpc hc => exact hO.after_step hg _ rfl rfl
  | miss hg hpc hc => exact hO.after_step hg _ rfl rfl
  | put hg hpc => exact hO.after_step hg _ rfl rfl
  | next hg hpc hi => exact hO.after_step hg _ rfl rfl
  | exit hg hpc hi => exact hO.after_step hg _ rfl rfl
  | skip hg hpc hu hc => exact hO.after_step hg _ rfl rfl
  | ret hg hpc hk => exact hO.after_step hg _ rfl rfl
  | spawn hg hpc hu hc =>
    rename_i g f u
    refine (hO.after_step hg { f with pc := .loop, i := f.i + 1 } rfl rfl).plus_child _ ?_
    intro j x hx hp
    obtain ⟨y, hy, a, b⟩ := frame_before_set hg { f with pc := .loop, i := f.i + 1 } rfl rfl hx
    have hyp : y.parent = some g := a.trans hp
    obtain ⟨-, pf, hpf, ho⟩ := (hL j y hy).par g hyp
    rw [hg] at hpf
    cases hpf
    show x.own ≠ f.i
    omega
  | recv hp hch hpc hk hcpc hpar =>
    rename_i p ch pf cf
    have hne : p ≠ ch := by
      rintro rfl
      rw [hp] at hch
      cases hch
      rw [hpc] at hcpc
      cases hcpc
    have hch1 : (c.gs.set p { pf with k := pf.k + 1 })[ch]? = some cf := by
      rw [List.getElem?_set_ne hne]
      exact hch
    exact (hO.after_step hp { pf with k := pf.k + 1 } rfl rfl).after_step hch1 _ rfl rfl

theorem run_one_per_link {lv : LoopVar} {fetch : Fetcher} {seed : String} {d : Int}
    {cache0 : URLCache} (sched : List Action) :
    ∀ {c c1 : Config}, run lv fetch sched c = some c1 → c.Inv fetch seed d cache0 →
      OnePerLink c.gs → OnePerLink c1.gs := by
  induction sched with
  | nil =>
    intro c c1 h _ hO
    simp only [run, Option.some.injEq] at h
    subst h
    exact hO
  | cons a as ih =>
    intro c c1 h hI hO
    simp only [run] at h
    cases hs : step lv fetch a c with
    | none => simp [hs] at h
    | some c2 =>
      simp only [hs] at h
      exact ih h ((Step.of_step hs).keeps_inv hI)
        ((Step.of_step hs).keeps_one_per_link hI.link hO)

theorem Reachable.one_per_link {lv : LoopVar} {fetch : Fetcher} {cache : URLCache}
    {seed : String} {d : Int} {c : Config} (h : Reachable lv fetch cache seed d c) :
    OnePerLink c.gs := by
  obtain ⟨sched, hs⟩ := h
  refine run_one_per_link sched hs (Config.Inv.at_init fetch seed d cache) ?_
  intro g1 g2 p f1 f2 h1 h2 hp1 _ _
  cases g1 with
  | zero =>
    simp only [Config.init, List.getElem?_cons_zero, Option.some.injEq] at h1
    subst h1
    simp [Frame.main] at hp1
  | succ g => simp [Config.init] at h1

/-- With a loop variable per iteration, only `main` invokes `Fetch` on the seed. -/
theorem Reachable.seed_by_main {fetch : Fetcher} {cache : URLCache} {seed : String}
    {d : Int} {c : Config} (h : Reachable .perIteration fetch cache seed d c) :
    ∀ g : Nat, Event.fetch g seed ∈ c.trace → g = 0 := by
  intro g hg
  obtain ⟨f, hf, -, hown⟩ := h.fetch_own_link hg
  cases hp : f.parent with
  | none => exact ((Reachable.invariant h).link g f hf).root hp
  | some p =>
    obtain ⟨pf, hpf, hu⟩ := hown p hp
    obtain ⟨pf2, v, hpf2, hv, hvu⟩ := h.apart_seed g f hf p hp
    rw [hpf] at hpf2
    cases hpf2
    rw [hv] at hu
    exact absurd (Option.some.inj hu) hvu

/-- When at most one goroutine has invoked `Fetch(u)`, it was invoked at most once. -/
theorem Config.Traced.fetched_once {fetch : Fetcher} {seed : String} {c : Config}
    (hT : c.Traced fetch seed) {u : String}
    (h : ∀ g1 g2 : Nat, Event.fetch g1 u ∈ c.trace → Event.fetch g2 u ∈ c.trace → g1 = g2) :
    fetchCount u c.trace ≤ 1 := by
  by_cases hex : ∃ g : Nat, Event.fetch g u ∈ c.trace
  · obtain ⟨g0, hg0⟩ := hex
    rw [fetchCount_eq_count (fun g hg => h g g0 hg hg0)]
    exact hT.once g0 u
  · rw [@fetchCount_eq_count u 0 c.trace (fun g hg => absurd ⟨g, hg⟩ hex)]
    exact hT.once 0 u

/-- The pages of scenario 1 that link to something other than `A`: `A` only, to `B` at
position 0 and to `C` at position 1. -/
theorem scenario1_links {s v : String} {k : Nat} (he : (scenario1.Fetch s).err = none)
    (hk : (scenario1.Fetch s).urls[k]? = some v) (hv : v ≠ "A") :
    s = "A" ∧ ((k = 0 ∧ v = "B") ∨ (k = 1 ∧ v = "C")) := by
  by_cases hA : s = "A"
  · subst hA
    refine ⟨rfl, ?_⟩
    have hl : (scenario1.Fetch "A").urls = ["B", "C"] := by decide
    rw [hl] at hk
    match k, hk with
    | 0, hk => exact Or.inl ⟨rfl, by simpa using hk.symm⟩
    | 1, hk => exact Or.inr ⟨rfl, by simpa using hk.symm⟩
    | k + 2, hk => simp at hk
  · by_cases hB : s = "B"
    · subst hB
      have hl : (scenario1.Fetch "B").urls = ["A"] := by decide
      rw [hl] at hk
      match k, hk with
      | 0, hk => exact absurd (by simpa using hk.symm) hv
      | k + 1, hk => simp at hk
    · by_cases hC : s = "C"
      · subst hC
        have hl : (scenario1.Fetch "C").urls = [] := by decide
        rw [hl] at hk
        simp at hk
      · exfalso
        have hA1 : (s == "A") = false := by simpa using hA
        have hB1 : (s == "B") = false := by simpa using hB
        have hC1 : (s == "C") = false := by simpa using hC
        simp [fakeFetcher.Fetch, scenario1, List.lookup, hA1, hB1, hC1] at he

/-- Scenario 1 with a loop variable per iteration: in every state of every run from the
empty cache, `Fetch` has been invoked at most once on each url. -/
theorem scenario1_fetched_once {c : Config}
    (h : Reachable .perIteration scenario1.Fetch .empty "A" 2 c) (u : String) :
    fetchCount u c.trace ≤ 1 := by
  have hI := Reachable.invariant h
  have hT := h.traced
  refine hT.fetched_once ?_
  by_cases hu : u = "A"
  · subst hu
    intro g1 g2 h1 h2
    rw [h.seed_by_main g1 h1, h.seed_by_main g2 h2]
  · have key : ∀ g : Nat, Event.fetch g u ∈ c.trace →
        ∃ f : Frame, c.gs[g]? = some f ∧ f.parent = some 0 ∧
          ((f.own = 0 ∧ u = "B") ∨ (f.own = 1 ∧ u = "C")) := by
      intro g hg
      obtain ⟨f, hf, hfu, hown⟩ := h.fetch_own_link hg
      obtain ⟨m, hm, hmu, -⟩ := hT.main
      cases hp : f.parent with
      | none =>
        have h0 := (hI.link g f hf).root hp
        subst h0
        rw [hf] at hm
        cases hm
        exact absurd (hfu.symm.trans hmu) hu
      | some p =>
        obtain ⟨pf, hpf, hlink⟩ := hown p hp
        obtain ⟨-, pf2, hpf2, ho⟩ := (hI.link g f hf).par p hp
        rw [hpf] at hpf2
        cases hpf2
        have hl := hI.loc p pf hpf
        have hok := hl.ok (Or.inr (Or.inr (Or.inr (Or.inr (Or.inl (by omega))))))
        rw [hok.2.1] at hlink
        obtain ⟨hs, hpos⟩ := scenario1_links hok.1 hlink hu
        have hns : pf.pc ≠ .spawned := by
          intro hpc
          have := (hl.fresh (Or.inl hpc)).1
          omega
        have hne : pf.pc ≠ .entry := by
          intro hpc
          have := (hl.fresh (Or.inr hpc)).1
          omega
        have hfe := (hT.logged p pf hpf hns hne).2 hok.2.2.2.1
        rw [hs] at hfe
        have hp0 := h.seed_by_main p hfe
        subst hp0
        exact ⟨f, hf, hp, hpos⟩
    intro g1 g2 h1 h2
    obtain ⟨f1, hf1, hp1, ho1⟩ := key g1 h1
    obtain ⟨f2, hf2, hp2, ho2⟩ := key g2 h2
    refine h.one_per_link g1 g2 0 f1 f2 hf1 hf2 hp1 hp2 ?_
    rcases ho1 with ⟨a1, b1⟩ | ⟨a1, b1⟩ <;> rcases ho2 with ⟨a2, b2⟩ | ⟨a2, b2⟩
    · rw [a1, a2]
    · rw [b1] at b2
      exact absurd b2 (by decide)
    · rw [b1] at b2
      exact absurd b2 (by decide)
    · rw [a1, a2]

/-- In a run, the goroutine spawned when `p` examines a link `Y` that is not in the cache
stays the child of `p` for that position, can go on until it waits at line 65 or has
returned, and enters `Crawl` with the depth of `p` less one on a link of `p` from that
position on; what it has logged by then. -/
theorem Reachable.spawned_child {lv : LoopVar} {fetch : Fetcher} {cache : URLCache}
    {seed : String} {d : Int} {c : Config} (hr : Reachable lv fetch cache seed d c) {p : Nat}
    {pf : Frame} {Y : String} (hp : c.gs[p]? = some pf) (hpc : pf.pc = .check)
    (hY : pf.urls[pf.i]? = some Y) (hunc : (c.cache.Get Y).2 = false) :
    ∃ c1 : Config, step lv fetch (.run p) c = some c1 ∧ c1.cache = c.cache ∧
      c1.gs.length = c.gs.length + 1 ∧
      ∀ (sched : List Action) (c2 : Config), run lv fetch sched c1 = some c2 →
        ∃ f : Frame, c2.gs[c.gs.length]? = some f ∧ f.parent = some p ∧ f.own = pf.i ∧
          (f.pc ≠ .wait → f.pc ≠ .returned → f.pc ≠ .finished →
            ∃ c3 : Config, step lv fetch (.run c.gs.length) c2 = some c3) ∧
          (f.pc ≠ .spawned →
            f.depth = pf.depth - 1 ∧ (∃ j : Nat, pf.i ≤ j ∧ pf.urls[j]? = some f.url) ∧
            (lv = .perIteration → f.url = Y)) ∧
          (f.pc ≠ .spawned → f.pc ≠ .entry →
            Event.crawl c.gs.length f.url f.depth ∈ c2.trace ∧
            (0 < f.depth → Event.fetch c.gs.length f.url ∈ c2.trace ∧
              f.err = (fetch f.url).err ∧ f.urls = (fetch f.url).urls)) ∧
          (f.pc = .wait ∨ f.pc = .returned ∨ f.pc = .finished → f.err = none →
            0 < f.depth → f.i = f.urls.length) := by
  have hlt : p < c.gs.length := (List.getElem?_eq_some.1 hp).1
  let pf1 : Frame := { pf with pc := .loop, i := pf.i + 1 }
  let ch0 : Frame := Frame.child p pf.i
  let c1 : Config := { c with gs := c.gs.set p pf1 ++ [ch0] }
  have h1 : step lv fetch (.run p) c = some c1 := step_check_spawn lv fetch hp hpc hY hunc
  have hn : c1.gs[c.gs.length]? = some ch0 := by
    have := List.getElem?_concat_length (c.gs.set p pf1) ch0
    rwa [List.length_set] at this
  have hpp : c1.gs[p]? = some pf1 := by
    show (c.gs.set p pf1 ++ [ch0])[p]? = some pf1
    rw [List.getElem?_append_left (by simpa using hlt)]
    exact List.getElem?_set_self hlt
  have hr1 : Reachable lv fetch cache seed d c1 := hr.extend [.run p] (by simp [run, h1])
  refine ⟨c1, h1, rfl, by simp [c1], ?_⟩
  intro sched c2 h2
  have hr2 := hr1.extend sched h2
  have hI2 := Reachable.invariant hr2
  have hT2 := hr2.traced
  obtain ⟨f, hf, hpar, hown, -, -, -⟩ := run_keeps_frame sched h2 hn
  obtain ⟨pf2, hpf2, -, -, -, hcall, hres⟩ := run_keeps_frame sched h2 hpp
  have hcall1 := hcall (by simp [pf1])
  have hres1 := hres (by simp [pf1]) (by simp [pf1])
  have hpar1 : f.parent = some p := hpar
  have hown1 : f.own = pf.i := hown
  refine ⟨f, hf, hpar1, hown1, ?_, ?_, ?_, ?_⟩
  · intro hw hre hfi
    exact hI2.can_run lv hf hw hre hfi (fun _ => by rw [hpar1]; simp)
  · intro hs
    obtain ⟨pf3, hpf3, hd, j, hj1, hj2, hj3⟩ := hr2.started _ f hf p hpar1 hs
    rw [hpf2] at hpf3
    cases hpf3
    have hu : pf2.urls = pf.urls := hres1.2.1
    have hdd : pf2.depth = pf.depth := hcall1.2.2
    rw [hu] at hj2
    refine ⟨by rw [hd, hdd], ⟨j, by omega, hj2⟩, ?_⟩
    intro hlv
    have hjo := hj3 hlv
    rw [hjo, hown1, hY] at hj2
    exact (Option.some.inj hj2).symm
  · intro hs he
    obtain ⟨a1, a2⟩ := hT2.logged _ f hf hs he
    exact ⟨a1, fun hd => ⟨a2 hd, hT2.kept _ f hf hs he hd⟩⟩
  · intro hpast herr hd
    exact (hI2.loc _ f hf).past hpast herr hd

/-- C10 (partial-failure isolation), evaluated on the fixture and in general.  With one `u`
for the whole loop, the run `siblingLostRun` of the program returns to `main`, nothing
being left to execute, without `Fetch` ever invoked on `http://golang.org/pkg/`, the
sibling of the failing `http://golang.org/cmd/`: the goroutine spawned for it has crawled
`cmd/`.  In every run, for either reading, when a goroutine `p` examines a link `Y` that is
not in the cache, the goroutine it spawns can always go on, whatever the others do and
whether their fetches fail or not, until it waits at line 65 or has returned; it enters
`Crawl` with the depth of `p` less one on a link of `p`, which is `Y` when each iteration
has its own `u`; then, with the depth of `p` above 1, once it cannot go on it has crawled
and fetched `Y` and, the fetch having succeeded, examined all the links of `Y`.  And the
crawl of a url `X` whose fetch fails is one step that returns after the one `Fetch(X)`,
leaving the cache and every other goroutine as they are and creating none: every action
of another goroutine has the same outcome after that step as before it, the frame of `x`
apart (`x` has spawned nobody, as is the case in a run, and its own completion signal is
left out). -/
theorem Crawl_sibling_isolated :
    (∃ c : Config, run .shared fetcher.Fetch siblingLostRun main = some c ∧
      run .shared fetcher.Fetch (siblingLostRun.take 4) main = some fixtureMainChecks ∧
      (fetcher.Fetch "http://golang.org/cmd/").err
        = some "not found: http://golang.org/cmd/" ∧
      (fetcher.Fetch "http://golang.org/pkg/").err = none ∧
      c.done = true ∧ c.stuck = true ∧
      fetched c.trace
        = ["http://golang.org/", "http://golang.org/cmd/", "http://golang.org/cmd/"] ∧
      (c.gs.map fun f => (f.parent, f.own, f.url, f.depth, f.pc))
        = [(none, 0, "http://golang.org/", 4, .returned),
           (some 0, 0, "http://golang.org/cmd/", 3, .finished),
           (some 0, 1, "http://golang.org/cmd/", 3, .finished)]) ∧
    (∀ (lv : LoopVar) (fetch : Fetcher) (cache : URLCache) (seed : String) (d : Int)
      (c : Config), Reachable lv fetch cache seed d c →
      ∀ (p : Nat) (pf : Frame) (Y : String), c.gs[p]? = some pf → pf.pc = .check →
        pf.urls[pf.i]? = some Y → (c.cache.Get Y).2 = false →
        ∃ c1 : Config, step lv fetch (.run p) c = some c1 ∧ c1.cache = c.cache ∧
          c1.gs.length = c.gs.length + 1 ∧
          ∀ (sched : List Action) (c2 : Config), run lv fetch sched c1 = some c2 →
            ∃ f : Frame, c2.gs[c.gs.length]? = some f ∧ f.parent = some p ∧ f.own = pf.i ∧
              (f.pc ≠ .wait → f.pc ≠ .returned → f.pc ≠ .finished →
                ∃ c3 : Config, step lv fetch (.run c.gs.length) c2 = some c3) ∧
              (f.pc ≠ .spawned →
                f.depth = pf.depth - 1 ∧ (∃ j : Nat, pf.i ≤ j ∧ pf.urls[j]? = some f.url) ∧
                (lv = .perIteration → f.url = Y)) ∧
              (lv = .perIteration → 1 < pf.depth →
                step lv fetch (.run c.gs.length) c2 = none →
                Event.crawl c.gs.length Y (pf.depth - 1) ∈ c2.trace ∧
                Event.fetch c.gs.length Y ∈ c2.trace ∧
                ((fetch Y).err = none →
                  f.urls = (fetch Y).urls ∧ f.i = f.urls.length))) ∧
    (∀ (lv : LoopVar) (fetch : Fetcher) (X e : String), (fetch X).err = some e →
      ∀ (c1 : Config) (x : Nat) (xf : Frame), c1.gs[x]? = some xf → xf.pc = .entry →
        xf.url = X → 0 < xf.depth →
        ∃ (c2 : Config) (xf1 : Frame), step lv fetch (.run x) c1 = some c2 ∧
          c2.cache = c1.cache ∧ c2.gs = c1.gs.set x xf1 ∧ xf1.pc = .returned ∧
          fetched c2.trace = fetched c1.trace ++ [X] ∧
          ((∀ f ∈ c1.gs, f.parent ≠ some x) → ∀ a : Action, a ≠ .run x →
            (∀ q : Nat, a ≠ .recv q x) →
            (step lv fetch a c2).map Config.state
              = (step lv fetch a c1).map fun c3 => (c3.cache, c3.gs.set x xf1))) := by
  refine ⟨⟨_, rfl, by decide, by decide, by decide, by decide, by decide, by decide,
    by decide⟩, ?_, ?_⟩
  · intro lv fetch cache seed d c hr p pf Y hp hpc hY hunc
    obtain ⟨c1, h1, hc1, hlen, hrest⟩ := hr.spawned_child hp hpc hY hunc
    refine ⟨c1, h1, hc1, hlen, ?_⟩
    intro sched c2 h2
    obtain ⟨f, hf, hpar, hown, hcan, hcall, hlog, hpast⟩ := hrest sched c2 h2
    refine ⟨f, hf, hpar, hown, hcan, hcall, ?_⟩
    intro hlv hd hstop
    have hblocked : f.pc = .wait ∨ f.pc = .returned ∨ f.pc = .finished := by
      by_contra hno
      simp only [not_or] at hno
      obtain ⟨c3, h3⟩ := hcan hno.1 hno.2.1 hno.2.2
      rw [hstop] at h3
      cases h3
    have hs : f.pc ≠ .spawned := by
      rcases hblocked with h | h | h <;> simp [h]
    have he : f.pc ≠ .entry := by
      rcases hblocked with h | h | h <;> simp [h]
    obtain ⟨hdep, -, hurl⟩ := hcall hs
    have hu := hurl hlv
    obtain ⟨a1, a2⟩ := hlog hs he
    have hpos : 0 < f.depth := by omega
    obtain ⟨b1, b2, b3⟩ := a2 hpos
    rw [hu] at a1 b1 b2 b3
    rw [hdep] at a1
    refine ⟨a1, b1, ?_⟩
    intro hok
    rw [hok] at b2
    exact ⟨b3, hpast hblocked b2 hpos⟩
  · intro lv fetch X e he c1 x xf hx hxpc hxu hxd
    subst hxu
    refine ⟨_, _, step_entry_failed lv hx hxpc hxd he, rfl, rfl, rfl, ?_, ?_⟩
    · simp [fetched_append, fetched]
    · intro hkids a ha hr
      exact step_beside_returned lv fetch _ _ hx hxpc rfl hkids a ha hr

/-- C2 as amended: what the lookup of line 53 and the cache do deliver.  In every state
`c` of every run of `Crawl` started from an empty cache: every key found in the cache is a
url on which `Fetch` was invoked with success and is found with a body `Fetch` returned
for it; every url for which a call of `Add` returned true is found in the cache with the
body one such call passed; every goroutine invokes `Fetch` at most once, on the url it
crawls; a goroutine spawns at most one goroutine at each position of its link list; from a
state on in which `u` is found in the cache no goroutine is spawned for the link `u`, and
so, when each iteration has its own `u`, every `Fetch(u)` of the run is by a goroutine
that had been spawned by then; and then the seed is fetched at most once.  On scenario 1
with depth 2, when each iteration has its own `u`, every url is fetched at most once in
every run. -/
theorem Crawl_dedup_by_lookup (lv : LoopVar) (fetch : Fetcher) (seed : String) (d : Int)
    (c : Config) (h : Reachable lv fetch .empty seed d c) :
    (∀ k v : String, c.cache.Get k = (v, true) →
      (fetch k).err = none ∧ v = (fetch k).body ∧ k ∈ fetched c.trace) ∧
    (∀ u ∈ added c.trace, ∃ (g : Nat) (v : String),
      Event.add g u v true ∈ c.trace ∧ c.cache.Get u = (v, true)) ∧
    (∀ (g : Nat) (u : String), c.trace.count (Event.fetch g u) ≤ 1 ∧
      (Event.fetch g u ∈ c.trace → ∃ f : Frame, c.gs[g]? = some f ∧ f.url = u)) ∧
    (∀ (g1 g2 p : Nat) (f1 f2 : Frame), c.gs[g1]? = some f1 → c.gs[g2]? = some f2 →
      f1.parent = some p → f2.parent = some p → f1.own = f2.own → g1 = g2) ∧
    (∀ u : String, (c.cache.Get u).2 = true →
      ∀ (sched : List Action) (c1 : Config), run lv fetch sched c = some c1 →
        (∀ (g : Nat) (f : Frame), c.gs.length ≤ g → c1.gs[g]? = some f →
          ∃ (p : Nat) (pf : Frame) (v : String),
            f.parent = some p ∧ c1.gs[p]? = some pf ∧ pf.urls[f.own]? = some v ∧ v ≠ u) ∧
        (lv = .perIteration → ∀ g : Nat, Event.fetch g u ∈ c1.trace → g < c.gs.length)) ∧
    (lv = .perIteration → fetchCount seed c.trace ≤ 1) ∧
    (∀ c0 : Config, Reachable .perIteration scenario1.Fetch .empty "A" 2 c0 →
      ∀ u : String, fetchCount u c0.trace ≤ 1) := by
  have hI := Reachable.invariant h
  have hT := h.traced
  have hs : ∀ k v : String, c.cache.Get k = (v, true) →
      (fetch k).err = none ∧ v = (fetch k).body ∧ k ∈ fetched c.trace := by
    intro k v hk
    rcases hI.log.sound k v hk with h0 | h1
    · simp [URLCache.empty, URLCache.Get] at h0
    · exact h1
  refine ⟨hs, ?_, ?_, h.one_per_link, ?_, ?_, fun c0 h0 u => scenario1_fetched_once h0 u⟩
  · intro u hu
    obtain ⟨g, v, hgv⟩ := mem_added.1 hu
    refine ⟨g, v, hgv, ?_⟩
    have hf := (hI.log.won u hu).1
    rw [URLCache.Get_eta hf, (hs u _ (URLCache.Get_eta hf)).2.1, (hI.log.sent g u v true hgv).2.1]
  · intro g u
    refine ⟨hT.once g u, fun hm => ?_⟩
    obtain ⟨f, hg, hu, -⟩ := hT.by_frame g u hm
    exact ⟨f, hg, hu⟩
  · intro u hu sched c1 hr
    have hr1 := h.extend sched hr
    have hA : ∀ (g : Nat) (f : Frame), c.gs.length ≤ g → c1.gs[g]? = some f →
        ∃ (p : Nat) (pf : Frame) (v : String),
          f.parent = some p ∧ c1.gs[p]? = some pf ∧ pf.urls[f.own]? = some v ∧ v ≠ u := by
      intro g f hge hg
      have hap := run_keeps_apart c.gs.length sched hr hI hu
        (fun j x hj hx => by
          have := (List.getElem?_eq_some.1 hx).1
          omega) g f hge hg
      obtain ⟨m, hm, -⟩ := hT.main
      have hpos : 0 < c.gs.length := (List.getElem?_eq_some.1 hm).1
      cases hp : f.parent with
      | none =>
        have := ((Reachable.invariant hr1).link g f hg).root hp
        omega
      | some p =>
        obtain ⟨pf, v, h1, h2, h3⟩ := hap p hp
        exact ⟨p, pf, v, rfl, h1, h2, h3⟩
    refine ⟨hA, ?_⟩
    intro hlv g hg
    subst hlv
    by_contra hge
    obtain ⟨f, hf, -, hown⟩ := hr1.fetch_own_link hg
    obtain ⟨p, pf, v, hp, hpf, hv, hvu⟩ := hA g f (by omega) hf
    obtain ⟨pf2, hpf2, hu2⟩ := hown p hp
    rw [hpf] at hpf2
    cases hpf2
    rw [hv] at hu2
    exact hvu (Option.some.inj hu2)
  · intro hlv
    subst hlv
    exact hT.fetched_once (fun g1 g2 h1 h2 => by
      rw [h.seed_by_main g1 h1, h.seed_by_main g2 h2])

/-- C2 as amended, on the run of the diamond that fetches `D` twice, the two goroutines
that do having been spawned before either stored it: the seed `A` is fetched once, and no
goroutine has fetched twice. -/
theorem Crawl_dedup_by_lookup_witness :
    ∃ c : Config, Reachable .perIteration diamond.Fetch .empty "A" 3 c ∧
      fetched c.trace = ["A", "B", "C", "D", "D"] ∧ c.cache.Get "D" = ("d", true) ∧
      fetchCount "A" c.trace ≤ 1 ∧
      (∀ (g : Nat) (u : String), c.trace.count (Event.fetch g u) ≤ 1 ∧
        (Event.fetch g u ∈ c.trace → ∃ f : Frame, c.gs[g]? = some f ∧ f.url = u)) :=
  ⟨_, ⟨diamondRun, rfl⟩, by decide, by decide,
    (Crawl_dedup_by_lookup .perIteration diamond.Fetch "A" 3 _ ⟨diamondRun, rfl⟩).2.2.2.2.2.1
      rfl,
    (Crawl_dedup_by_lookup .perIteration diamond.Fetch "A" 3 _ ⟨diamondRun, rfl⟩).2.2.1⟩

end Crawler
